import Mathlib

/-!
Verification of the indracore/indrabase scheduler
(source: src/indracore/runtime/src/scheduler/mod.rs).

The Rust pallet is shallowly embedded: every storage item becomes a field of
SchedulerState, every entry point becomes a pure function on that state.
Machine integers (u32 block numbers, core indices, counters) are modelled as
Nat; subtraction on block numbers in the source is saturating, matching Nat
subtraction.  Places where the source can abort (index arithmetic modulo zero
in enqueue_entry, or the .expect on group_assigned_to_core inside schedule)
are modelled with Option: a None result stands for the abort, after which no
storage is committed.
-/

namespace SelendraScheduler

/-- Workload identifier (primitives::v2::Id). -/
abbrev IndraId := Nat

/-- Collator identity; opaque to the scheduler, only carried around. -/
abbrev CollatorId := Nat

/-- primitives::v2::IndrabaseClaim: (workload id, collator identity). -/
structure IndrabaseClaim where
  indra : IndraId
  collator : CollatorId
deriving DecidableEq, Repr

/-- primitives::v2::IndrabaseEntry: a claim plus its retry counter. -/
structure IndrabaseEntry where
  claim : IndrabaseClaim
  retries : Nat
deriving DecidableEq, Repr

/-- QueuedIndrabase: a queued indrabase entry, pre-assigned to a core offset. -/
structure QueuedIndrabase where
  claim : IndrabaseEntry
  core_offset : Nat
deriving DecidableEq, Repr

/-- IndrabaseClaimQueue: the queue of all indrabase claims. -/
structure IndrabaseClaimQueue where
  queue : List QueuedIndrabase
  next_core_offset : Nat
deriving DecidableEq, Repr

/-- FreedReason: why a core was freed. -/
inductive FreedReason where
  | Concluded
  | TimedOut
deriving DecidableEq, Repr

/-- primitives::v2::CoreOccupied: the occupant of an availability core. -/
inductive CoreOccupied where
  | Indracore
  | Indrabase (entry : IndrabaseEntry)
deriving DecidableEq, Repr

/-- AssignmentKind from the source. -/
inductive AssignmentKind where
  | Indracore
  | Indrabase (collator : CollatorId) (retries : Nat)
deriving DecidableEq, Repr

/-- CoreAssignment: how a free core is scheduled to be assigned. -/
structure CoreAssignment where
  core : Nat
  indra_id : IndraId
  kind : AssignmentKind
  group_idx : Nat
deriving DecidableEq, Repr

/-- CoreAssignment::to_core_occupied. -/
def CoreAssignment.to_core_occupied (a : CoreAssignment) : CoreOccupied :=
  match a.kind with
  | .Indracore => .Indracore
  | .Indrabase collator retries => .Indrabase ⟨⟨a.indra_id, collator⟩, retries⟩

/-- The configuration fields read by the scheduler
(configuration::HostConfiguration, with the source field names). -/
structure HostConfig where
  indrabase_cores : Nat
  scheduling_lookahead : Nat
  indrabase_retries : Nat
  group_rotation_frequency : Nat
  chain_availability_period : Nat
  thread_availability_period : Nat
  max_validators_per_core : Option Nat
deriving DecidableEq, Repr

/-- The scheduler pallet storage: one field per storage item. -/
structure SchedulerState where
  validator_groups : List (List Nat)
  indrabase_queue : IndrabaseClaimQueue
  availability_cores : List (Option CoreOccupied)
  claim_index : List IndraId
  session_start_block : Nat
  scheduled : List CoreAssignment
deriving DecidableEq, Repr

/-- Genesis storage: every item at its ValueQuery default. -/
def genesisState : SchedulerState :=
  { validator_groups := []
    indrabase_queue := { queue := [], next_core_offset := 0 }
    availability_cores := []
    claim_index := []
    session_start_block := 0
    scheduled := [] }

/-- Genesis configuration: all-zero defaults. -/
def genesisConfig : HostConfig :=
  { indrabase_cores := 0, scheduling_lookahead := 0, indrabase_retries := 0
    group_rotation_frequency := 0, chain_availability_period := 0
    thread_availability_period := 0, max_validators_per_core := none }

/-- IndrabaseClaimQueue::enqueue_entry.  The source computes
(next_core_offset + 1) % n_indrabase_cores, which aborts when the core count
is zero (the function is documented to require a nonzero count); None models
that abort. -/
def enqueue_entry (q : IndrabaseClaimQueue) (entry : IndrabaseEntry)
    (n_indrabase_cores : Nat) : Option IndrabaseClaimQueue :=
  if n_indrabase_cores = 0 then none
  else
    some { queue := q.queue ++ [⟨entry, q.next_core_offset⟩]
           next_core_offset := (q.next_core_offset + 1) % n_indrabase_cores }

/-- Helper for take_next_on_core: remove the first queue element with the
given core offset, returning it together with the remaining queue. -/
def takeFirstOnCore (core_offset : Nat) :
    List QueuedIndrabase → Option (IndrabaseEntry × List QueuedIndrabase)
  | [] => none
  | x :: xs =>
    if x.core_offset = core_offset then some (x.claim, xs)
    else
      match takeFirstOnCore core_offset xs with
      | none => none
      | some (e, ys) => some (e, x :: ys)

/-- IndrabaseClaimQueue::take_next_on_core: remove and return the next queued
entry with the given core offset (the source finds the first matching
position and removes it). -/
def take_next_on_core (q : IndrabaseClaimQueue) (core_offset : Nat) :
    Option (IndrabaseEntry × IndrabaseClaimQueue) :=
  match takeFirstOnCore core_offset q.queue with
  | none => none
  | some (e, ys) => some (e, { q with queue := ys })

/-- IndrabaseClaimQueue::get_next_on_core. -/
def get_next_on_core (q : IndrabaseClaimQueue) (core_offset : Nat) :
    Option IndrabaseEntry :=
  (q.queue.find? (fun x => x.core_offset == core_offset)).map (·.claim)

/-- Sorted insertion into the claim index.  The source runs
binary_search (returning the Err insertion point) followed by Vec::insert;
on the sorted, duplicate-free index this is exactly insertion before the
first element that is not smaller. -/
def sortedInsert (x : IndraId) : List IndraId → List IndraId
  | [] => [x]
  | y :: ys => if x ≤ y then x :: y :: ys else y :: sortedInsert x ys

/-- Removal from the claim index: the source runs binary_search and, on Ok,
Vec::remove at the found position; on the sorted index this removes the
(first) occurrence of the id, i.e. List.erase. -/
def indexRemove (idx : List IndraId) (x : IndraId) : List IndraId :=
  idx.erase x

/-- Pallet::add_indrabase_claim.  The checks run in source order: liveness,
queue capacity, competing claim (binary_search on the sorted index, modelled
as membership), then sorted index insert and enqueue.  The enqueue cannot
abort here because a passed capacity check forces indrabase_cores > 0. -/
def add_indrabase_claim (is_indrabase : IndraId → Bool) (config : HostConfig)
    (claim : IndrabaseClaim) (s : SchedulerState) : Option SchedulerState :=
  if ¬ is_indrabase claim.indra then some s
  else
    let queue_max_size := config.indrabase_cores * config.scheduling_lookahead
    if s.indrabase_queue.queue.length ≥ queue_max_size then some s
    else if claim.indra ∈ s.claim_index then some s
    else
      match enqueue_entry s.indrabase_queue ⟨claim, 0⟩ config.indrabase_cores with
      | none => none
      | some q' =>
        some { s with claim_index := sortedInsert claim.indra s.claim_index
                      indrabase_queue := q' }

/-- One iteration of the Pallet::free_cores loop. -/
def free_one (config : HostConfig) (s : SchedulerState)
    (freed_index : Nat) (freed_reason : FreedReason) : Option SchedulerState :=
  if h : freed_index < s.availability_cores.length then
    match s.availability_cores.get ⟨freed_index, h⟩ with
    | none => some s
    | some .Indracore =>
      some { s with availability_cores := s.availability_cores.set freed_index none }
    | some (.Indrabase entry) =>
      match freed_reason with
      | .Concluded =>
        some { s with
          availability_cores := s.availability_cores.set freed_index none
          claim_index := indexRemove s.claim_index entry.claim.indra }
      | .TimedOut =>
        match enqueue_entry s.indrabase_queue entry config.indrabase_cores with
        | none => none
        | some q' =>
          some { s with
            availability_cores := s.availability_cores.set freed_index none
            indrabase_queue := q' }
  else some s

/-- Pallet::free_cores: fold of free_one over the freed list, in order. -/
def free_cores (config : HostConfig) (just_freed_cores : List (Nat × FreedReason))
    (s : SchedulerState) : Option SchedulerState :=
  just_freed_cores.foldlM (fun st fr => free_one config st fr.1 fr.2) s

/-- Pallet::group_assigned_to_core.  Block numbers are Nat; the conversion of
the rotation count to u32 falls back to 0 on overflow exactly as the source
does. -/
def group_assigned_to_core (config : HostConfig) (s : SchedulerState)
    (core at_block : Nat) : Option Nat :=
  if at_block < s.session_start_block then none
  else if s.validator_groups.length ≤ core then none
  else
    let rotations_since_session_start :=
      (at_block - s.session_start_block) / config.group_rotation_frequency
    let rotations32 :=
      if rotations_since_session_start < 2 ^ 32 then rotations_since_session_start else 0
    some ((core + rotations32) % s.validator_groups.length)

/-- Pallet::availability_timeout_predicate.  Saturating subtraction is Nat
subtraction.  The result is None ("no timing-out should be done") or the
predicate over (core index, pending-since block). -/
def availability_timeout_predicate (config : HostConfig) (s : SchedulerState)
    (now : Nat) : Option (Nat → Nat → Bool) :=
  let blocks_since_session_start := now - s.session_start_block
  let blocks_since_last_rotation :=
    blocks_since_session_start % config.group_rotation_frequency
  let absolute_cutoff :=
    max config.chain_availability_period config.thread_availability_period
  if blocks_since_last_rotation ≥ absolute_cutoff then none
  else
    some fun core_index pending_since =>
      match s.availability_cores.get? core_index with
      | none => true
      | some none => true
      | some (some .Indracore) =>
        if blocks_since_last_rotation ≥ config.chain_availability_period then false
        else decide (config.chain_availability_period ≤ now - pending_since)
      | some (some (.Indrabase _)) =>
        if blocks_since_last_rotation ≥ config.thread_availability_period then false
        else decide (config.thread_availability_period ≤ now - pending_since)

/-- Pallet::clear, inner loop body: fold each taken Scheduled entry back into
the queue with retries incremented, dropping dead or exhausted entries.  The
enqueue aborts (None) when indrabase_cores is zero, as in the source. -/
def clearFold (is_indrabase : IndraId → Bool) (config : HostConfig)
    (q : IndrabaseClaimQueue) (core_assignment : CoreAssignment) :
    Option IndrabaseClaimQueue :=
  match core_assignment.kind with
  | .Indracore => some q
  | .Indrabase collator retries =>
    if ¬ is_indrabase core_assignment.indra_id then some q
    else if retries + 1 ≤ config.indrabase_retries then
      enqueue_entry q ⟨⟨core_assignment.indra_id, collator⟩, retries + 1⟩
        config.indrabase_cores
    else some q

/-- Pallet::clear: free all scheduled cores and return indrabase claims to
the queue with retries incremented. -/
def clear (is_indrabase : IndraId → Bool) (config : HostConfig)
    (s : SchedulerState) : Option SchedulerState :=
  match s.scheduled.foldlM (clearFold is_indrabase config) s.indrabase_queue with
  | none => none
  | some q' => some { s with indrabase_queue := q', scheduled := [] }

/-- Explicit enumeration with a starting index (Vec iteration with enumerate). -/
def enumIdx (n : Nat) : List α → List (Nat × α)
  | [] => []
  | x :: xs => (n, x) :: enumIdx (n + 1) xs

/-- The while-loop inside Pallet::schedule that advances the iterator over
the previously Scheduled list until just before the core index under
inspection. -/
def advanceCursor (core_index : Nat) :
    List (Nat × CoreAssignment) → List (Nat × CoreAssignment)
  | [] => []
  | (j, assign) :: rest =>
    if assign.core < core_index then advanceCursor core_index rest
    else (j, assign) :: rest

/-- The body of the sweep for one unassigned core: build its new assignment
(indracore cores always get one; indrabase cores get one when the queue has
an entry on their offset — the queue take happens before the group lookup,
as in the source).  None models the source .expect abort on a failed group
lookup; otherwise returns the optional new assignment and the queue. -/
def scheduleCore (gac : Nat → Option Nat) (indracores : List IndraId)
    (core_index : Nat) (q : IndrabaseClaimQueue) :
    Option (Option CoreAssignment × IndrabaseClaimQueue) :=
  if h : core_index < indracores.length then
    match gac core_index with
    | none => none
    | some group_idx =>
      some (some { kind := .Indracore, indra_id := indracores.get ⟨core_index, h⟩
                   core := core_index, group_idx := group_idx }, q)
  else
    let core_offset := core_index - indracores.length
    match take_next_on_core q core_offset with
    | none => some (none, q)
    | some (entry, q1) =>
      match gac core_index with
      | none => none
      | some group_idx =>
        some (some { kind := .Indrabase entry.claim.collator entry.retries
                     indra_id := entry.claim.indra, core := core_index
                     group_idx := group_idx }, q1)

/-- The single ascending sweep of Pallet::schedule over the availability
cores.  Arguments: the group lookup (group_assigned_to_core at the current
block), the live indracore list, the length of the previously Scheduled list
(insertion point when the cursor is exhausted), the remaining cores (the
original vector dropped at core_index), the cursor into the enumerated
Scheduled list, and the queue.  Returns the scheduled updates (insertion
position in the original list plus assignment, in sweep order) and the final
queue. -/
def sweep (gac : Nat → Option Nat) (indracores : List IndraId) (schedLen : Nat) :
    List (Option CoreOccupied) → Nat → List (Nat × CoreAssignment) →
    IndrabaseClaimQueue →
    Option (List (Nat × CoreAssignment) × IndrabaseClaimQueue)
  | [], _, _, q => some ([], q)
  | some _ :: cs, core_index, cursor, q =>
    sweep gac indracores schedLen cs (core_index + 1) cursor q
  | none :: cs, core_index, cursor, q =>
    match advanceCursor core_index cursor with
    | (idx_in_scheduled, assign) :: rest' =>
      if assign.core = core_index then
        -- case 2 of the source: an entry with the same index exists already.
        sweep gac indracores schedLen cs (core_index + 1)
          ((idx_in_scheduled, assign) :: rest') q
      else
        -- case 3: insert before the first entry with a higher core index.
        match scheduleCore gac indracores core_index q with
        | none => none
        | some (none, q1) =>
          sweep gac indracores schedLen cs (core_index + 1)
            ((idx_in_scheduled, assign) :: rest') q1
        | some (some assignment, q1) =>
          match sweep gac indracores schedLen cs (core_index + 1)
              ((idx_in_scheduled, assign) :: rest') q1 with
          | none => none
          | some (updates, q') => some ((idx_in_scheduled, assignment) :: updates, q')
    | [] =>
      -- case 1 of the source: cursor exhausted; schedule and put at the end.
      match scheduleCore gac indracores core_index q with
      | none => none
      | some (none, q1) => sweep gac indracores schedLen cs (core_index + 1) [] q1
      | some (some assignment, q1) =>
        match sweep gac indracores schedLen cs (core_index + 1) [] q1 with
        | none => none
        | some (updates, q') => some ((schedLen, assignment) :: updates, q')

/-- The insertion loop at the end of Pallet::schedule: each update is
inserted at its recorded position plus the number of insertions already
applied (the enumeration counter k). -/
def applyUpdatesAux (sched : List CoreAssignment) :
    List (Nat × CoreAssignment) → Nat → List CoreAssignment
  | [], _ => sched
  | (insert_at, to_insert) :: rest, k =>
    applyUpdatesAux (sched.insertIdx (k + insert_at) to_insert) rest (k + 1)

/-- Enact the scheduled updates on the previous Scheduled list. -/
def applyUpdates (sched : List CoreAssignment)
    (updates : List (Nat × CoreAssignment)) : List CoreAssignment :=
  applyUpdatesAux sched updates 0

/-- Pallet::schedule: free the given cores, then fill every unassigned core.
None models an abort (enqueue with zero indrabase cores during freeing, or
the .expect on group_assigned_to_core). -/
def schedule (indracores : List IndraId) (config : HostConfig)
    (just_freed_cores : List (Nat × FreedReason)) (now : Nat)
    (s : SchedulerState) : Option SchedulerState :=
  match free_cores config just_freed_cores s with
  | none => none
  | some s1 =>
    if s1.validator_groups.isEmpty then some s1
    else
      match sweep (fun core => group_assigned_to_core config s1 core now)
          indracores s1.scheduled.length s1.availability_cores 0
          (enumIdx 0 s1.scheduled) s1.indrabase_queue with
      | none => none
      | some (scheduled_updates, q') =>
        some { s1 with scheduled := applyUpdates s1.scheduled scheduled_updates
                       indrabase_queue := q' }

/-- The retain-with-peekable sweep of Pallet::occupied: remove each entry of
Scheduled matched by the sorted now_occupied list and install it as the
occupant of its core.  (The source writes through availability_cores by
index; an out-of-range write is outside the documented caller contract.) -/
def occupiedSweep (now_occupied : List Nat) (sched : List CoreAssignment)
    (cores : List (Option CoreOccupied)) :
    List CoreAssignment × List (Option CoreOccupied) :=
  match sched with
  | [] => ([], cores)
  | assignment :: rest =>
    match now_occupied with
    | [] =>
      let (r, c) := occupiedSweep [] rest cores
      (assignment :: r, c)
    | occupied_idx :: os =>
      if occupied_idx = assignment.core then
        occupiedSweep os rest
          (cores.set assignment.core (some assignment.to_core_occupied))
      else
        let (r, c) := occupiedSweep (occupied_idx :: os) rest cores
        (assignment :: r, c)

/-- Pallet::occupied. -/
def occupied (now_occupied : List Nat) (s : SchedulerState) : SchedulerState :=
  if now_occupied.isEmpty then s
  else
    let (sched', cores') := occupiedSweep now_occupied s.scheduled s.availability_cores
    { s with scheduled := sched', availability_cores := cores' }

/-- The retain-loop of the session-change hook: walk the queue in order,
keep entries that are within the retry limit and still live, and erase the
ids of dropped entries from the claim index as they are encountered. -/
def pruneQueue (is_indrabase : IndraId → Bool) (config : HostConfig) :
    List QueuedIndrabase → List IndraId → List QueuedIndrabase × List IndraId
  | [], idx => ([], idx)
  | x :: xs, idx =>
    if x.claim.retries ≤ config.indrabase_retries ∧ is_indrabase x.claim.claim.indra then
      let (ys, idx') := pruneQueue is_indrabase config xs idx
      (x :: ys, idx')
    else
      pruneQueue is_indrabase config xs (indexRemove idx x.claim.claim.indra)

/-- The pruning and re-balancing of the claim queue on session change: with
no indrabase cores everything is wiped; otherwise entries beyond the retry
limit or no longer live are dropped (their ids erased from the index) and
the surviving queue is re-affinitized by position modulo the core count. -/
def pruneAndRebalance (is_indrabase : IndraId → Bool) (config : HostConfig)
    (tq : List QueuedIndrabase) (idx : List IndraId) :
    IndrabaseClaimQueue × List IndraId :=
  if config.indrabase_cores = 0 then
    ({ queue := [], next_core_offset := 0 }, [])
  else
    let pruned := pruneQueue is_indrabase config tq idx
    ({ queue := (enumIdx 0 pruned.1).map fun p =>
         { p.2 with core_offset := p.1 % config.indrabase_cores }
       next_core_offset := pruned.1.length % config.indrabase_cores },
     pruned.2)

/-- The group construction of the session-change hook (validators already
shuffled upstream; groups hold indices into that list). -/
def buildGroups (n_validators n_cores : Nat) : List (List Nat) :=
  if n_cores = 0 ∨ n_validators = 0 then []
  else
    let group_base_size := n_validators / n_cores
    let n_larger_groups := n_validators % n_cores
    ((List.range n_larger_groups).map fun i =>
      (List.range (group_base_size + 1)).map fun j => (group_base_size + 1) * i + j)
    ++ ((List.range (n_cores - n_larger_groups)).map fun i =>
      (List.range group_base_size).map fun j =>
        n_larger_groups * (group_base_size + 1) + i * group_base_size + j)

/-- The session-change hook of the pallet (the source function also reads
the current block number; it is passed here as current_block, and the
session start becomes the following block). -/
def on_new_session (indracores : List IndraId) (is_indrabase : IndraId → Bool)
    (config : HostConfig) (n_validators : Nat) (current_block : Nat)
    (s : SchedulerState) : SchedulerState :=
  let n_indracores := indracores.length
  let n_cores := max (n_indracores + config.indrabase_cores)
    (match config.max_validators_per_core with
     | some x => if x ≠ 0 then n_validators / x else 0
     | none => 0)
  -- clear all occupied cores, converting indrabase occupants into queued
  -- claims (core offset fixed later in the re-balancing), then resize.
  let thread_queue0 : IndrabaseClaimQueue :=
    { s.indrabase_queue with
      queue := s.indrabase_queue.queue ++
        s.availability_cores.filterMap fun c =>
          match c with
          | some (.Indrabase claim) => some ⟨claim, 0⟩
          | _ => none }
  let cores' : List (Option CoreOccupied) := List.replicate n_cores none
  let groups' := buildGroups n_validators n_cores
  -- prune entries beyond retry or no longer live, then re-balance offsets.
  let pruned := pruneAndRebalance is_indrabase config thread_queue0.queue s.claim_index
  { validator_groups := groups'
    indrabase_queue := pruned.1
    availability_cores := cores'
    claim_index := pruned.2
    session_start_block := current_block + 1
    scheduled := s.scheduled }

/-! ### Concrete example inputs used by counterexamples and witnesses -/

/-- Example liveness oracle: only workload 7 is a live indrabase. -/
def exLive : IndraId → Bool := fun i => i == 7

/-- Example configuration: one indrabase core, lookahead 2, retry limit 1,
rotation frequency 10, availability periods 3. -/
def exCfg : HostConfig :=
  { indrabase_cores := 1
    scheduling_lookahead := 2
    indrabase_retries := 1
    group_rotation_frequency := 10
    chain_availability_period := 3
    thread_availability_period := 3
    max_validators_per_core := none }

/-- Example state with two validator groups and two free cores, session
started at block 100. -/
def exStateTwoGroups : SchedulerState :=
  { validator_groups := [[0], [1]]
    indrabase_queue := ⟨[], 0⟩
    availability_cores := [none, none]
    claim_index := []
    session_start_block := 100
    scheduled := [] }

/-- Example state with one validator group and one free indrabase core. -/
def exStateOneCore : SchedulerState :=
  { validator_groups := [[0]]
    indrabase_queue := ⟨[], 0⟩
    availability_cores := [none]
    claim_index := []
    session_start_block := 0
    scheduled := [] }

/-- The C2 scenario trace: submit the claim for workload 7, then run three
block cycles (clear, schedule, occupied).  The second and third cycles free
core 0 with reason TimedOut, and a final clear-and-schedule cycle processes
the claim a third time; no Concluded free ever happens. -/
def exTimeoutTrace : Option SchedulerState :=
  (add_indrabase_claim exLive exCfg ⟨7, 9⟩ exStateOneCore).bind fun s1 =>
  (clear exLive exCfg s1).bind fun s2 =>
  (schedule [] exCfg [] 1 s2).bind fun s3 =>
  (clear exLive exCfg (occupied [0] s3)).bind fun s5 =>
  (schedule [] exCfg [(0, .TimedOut)] 2 s5).bind fun s6 =>
  (clear exLive exCfg (occupied [0] s6)).bind fun s8 =>
  (schedule [] exCfg [(0, .TimedOut)] 3 s8).bind fun s9 =>
  (clear exLive exCfg (occupied [0] s9)).bind fun s11 =>
  (schedule [] exCfg [(0, .TimedOut)] 4 s11)

/-- A state whose Scheduled list carries one indrabase assignment whose
retry count is already at the configured limit, plus one queued claim. -/
def exClearState : SchedulerState :=
  { validator_groups := [[0]]
    indrabase_queue := ⟨[⟨⟨⟨7, 9⟩, 0⟩, 0⟩], 0⟩
    availability_cores := [none, none]
    claim_index := [5, 7]
    session_start_block := 0
    scheduled := [{ core := 1, indra_id := 5, kind := .Indrabase 4 1, group_idx := 0 }] }

/-- One-core state with the claim for workload 7 queued (offset 0) and
indexed. -/
def exStateClaimQueued : SchedulerState :=
  { validator_groups := [[0]]
    indrabase_queue := ⟨[⟨⟨⟨7, 9⟩, 0⟩, 0⟩], 0⟩
    availability_cores := [none]
    claim_index := [7]
    session_start_block := 0
    scheduled := [] }

/-- The state produced by scheduling exStateClaimQueued at block 1: the
claim occupies the Scheduled list on core 0, group 0. -/
def exStateClaimScheduled : SchedulerState :=
  { validator_groups := [[0]]
    indrabase_queue := ⟨[], 0⟩
    availability_cores := [none]
    claim_index := [7]
    session_start_block := 0
    scheduled := [{ core := 0, indra_id := 7, kind := .Indrabase 9 0, group_idx := 0 }] }

/-- The state after running the session-change hook at block 0 on genesis
with one validator, no indracores and the example configuration. -/
def exSessState : SchedulerState :=
  { validator_groups := [[0]]
    indrabase_queue := ⟨[], 0⟩
    availability_cores := [none]
    claim_index := []
    session_start_block := 1
    scheduled := [] }

/-- exSessState after the claim for workload 7 was submitted. -/
def exQueuedState : SchedulerState :=
  { validator_groups := [[0]]
    indrabase_queue := ⟨[⟨⟨⟨7, 9⟩, 0⟩, 0⟩], 0⟩
    availability_cores := [none]
    claim_index := [7]
    session_start_block := 1
    scheduled := [] }

/-- exQueuedState after clear-and-schedule at block 2: the claim moved from
the queue onto the Scheduled list for core 0. -/
def exSchedState : SchedulerState :=
  { validator_groups := [[0]]
    indrabase_queue := ⟨[], 0⟩
    availability_cores := [none]
    claim_index := [7]
    session_start_block := 1
    scheduled := [{ core := 0, indra_id := 7, kind := .Indrabase 9 0
                    group_idx := 0 }] }

/-! ### Derived notions used by the invariants -/

/-- The workload ids of the queued claims, in queue order. -/
def queueIds (q : IndrabaseClaimQueue) : List IndraId :=
  q.queue.map fun x => x.claim.claim.indra

/-- The workload ids of a raw list of queued entries. -/
def entryIds (l : List QueuedIndrabase) : List IndraId :=
  l.map fun x => x.claim.claim.indra

/-- The queue contents fed into the session-change pruning: the old queue
followed by the occupants harvested from the cleared cores. -/
def harvestQueue (s : SchedulerState) : List QueuedIndrabase :=
  s.indrabase_queue.queue ++
    s.availability_cores.filterMap fun c =>
      match c with
      | some (.Indrabase claim) => some ⟨claim, 0⟩
      | _ => none

/-- The workload ids of the indrabase assignments in a Scheduled list, in
order (indracore assignments carry no claim). -/
def schedIds (l : List CoreAssignment) : List IndraId :=
  l.filterMap fun a =>
    match a.kind with
    | .Indrabase _ _ => some a.indra_id
    | .Indracore => none

/-- The workload ids of the indrabase occupants of the availability cores,
in core order. -/
def coreIds (cs : List (Option CoreOccupied)) : List IndraId :=
  cs.filterMap fun c =>
    match c with
    | some (.Indrabase e) => some e.claim.indra
    | _ => none

/-- The workload ids of the indrabase assignments among scheduled updates. -/
def updIds (u : List (Nat × CoreAssignment)) : List IndraId :=
  schedIds (u.map Prod.snd)

/-- Well-formedness of the scheduled updates produced by the sweep, stated
against the original Scheduled list: insert positions are nondecreasing and
in range, assignment cores are at least the sweep position and strictly
increasing, and every insert position correctly separates the original list
by assignment core. -/
inductive Compat (sched : List CoreAssignment) : Nat → Nat → List (Nat × CoreAssignment) → Prop where
  | nil : ∀ ci d, Compat sched ci d []
  | cons : ∀ ci d p a rest, d ≤ p → p ≤ sched.length → ci ≤ a.core →
      (∀ b ∈ sched.take p, b.core < a.core) →
      (∀ b ∈ sched.drop p, a.core < b.core) →
      Compat sched (a.core + 1) p rest →
      Compat sched ci d ((p, a) :: rest)

/-- The conclusions of the sweep specification: the updates are compatible
with the original Scheduled list, indrabase update ids are transferred from
the queue, the queue only shrinks, every update sits on a free core of the
sweep range, and every free core of the range is already scheduled, newly
scheduled, or an indrabase core with no matching queued claim left. -/
def sweepPost (indracores : List IndraId) (sched : List CoreAssignment)
    (cs : List (Option CoreOccupied)) (ci d : Nat) (q : IndrabaseClaimQueue)
    (updates : List (Nat × CoreAssignment)) (q' : IndrabaseClaimQueue) : Prop :=
  Compat sched ci d updates ∧
  List.Perm (queueIds q' ++ updIds updates) (queueIds q) ∧
  List.Sublist q'.queue q.queue ∧
  (∀ pa ∈ updates, ∃ k, pa.2.core = ci + k ∧ cs.get? k = some none) ∧
  (∀ k, cs.get? k = some none →
    (∃ a ∈ sched, a.core = ci + k) ∨
    (∃ p a, (p, a) ∈ updates ∧ a.core = ci + k) ∨
    (indracores.length ≤ ci + k ∧
      takeFirstOnCore (ci + k - indracores.length) q'.queue = none))

/-- The documented caller contract of Pallet::occupied: now_occupied is
sorted ascending and every listed core is in range and present in the
Scheduled list. -/
def OccContract (s : SchedulerState) (now_occupied : List Nat) : Prop :=
  now_occupied.Pairwise (· < ·) ∧
  ∀ i ∈ now_occupied,
    i < s.availability_cores.length ∧ ∃ a ∈ s.scheduled, a.core = i

/-- The phase of the per-block call discipline: block boundary, after the
session-change hook, after clear, after schedule, after occupied (claims are
submitted after the scheduler inherent, so add steps stay in the last
phase). -/
inductive Ph where
  | bdry
  | postSC
  | postClear
  | postSched
  | postOcc
deriving DecidableEq

/-- States reachable through the scheduler entry points under the documented
per-block call discipline: each block optionally runs the session-change
hook, then clear, then schedule, then occupied (with its caller contract),
then any number of claim submissions.  The configuration in force is the one
installed by the last session change.  A None result of a fallible entry
point models an abort, after which nothing is committed, so such calls
produce no new state. -/
inductive Reach : Ph → HostConfig → SchedulerState → Prop where
  | genesis : Reach .bdry genesisConfig genesisState
  | newSession : ∀ config s indracores is_indrabase newConfig n_validators
      current_block, Reach .bdry config s →
      Reach .postSC newConfig
        (on_new_session indracores is_indrabase newConfig n_validators
          current_block s)
  | clearStep : ∀ ph config s is_indrabase s',
      ph = .bdry ∨ ph = .postSC → Reach ph config s →
      clear is_indrabase config s = some s' →
      Reach .postClear config s'
  | scheduleStep : ∀ config s indracores just_freed now s',
      Reach .postClear config s →
      schedule indracores config just_freed now s = some s' →
      Reach .postSched config s'
  | occupiedStep : ∀ config s now_occupied,
      Reach .postSched config s → OccContract s now_occupied →
      Reach .postOcc config (occupied now_occupied s)
  | addStep : ∀ config s is_indrabase c s',
      Reach .postOcc config s →
      add_indrabase_claim is_indrabase config c s = some s' →
      Reach .postOcc config s'
  | endBlock : ∀ config s, Reach .postOcc config s → Reach .bdry config s

/-- Distinctness of every live indrabase claim across the queue, the
Scheduled list and the occupied cores. -/
def LiveNodup (s : SchedulerState) : Prop :=
  (queueIds s.indrabase_queue ++ schedIds s.scheduled ++
    coreIds s.availability_cores).Nodup

/-- Every queued or occupying claim id is recorded in ClaimIndex. -/
def QCInIndex (s : SchedulerState) : Prop :=
  ∀ x, x ∈ queueIds s.indrabase_queue ++ coreIds s.availability_cores →
    x ∈ s.claim_index

/-- Every scheduled indrabase claim id is recorded in ClaimIndex. -/
def SInIndex (s : SchedulerState) : Prop :=
  ∀ x ∈ schedIds s.scheduled, x ∈ s.claim_index

/-- ClaimIndex is strictly sorted. -/
def IdxSorted (s : SchedulerState) : Prop :=
  s.claim_index.Pairwise (· < ·)

/-- Scheduled is strictly sorted by core index. -/
def SchedSorted (s : SchedulerState) : Prop :=
  s.scheduled.Pairwise fun a b => a.core < b.core

/-- No Scheduled entry sits on an occupied (in-range) core. -/
def SchedFree (s : SchedulerState) : Prop :=
  ∀ a ∈ s.scheduled, s.availability_cores.getD a.core none = none

/-- The phase-independent part of the scheduler invariant. -/
def CoreInv (s : SchedulerState) : Prop :=
  LiveNodup s ∧ QCInIndex s ∧ IdxSorted s ∧ SchedSorted s ∧ SchedFree s

/-- Under a configuration with no indrabase cores, the queue and the
occupied cores carry no indrabase claims. -/
def ZeroEmpty (s : SchedulerState) : Prop :=
  queueIds s.indrabase_queue = [] ∧ coreIds s.availability_cores = []

/-- The full invariant, per phase of the block discipline. -/
def PhInv : Ph → HostConfig → SchedulerState → Prop
  | .bdry, config, s => CoreInv s ∧ (config.indrabase_cores ≠ 0 → SInIndex s) ∧
      (config.indrabase_cores = 0 → ZeroEmpty s ∧ schedIds s.scheduled = [])
  | .postSC, config, s => CoreInv s ∧ (config.indrabase_cores ≠ 0 → SInIndex s) ∧
      (config.indrabase_cores = 0 → ZeroEmpty s)
  | .postClear, config, s => CoreInv s ∧ s.scheduled = [] ∧
      (config.indrabase_cores = 0 → ZeroEmpty s)
  | .postSched, config, s => CoreInv s ∧ SInIndex s ∧
      (config.indrabase_cores = 0 → ZeroEmpty s ∧ schedIds s.scheduled = [])
  | .postOcc, config, s => CoreInv s ∧ SInIndex s ∧
      (config.indrabase_cores = 0 → ZeroEmpty s ∧ schedIds s.scheduled = [])

/-! ### Theorems -/

/-- C10: clear() mutates only the Scheduled list (emptied) and the claim
queue; ClaimIndex, the availability cores, the validator groups and the
session start block are untouched — in particular ClaimIndex is unchanged
even when an entry is permanently dropped. -/
theorem claim_C10 (is_indrabase : IndraId → Bool) (config : HostConfig)
    (s s' : SchedulerState) (h : clear is_indrabase config s = some s') :
    s'.claim_index = s.claim_index ∧
    s'.availability_cores = s.availability_cores ∧
    s'.validator_groups = s.validator_groups ∧
    s'.session_start_block = s.session_start_block ∧
    s'.scheduled = [] := by
  unfold clear at h
  cases hq : s.scheduled.foldlM (clearFold is_indrabase config) s.indrabase_queue with
  | none => rw [hq] at h; exact absurd h (by simp)
  | some q' =>
    rw [hq] at h
    cases h
    exact ⟨rfl, rfl, rfl, rfl, rfl⟩

/-- C10 witness: a run of clear() in which the scheduled indrabase entry for
workload 5 is dropped for exceeding the retry limit, yet ClaimIndex still
contains 5 afterwards. -/
theorem claim_C10_witness :
    clear exLive exCfg exClearState =
      some { exClearState with scheduled := [] } ∧
    ({ exClearState with scheduled := ([] : List CoreAssignment) }).claim_index =
        exClearState.claim_index ∧
    ({ exClearState with scheduled := ([] : List CoreAssignment) }).availability_cores =
        exClearState.availability_cores ∧
    ({ exClearState with scheduled := ([] : List CoreAssignment) }).validator_groups =
        exClearState.validator_groups ∧
    ({ exClearState with scheduled := ([] : List CoreAssignment) }).session_start_block =
        exClearState.session_start_block ∧
    ({ exClearState with scheduled := ([] : List CoreAssignment) }).scheduled = [] := by
  refine ⟨by decide, ?_⟩
  have h := claim_C10 exLive exCfg exClearState
    { exClearState with scheduled := [] } (by decide)
  exact ⟨h.1, h.2.1, h.2.2.1, h.2.2.2.1, h.2.2.2.2⟩

/-- C1 counterexample: with rotation frequency 10, session start 100 and two
groups, the group serving core 0 is 0 at block 100 but already 1 at block
110 = SessionStartBlock + 10 — the shift happens at the tenth block after
session start, not the eleventh, contradicting the claim that no shift
occurs up to and including SessionStartBlock + 10. -/
theorem claim_C1_counterexample :
    group_assigned_to_core exCfg exStateTwoGroups 0
        (exStateTwoGroups.session_start_block + 10) = some 1 ∧
    group_assigned_to_core exCfg exStateTwoGroups 0
        exStateTwoGroups.session_start_block = some 0 ∧
    group_assigned_to_core exCfg exStateTwoGroups 0
        (exStateTwoGroups.session_start_block + 11) = some 1 := by
  decide

/-- C1 amended: with group_rotation_frequency = 10 and at least two groups,
the group assigned to an in-range core is unchanged at blocks
SessionStartBlock + t for t = 0..9 and shifts by exactly 1 (mod the group
count) at block SessionStartBlock + 10. -/
theorem claim_C1 (config : HostConfig) (s : SchedulerState) (core t : Nat)
    (hf : config.group_rotation_frequency = 10)
    (hg : 2 ≤ s.validator_groups.length)
    (hc : core < s.validator_groups.length)
    (ht : t ≤ 9) :
    group_assigned_to_core config s core (s.session_start_block + t) =
      some (core % s.validator_groups.length) ∧
    group_assigned_to_core config s core (s.session_start_block + 10) =
      some ((core + 1) % s.validator_groups.length) ∧
    (core + 1) % s.validator_groups.length ≠ core % s.validator_groups.length := by
  have hn : 0 < s.validator_groups.length := by omega
  refine ⟨?_, ?_, ?_⟩
  · unfold group_assigned_to_core
    rw [if_neg (by omega), if_neg (by omega), hf]
    have h1 : s.session_start_block + t - s.session_start_block = t := by omega
    rw [h1]
    have h2 : t / 10 = 0 := Nat.div_eq_of_lt (by omega)
    rw [h2]
    simp
  · unfold group_assigned_to_core
    rw [if_neg (by omega), if_neg (by omega), hf]
    have h1 : s.session_start_block + 10 - s.session_start_block = 10 := by omega
    rw [h1]
    norm_num
  · rw [Nat.mod_eq_of_lt hc]
    rcases Nat.lt_or_ge (core + 1) s.validator_groups.length with h | h
    · rw [Nat.mod_eq_of_lt h]; omega
    · have he : core + 1 = s.validator_groups.length := by omega
      rw [he, Nat.mod_self]; omega

/-- C1 witness: the amended property instantiated at the example state. -/
theorem claim_C1_witness :
    exCfg.group_rotation_frequency = 10 ∧
    2 ≤ exStateTwoGroups.validator_groups.length ∧
    0 < exStateTwoGroups.validator_groups.length ∧
    (9 : Nat) ≤ 9 ∧
    (group_assigned_to_core exCfg exStateTwoGroups 0
        (exStateTwoGroups.session_start_block + 9) =
      some (0 % exStateTwoGroups.validator_groups.length) ∧
    group_assigned_to_core exCfg exStateTwoGroups 0
        (exStateTwoGroups.session_start_block + 10) =
      some ((0 + 1) % exStateTwoGroups.validator_groups.length) ∧
    (0 + 1) % exStateTwoGroups.validator_groups.length ≠
      0 % exStateTwoGroups.validator_groups.length) :=
  ⟨by decide, by decide, by decide, by decide,
   claim_C1 exCfg exStateTwoGroups 0 9 (by decide) (by decide) (by decide) (by decide)⟩

/-- C8: the availability-timeout predicate is absent exactly when the blocks
since the last rotation reach the larger of the two availability periods
(boundary included); when present it answers true for out-of-range or
unoccupied cores, and for an occupied core it answers true exactly when the
blocks since rotation are still below the occupant kind's availability
period and the occupant has been pending for at least that period. -/
theorem claim_C8 (config : HostConfig) (s : SchedulerState) (now : Nat)
    (hf : 0 < config.group_rotation_frequency) :
    (availability_timeout_predicate config s now = none ↔
      max config.chain_availability_period config.thread_availability_period ≤
        (now - s.session_start_block) % config.group_rotation_frequency) ∧
    ∀ f, availability_timeout_predicate config s now = some f →
      (∀ i p, s.availability_cores.get? i = some (some .Indracore) →
        (f i p = true ↔
          ((now - s.session_start_block) % config.group_rotation_frequency <
              config.chain_availability_period ∧
            config.chain_availability_period ≤ now - p))) ∧
      (∀ i p e, s.availability_cores.get? i = some (some (.Indrabase e)) →
        (f i p = true ↔
          ((now - s.session_start_block) % config.group_rotation_frequency <
              config.thread_availability_period ∧
            config.thread_availability_period ≤ now - p))) ∧
      (∀ i p, s.availability_cores.get? i = none ∨
          s.availability_cores.get? i = some none → f i p = true) := by
  clear hf
  unfold availability_timeout_predicate
  by_cases hcut :
      max config.chain_availability_period config.thread_availability_period ≤
        (now - s.session_start_block) % config.group_rotation_frequency
  · rw [if_pos hcut]
    simp [hcut]
  · rw [if_neg hcut]
    refine ⟨by simp [hcut], ?_⟩
    intro f hsome
    injection hsome with hfe
    subst hfe
    refine ⟨?_, ?_, ?_⟩
    · intro i p hocc
      simp only [hocc]
      by_cases hca :
          config.chain_availability_period ≤
            (now - s.session_start_block) % config.group_rotation_frequency
      · simp only [if_pos hca]
        constructor
        · intro h; exact absurd h (by simp)
        · intro h; omega
      · simp only [if_neg hca]
        simp only [decide_eq_true_eq]
        constructor
        · intro h; exact ⟨by omega, h⟩
        · intro h; exact h.2
    · intro i p e hocc
      simp only [hocc]
      by_cases hta :
          config.thread_availability_period ≤
            (now - s.session_start_block) % config.group_rotation_frequency
      · simp only [if_pos hta]
        constructor
        · intro h; exact absurd h (by simp)
        · intro h; omega
      · simp only [if_neg hta]
        simp only [decide_eq_true_eq]
        constructor
        · intro h; exact ⟨by omega, h⟩
        · intro h; exact h.2
    · intro i p hocc
      rcases hocc with h | h <;> simp only [h]

/-- C8 witness: the configured cutoff is 3 and rotation frequency 10; at
block 2 the predicate exists and is true on the unoccupied core 0, while at
block 103 (3 blocks past the rotation at 100) it is absent. -/
theorem claim_C8_witness :
    0 < exCfg.group_rotation_frequency ∧
    (availability_timeout_predicate exCfg exStateTwoGroups 103 = none ↔
      max exCfg.chain_availability_period exCfg.thread_availability_period ≤
        (103 - exStateTwoGroups.session_start_block) % exCfg.group_rotation_frequency) :=
  ⟨by decide, (claim_C8 exCfg exStateTwoGroups 103 (by decide)).1⟩

/-- Helper: an accepted add_indrabase_claim call (one that grew the queue)
appended exactly one entry with retries 0 at the state's next core offset,
advanced the offset counter by one modulo the indrabase core count, and
inserted the id into the sorted claim index. -/
theorem add_indrabase_claim_accepted (is_indrabase : IndraId → Bool)
    (config : HostConfig) (c : IndrabaseClaim) (s s' : SchedulerState)
    (h : add_indrabase_claim is_indrabase config c s = some s')
    (hlen : s'.indrabase_queue.queue.length = s.indrabase_queue.queue.length + 1) :
    s'.indrabase_queue.queue =
      s.indrabase_queue.queue ++ [⟨⟨c, 0⟩, s.indrabase_queue.next_core_offset⟩] ∧
    s'.indrabase_queue.next_core_offset =
      (s.indrabase_queue.next_core_offset + 1) % config.indrabase_cores ∧
    s'.claim_index = sortedInsert c.indra s.claim_index := by
  unfold add_indrabase_claim at h
  by_cases h1 : is_indrabase c.indra
  · rw [if_neg (by simp [h1])] at h
    by_cases h2 : s.indrabase_queue.queue.length ≥
        config.indrabase_cores * config.scheduling_lookahead
    · rw [if_pos h2] at h
      cases h
      omega
    · rw [if_neg h2] at h
      by_cases h3 : c.indra ∈ s.claim_index
      · rw [if_pos h3] at h
        cases h
        omega
      · rw [if_neg h3] at h
        unfold enqueue_entry at h
        by_cases h4 : config.indrabase_cores = 0
        · rw [if_pos h4] at h
          exact absurd h (by simp)
        · rw [if_neg h4] at h
          simp only [] at h
          cases h
          exact ⟨rfl, rfl, rfl⟩
  · rw [if_pos h1] at h
    cases h
    omega

/-- C9: two claims for distinct workloads, each accepted from the same
starting state, land on the same core offset: the entry appended by either
run carries exactly the state's next_core_offset, independent of the claim's
id, collator, or the validator groups. -/
theorem claim_C9 (is_indrabase : IndraId → Bool) (config : HostConfig)
    (c1 c2 : IndrabaseClaim) (s s1 s2 : SchedulerState)
    (h1 : add_indrabase_claim is_indrabase config c1 s = some s1)
    (hacc1 : s1.indrabase_queue.queue.length = s.indrabase_queue.queue.length + 1)
    (h2 : add_indrabase_claim is_indrabase config c2 s = some s2)
    (hacc2 : s2.indrabase_queue.queue.length = s.indrabase_queue.queue.length + 1) :
    (s1.indrabase_queue.queue.getLast?).map QueuedIndrabase.core_offset =
      some s.indrabase_queue.next_core_offset ∧
    (s2.indrabase_queue.queue.getLast?).map QueuedIndrabase.core_offset =
      some s.indrabase_queue.next_core_offset := by
  have e1 := (add_indrabase_claim_accepted is_indrabase config c1 s s1 h1 hacc1).1
  have e2 := (add_indrabase_claim_accepted is_indrabase config c2 s s2 h2 hacc2).1
  rw [e1, e2, List.getLast?_concat, List.getLast?_concat]
  exact ⟨rfl, rfl⟩

/-- C9 witness: claims for workloads 7 and 8 (different collators), both
live, both accepted on the empty example state, both land on offset 0. -/
theorem claim_C9_witness :
    (add_indrabase_claim (fun i => i ≤ 8) exCfg ⟨7, 9⟩ exStateOneCore).map
        (fun s => s.indrabase_queue.queue.length) = some 1 ∧
    (add_indrabase_claim (fun i => i ≤ 8) exCfg ⟨8, 4⟩ exStateOneCore).map
        (fun s => s.indrabase_queue.queue.length) = some 1 ∧
    ((add_indrabase_claim (fun i => i ≤ 8) exCfg ⟨7, 9⟩
        exStateOneCore).get (by decide)).indrabase_queue.queue.getLast?.map
          QueuedIndrabase.core_offset =
      some exStateOneCore.indrabase_queue.next_core_offset ∧
    ((add_indrabase_claim (fun i => i ≤ 8) exCfg ⟨8, 4⟩
        exStateOneCore).get (by decide)).indrabase_queue.queue.getLast?.map
          QueuedIndrabase.core_offset =
      some exStateOneCore.indrabase_queue.next_core_offset := by
  refine ⟨by decide, by decide, ?_⟩
  exact claim_C9 (fun i => i ≤ 8) exCfg ⟨7, 9⟩ ⟨8, 4⟩ exStateOneCore _ _
    (Option.some_get _).symm (by decide) (Option.some_get _).symm (by decide)

/-- C3: add_indrabase_claim leaves the whole state unchanged when the
workload is not live, when the queue has reached the capacity
indrabase_cores * scheduling_lookahead (the source tests with >=, so any
length at or beyond the bound is rejected), or when the id is already in
ClaimIndex; otherwise it inserts the id into the sorted index, appends one
entry with retries 0 carrying the current next_core_offset, and advances
next_core_offset to (next_core_offset + 1) mod indrabase_cores. -/
theorem claim_C3 (is_indrabase : IndraId → Bool) (config : HostConfig)
    (c : IndrabaseClaim) (s : SchedulerState) :
    (¬ is_indrabase c.indra →
      add_indrabase_claim is_indrabase config c s = some s) ∧
    (config.indrabase_cores * config.scheduling_lookahead ≤
        s.indrabase_queue.queue.length →
      add_indrabase_claim is_indrabase config c s = some s) ∧
    (c.indra ∈ s.claim_index →
      add_indrabase_claim is_indrabase config c s = some s) ∧
    (is_indrabase c.indra →
      s.indrabase_queue.queue.length <
        config.indrabase_cores * config.scheduling_lookahead →
      c.indra ∉ s.claim_index →
      add_indrabase_claim is_indrabase config c s =
        some { s with
          claim_index := sortedInsert c.indra s.claim_index
          indrabase_queue :=
            { queue := s.indrabase_queue.queue ++
                [⟨⟨c, 0⟩, s.indrabase_queue.next_core_offset⟩]
              next_core_offset :=
                (s.indrabase_queue.next_core_offset + 1) % config.indrabase_cores } }) := by
  refine ⟨?_, ?_, ?_, ?_⟩
  · intro h
    unfold add_indrabase_claim
    rw [if_pos h]
  · intro h
    unfold add_indrabase_claim
    by_cases h1 : is_indrabase c.indra
    · rw [if_neg (by simp [h1]), if_pos h]
    · rw [if_pos h1]
  · intro h
    unfold add_indrabase_claim
    by_cases h1 : is_indrabase c.indra
    · by_cases h2 : config.indrabase_cores * config.scheduling_lookahead ≤
          s.indrabase_queue.queue.length
      · rw [if_neg (by simp [h1]), if_pos h2]
      · rw [if_neg (by simp [h1]), if_neg h2, if_pos h]
    · rw [if_pos h1]
  · intro h1 h2 h3
    have hcores : config.indrabase_cores ≠ 0 := by
      intro h0
      rw [h0] at h2
      omega
    unfold add_indrabase_claim
    rw [if_neg (by simp [h1]), if_neg (by omega), if_neg h3]
    unfold enqueue_entry
    rw [if_neg hcores]

/-- C3 witness: the accepting case instantiated — the live workload 7 is
claimed on the empty one-core state; the index gains 7 and the queue gains
one entry at offset 0 with retries 0, and the offset counter advances. -/
theorem claim_C3_witness :
    exLive (7 : IndraId) = true ∧
    exStateOneCore.indrabase_queue.queue.length <
      exCfg.indrabase_cores * exCfg.scheduling_lookahead ∧
    (7 : IndraId) ∉ exStateOneCore.claim_index ∧
    add_indrabase_claim exLive exCfg ⟨7, 9⟩ exStateOneCore =
      some { exStateOneCore with
        claim_index := sortedInsert 7 exStateOneCore.claim_index
        indrabase_queue :=
          { queue := exStateOneCore.indrabase_queue.queue ++
              [⟨⟨⟨7, 9⟩, 0⟩, exStateOneCore.indrabase_queue.next_core_offset⟩]
            next_core_offset :=
              (exStateOneCore.indrabase_queue.next_core_offset + 1) %
                exCfg.indrabase_cores } } :=
  ⟨by decide, by decide, by decide,
   (claim_C3 exLive exCfg ⟨7, 9⟩ exStateOneCore).2.2.2 (by decide) (by decide) (by decide)⟩

/-- C2 counterexample: in the concrete scenario of the claim (retry limit 1,
one indrabase core, workload 7 claimed once, two TimedOut frees and a third
free cycle, no Concluded free) the claim is neither dropped nor removed from
ClaimIndex: after the third cycle the workload is scheduled again with retry
count still 0 and ClaimIndex still contains 7. -/
theorem claim_C2_counterexample :
    exTimeoutTrace.map (fun s => s.claim_index) = some [7] ∧
    exTimeoutTrace.map (fun s => s.scheduled.map (fun a => a.indra_id)) = some [7] ∧
    exTimeoutTrace.map (fun s => s.scheduled.map (fun a => a.kind)) =
      some [.Indrabase 9 0] ∧
    exTimeoutTrace.map (fun s => s.indrabase_queue.queue) = some [] := by
  decide

/-- C2 amended: a TimedOut free never drops a claim: it re-enqueues the
occupying entry with its retry count unchanged at the queue's next core
offset and leaves ClaimIndex untouched (so with indrabase_retry_limit = 1 a
claim survives any number of timeouts; entries are dropped only by clear()
or session-change pruning once their incremented retry count exceeds the
limit, and a drop by clear() does not remove the id from ClaimIndex). -/
theorem claim_C2 (config : HostConfig) (s : SchedulerState) (i : Nat)
    (entry : IndrabaseEntry)
    (hi : s.availability_cores.get? i = some (some (.Indrabase entry)))
    (hc : config.indrabase_cores ≠ 0) :
    free_cores config [(i, .TimedOut)] s =
      some { s with
        availability_cores := s.availability_cores.set i none
        indrabase_queue :=
          { queue := s.indrabase_queue.queue ++
              [⟨entry, s.indrabase_queue.next_core_offset⟩]
            next_core_offset :=
              (s.indrabase_queue.next_core_offset + 1) % config.indrabase_cores } } := by
  have hlen : i < s.availability_cores.length := by
    rcases List.get?_eq_some.mp hi with ⟨h, _⟩
    exact h
  have hget : s.availability_cores.get ⟨i, hlen⟩ = some (.Indrabase entry) := by
    rcases List.get?_eq_some.mp hi with ⟨h, hg⟩
    exact hg
  have hone : free_one config s i .TimedOut =
      some { s with
        availability_cores := s.availability_cores.set i none
        indrabase_queue :=
          { queue := s.indrabase_queue.queue ++
              [⟨entry, s.indrabase_queue.next_core_offset⟩]
            next_core_offset :=
              (s.indrabase_queue.next_core_offset + 1) % config.indrabase_cores } } := by
    unfold free_one
    rw [dif_pos hlen, hget]
    simp only [enqueue_entry, if_neg hc]
  show List.foldlM (fun st fr => free_one config st fr.1 fr.2) s
      [(i, FreedReason.TimedOut)] = _
  rw [List.foldlM, hone]
  rfl

/-- C2 witness: the amended single-timeout step instantiated at a state in
which core 0 is occupied by the entry for workload 7 with retries 0. -/
theorem claim_C2_witness :
    ({ exStateOneCore with
        availability_cores :=
          [some (.Indrabase ⟨⟨7, 9⟩, 0⟩)] } : SchedulerState).availability_cores.get? 0 =
      some (some (.Indrabase ⟨⟨7, 9⟩, 0⟩)) ∧
    exCfg.indrabase_cores ≠ 0 ∧
    free_cores exCfg [(0, .TimedOut)]
        { exStateOneCore with availability_cores := [some (.Indrabase ⟨⟨7, 9⟩, 0⟩)] } =
      some { { exStateOneCore with
               availability_cores := [some (.Indrabase ⟨⟨7, 9⟩, 0⟩)] } with
        availability_cores :=
          ([some (.Indrabase ⟨⟨7, 9⟩, 0⟩)] : List (Option CoreOccupied)).set 0 none
        indrabase_queue :=
          { queue := exStateOneCore.indrabase_queue.queue ++
              [⟨⟨⟨7, 9⟩, 0⟩, exStateOneCore.indrabase_queue.next_core_offset⟩]
            next_core_offset :=
              (exStateOneCore.indrabase_queue.next_core_offset + 1) %
                exCfg.indrabase_cores } } :=
  ⟨by decide, by decide,
   claim_C2 exCfg
     { exStateOneCore with availability_cores := [some (.Indrabase ⟨⟨7, 9⟩, 0⟩)] }
     0 ⟨⟨7, 9⟩, 0⟩ (by decide) (by decide)⟩

/-- The session-change group construction yields one group per core. -/
theorem buildGroups_length (n_validators n_cores : Nat) (h0 : n_cores ≠ 0)
    (hV : n_validators ≠ 0) :
    (buildGroups n_validators n_cores).length = n_cores := by
  unfold buildGroups
  rw [if_neg (by tauto)]
  have hlt : n_validators % n_cores < n_cores :=
    Nat.mod_lt _ (Nat.pos_of_ne_zero h0)
  simp [List.length_append, List.length_map, List.length_range]
  omega

/-- The sizes of the groups built on session change: the first
n_validators % n_cores groups have size n_validators / n_cores + 1, the
rest have size n_validators / n_cores. -/
theorem buildGroups_map_length (n_validators n_cores : Nat) (h0 : n_cores ≠ 0)
    (hV : n_validators ≠ 0) :
    (buildGroups n_validators n_cores).map List.length =
      List.replicate (n_validators % n_cores) (n_validators / n_cores + 1) ++
        List.replicate (n_cores - n_validators % n_cores) (n_validators / n_cores) := by
  unfold buildGroups
  rw [if_neg (by tauto)]
  rw [List.map_append, List.map_map, List.map_map]
  congr 1
  · apply List.eq_replicate.2
    constructor
    · simp
    · intro b hb
      simp only [List.mem_map, Function.comp] at hb
      rcases hb with ⟨i, _, hi⟩
      simp at hi
      omega
  · apply List.eq_replicate.2
    constructor
    · simp
    · intro b hb
      simp only [List.mem_map, Function.comp] at hb
      rcases hb with ⟨i, _, hi⟩
      simp at hi
      omega

/-- The total size of the groups built on session change is the number of
validators. -/
theorem buildGroups_sum (n_validators n_cores : Nat) (h0 : n_cores ≠ 0)
    (hV : n_validators ≠ 0) :
    ((buildGroups n_validators n_cores).map List.length).sum = n_validators := by
  rw [buildGroups_map_length n_validators n_cores h0 hV]
  rw [List.sum_append, List.sum_replicate, List.sum_replicate, smul_eq_mul, smul_eq_mul]
  have hlt : n_validators % n_cores < n_cores :=
    Nat.mod_lt _ (Nat.pos_of_ne_zero h0)
  have h1 : n_validators % n_cores * (n_validators / n_cores + 1) =
      n_validators % n_cores * (n_validators / n_cores) + n_validators % n_cores := by
    ring
  have h2 : (n_cores - n_validators % n_cores) * (n_validators / n_cores) =
      n_cores * (n_validators / n_cores) -
        n_validators % n_cores * (n_validators / n_cores) := by
    rw [Nat.sub_mul]
  have h3 : n_validators % n_cores * (n_validators / n_cores) ≤
      n_cores * (n_validators / n_cores) :=
    Nat.mul_le_mul_right _ (le_of_lt hlt)
  have h4 : n_cores * (n_validators / n_cores) + n_validators % n_cores =
      n_validators := Nat.div_add_mod _ _
  omega

/-- The size of each group built on session change, by index. -/
theorem buildGroups_get (n_validators n_cores : Nat) (h0 : n_cores ≠ 0)
    (hV : n_validators ≠ 0) (i : Nat)
    (hi : i < (buildGroups n_validators n_cores).length) :
    ((buildGroups n_validators n_cores).get ⟨i, hi⟩).length =
      if i < n_validators % n_cores then n_validators / n_cores + 1
      else n_validators / n_cores := by
  have hmap := buildGroups_map_length n_validators n_cores h0 hV
  have hlt : n_validators % n_cores < n_cores :=
    Nat.mod_lt _ (Nat.pos_of_ne_zero h0)
  have hi' : i < ((buildGroups n_validators n_cores).map List.length).length := by
    rw [List.length_map]; exact hi
  have hget : ((buildGroups n_validators n_cores).get ⟨i, hi⟩).length =
      ((buildGroups n_validators n_cores).map List.length).get ⟨i, hi'⟩ := by
    simp
  rw [hget]
  simp only [List.get_eq_getElem, hmap]
  rcases Nat.lt_or_ge i (n_validators % n_cores) with hcase | hcase
  · rw [if_pos hcase]
    rw [List.getElem_append_left (by simpa using hcase)]
    exact List.getElem_replicate _ _
  · rw [if_neg (by omega)]
    rw [List.getElem_append_right (by simpa using hcase)]
    exact List.getElem_replicate _ _

/-- C4 counterexample: a session change with an empty validator list but one
live indracore and one configured indrabase core produces zero validator
groups but two availability cores, so the group count does not match the
core count. -/
theorem claim_C4_counterexample :
    (on_new_session [20] exLive exCfg 0 0 exStateOneCore).validator_groups.length = 0 ∧
    (on_new_session [20] exLive exCfg 0 0 exStateOneCore).availability_cores.length = 2 := by
  decide

/-- C4 amended: for every session change with a nonempty validator list and
a nonzero computed core count, afterwards the number of groups equals the
number of cores, the group sizes sum to the validator count, sizes differ by
at most one, and the n_validators mod n_cores larger groups occupy the
lowest group indices (sizes are nonincreasing in the group index). -/
theorem claim_C4 (indracores : List IndraId) (is_indrabase : IndraId → Bool)
    (config : HostConfig) (n_validators current_block : Nat)
    (s s' : SchedulerState)
    (hs : s' = on_new_session indracores is_indrabase config n_validators
      current_block s)
    (hV : 0 < n_validators)
    (hC : 0 < s'.availability_cores.length) :
    s'.validator_groups.length = s'.availability_cores.length ∧
    (s'.validator_groups.map List.length).sum = n_validators ∧
    (∀ i (hi : i < s'.validator_groups.length),
      (s'.validator_groups.get ⟨i, hi⟩).length =
        if i < n_validators % s'.availability_cores.length then
          n_validators / s'.availability_cores.length + 1
        else n_validators / s'.availability_cores.length) ∧
    (∀ i j (hi : i < s'.validator_groups.length)
        (hj : j < s'.validator_groups.length),
      (s'.validator_groups.get ⟨i, hi⟩).length ≤
        (s'.validator_groups.get ⟨j, hj⟩).length + 1) ∧
    (∀ i j (hi : i < s'.validator_groups.length)
        (hj : j < s'.validator_groups.length), i ≤ j →
      (s'.validator_groups.get ⟨j, hj⟩).length ≤
        (s'.validator_groups.get ⟨i, hi⟩).length) := by
  have hcores : s'.availability_cores.length =
      max (indracores.length + config.indrabase_cores)
        (match config.max_validators_per_core with
         | some x => if x ≠ 0 then n_validators / x else 0
         | none => 0) := by
    rw [hs]; unfold on_new_session; simp [List.length_replicate]
  have hgroups : s'.validator_groups =
      buildGroups n_validators s'.availability_cores.length := by
    rw [hcores, hs]; unfold on_new_session; simp
  have h0 : s'.availability_cores.length ≠ 0 := by omega
  have hV' : n_validators ≠ 0 := by omega
  have hlen : s'.validator_groups.length = s'.availability_cores.length := by
    rw [hgroups]; exact buildGroups_length _ _ h0 hV'
  have hsum : (s'.validator_groups.map List.length).sum = n_validators := by
    rw [hgroups]; exact buildGroups_sum _ _ h0 hV'
  have hsz : ∀ i (hi : i < s'.validator_groups.length),
      (s'.validator_groups.get ⟨i, hi⟩).length =
        if i < n_validators % s'.availability_cores.length then
          n_validators / s'.availability_cores.length + 1
        else n_validators / s'.availability_cores.length := by
    intro i hi
    have hi2 : i < (buildGroups n_validators s'.availability_cores.length).length := by
      rw [← hgroups]; exact hi
    have hv := buildGroups_get n_validators s'.availability_cores.length h0 hV' i hi2
    simp only [List.get_eq_getElem] at hv ⊢
    simp only [hgroups]
    exact hv
  refine ⟨hlen, hsum, hsz, ?_, ?_⟩
  · intro i j hi hj
    rw [hsz i hi, hsz j hj]
    split <;> split <;> omega
  · intro i j hi hj hij
    rw [hsz i hi, hsz j hj]
    split <;> split <;> omega

/-- C4 witness: session change with 5 validators, 2 indracores and 1
indrabase core: 3 groups over 3 cores, sizes 2, 2, 1. -/
theorem claim_C4_witness :
    0 < (5 : Nat) ∧
    0 < (on_new_session [20, 21] exLive exCfg 5 0
        exStateOneCore).availability_cores.length ∧
    (on_new_session [20, 21] exLive exCfg 5 0 exStateOneCore).validator_groups.length =
      (on_new_session [20, 21] exLive exCfg 5 0
        exStateOneCore).availability_cores.length ∧
    ((on_new_session [20, 21] exLive exCfg 5 0
        exStateOneCore).validator_groups.map List.length).sum = 5 :=
  ⟨by decide, by decide,
   (claim_C4 [20, 21] exLive exCfg 5 0 exStateOneCore _ rfl (by decide) (by decide)).1,
   (claim_C4 [20, 21] exLive exCfg 5 0 exStateOneCore _ rfl (by decide) (by decide)).2.1⟩

/-! ### List utilities -/

/-- A subpermutation of a duplicate-free list is duplicate-free. -/
theorem subperm_nodup {l1 l2 : List IndraId} (h : List.Subperm l1 l2)
    (hn : l2.Nodup) : l1.Nodup := by
  rcases h with ⟨l, hp, hs⟩
  exact hp.nodup_iff.1 (hn.sublist hs)

/-- Appending on the left preserves subpermutations. -/
theorem subperm_append_left' {l1 l2 t : List IndraId}
    (h : List.Subperm l1 l2) : List.Subperm (t ++ l1) (t ++ l2) := by
  rcases h with ⟨l, hp, hs⟩
  exact ⟨t ++ l, hp.append_left t, hs.append_left t⟩

/-- getD after setting a different position is unchanged. -/
theorem getD_set_ne {l : List (Option CoreOccupied)} {i j : Nat}
    (v : Option CoreOccupied) (h : i ≠ j) :
    (l.set i v).getD j none = l.getD j none := by
  rw [List.getD_eq_getElem?_getD, List.getD_eq_getElem?_getD,
    List.getElem?_set_ne h]

/-- getD of an all-empty core vector is empty. -/
theorem getD_replicate_none (n j : Nat) :
    (List.replicate n (none : Option CoreOccupied)).getD j none = none := by
  rw [List.getD_eq_getElem?_getD]
  rcases Nat.lt_or_ge j n with h | h
  · rw [List.getElem?_eq_getElem (by simpa using h)]
    simp
  · rw [List.getElem?_eq_none (by simpa using h)]
    rfl

/-- Setting an in-range position to none cannot make getD non-none. -/
theorem getD_set_none {l : List (Option CoreOccupied)} {i j : Nat}
    (h : l.getD j none = none) :
    (l.set i none).getD j none = none := by
  by_cases hij : i = j
  · subst hij
    rw [List.getD_eq_getElem?_getD]
    rcases Nat.lt_or_ge i l.length with hl | hl
    · rw [List.getElem?_set_self' ]
      simp [List.getElem?_eq_getElem (by simpa using hl)]
    · rw [List.getElem?_eq_none (by simpa using hl)]
      rfl
  · rw [getD_set_ne _ hij]
    exact h

/-- An element of the enumeration lies in the underlying list and its index
is at least the starting index. -/
theorem enumIdx_mem {α : Type} {j : Nat} {a : α} :
    ∀ {n : Nat} {l : List α}, (j, a) ∈ enumIdx n l → a ∈ l ∧ n ≤ j := by
  intro n l
  induction l generalizing n with
  | nil => intro h; exact absurd h (by simp [enumIdx])
  | cons x xs ih =>
    intro h
    rw [enumIdx] at h
    rcases List.mem_cons.1 h with h | h
    · cases h
      exact ⟨List.mem_cons_self _ _, le_refl _⟩
    · rcases ih h with ⟨h1, h2⟩
      exact ⟨List.mem_cons_of_mem _ h1, by omega⟩

/-- Dropping from an enumeration drops from the list and shifts the start. -/
theorem enumIdx_drop {α : Type} :
    ∀ (l : List α) (n k : Nat), (enumIdx n l).drop k = enumIdx (n + k) (l.drop k) := by
  intro l
  induction l with
  | nil => intro n k; simp [enumIdx]
  | cons x xs ih =>
    intro n k
    cases k with
    | zero => simp [enumIdx]
    | succ k =>
      rw [enumIdx, List.drop_succ_cons, List.drop_succ_cons, ih (n + 1) k]
      congr 1
      omega

/-- Head form of a dropped enumeration while in range. -/
theorem enumIdx_drop_cons {α : Type} (l : List α) (d : Nat) (h : d < l.length) :
    (enumIdx 0 l).drop d =
      (d, l.get ⟨d, h⟩) :: (enumIdx 0 l).drop (d + 1) := by
  rw [enumIdx_drop, enumIdx_drop, List.drop_eq_getElem_cons h, enumIdx]
  simp

/-- A dropped enumeration is empty once past the end. -/
theorem enumIdx_drop_nil {α : Type} (l : List α) (d : Nat) (h : l.length ≤ d) :
    (enumIdx 0 l).drop d = [] := by
  rw [enumIdx_drop, List.drop_eq_nil_of_le h]
  rfl

/-- takeFirstOnCore returns none exactly when no queued entry has the
offset. -/
theorem takeFirstOnCore_none_iff (o : Nat) :
    ∀ (l : List QueuedIndrabase),
      takeFirstOnCore o l = none ↔ ∀ x ∈ l, x.core_offset ≠ o := by
  intro l
  induction l with
  | nil => simp [takeFirstOnCore]
  | cons x xs ih =>
    rw [takeFirstOnCore]
    by_cases hx : x.core_offset = o
    · simp [hx]
    · rw [if_neg hx]
      cases htf : takeFirstOnCore o xs with
      | none =>
        have hxs := ih.1 htf
        simp only [htf]
        constructor
        · intro _ y hy
          rcases List.mem_cons.1 hy with h | h
          · subst h; exact hx
          · exact hxs y h
        · intro _; trivial
      | some p =>
        simp only [htf]
        constructor
        · intro h; exact absurd h (by simp)
        · intro h
          have h2 : ∀ y ∈ xs, y.core_offset ≠ o :=
            fun y hy => h y (List.mem_cons_of_mem _ hy)
          have hcontra := ih.2 h2
          rw [htf] at hcontra
          exact absurd hcontra (by simp)

/-- takeFirstOnCore removes exactly one entry: the remainder is a sublist
and the original is a permutation of the taken element put back on top. -/
theorem takeFirstOnCore_some (o : Nat) :
    ∀ (l : List QueuedIndrabase) (e : IndrabaseEntry) (ys : List QueuedIndrabase),
      takeFirstOnCore o l = some (e, ys) →
      ∃ x : QueuedIndrabase, x.claim = e ∧ x.core_offset = o ∧
        List.Sublist ys l ∧ List.Perm l (x :: ys) := by
  intro l
  induction l with
  | nil => intro e ys h; exact absurd h (by simp [takeFirstOnCore])
  | cons x xs ih =>
    intro e ys h
    rw [takeFirstOnCore] at h
    by_cases hx : x.core_offset = o
    · rw [if_pos hx] at h
      injection h with h
      injection h with h1 h2
      subst h1; subst h2
      exact ⟨x, rfl, hx, List.sublist_cons_self x xs, List.Perm.refl _⟩
    · rw [if_neg hx] at h
      cases htf : takeFirstOnCore o xs with
      | none => rw [htf] at h; exact absurd h (by simp)
      | some p =>
        rw [htf] at h
        injection h with h
        injection h with h1 h2
        rcases ih p.1 p.2 (by rw [htf]) with ⟨y, hy1, hy2, hy3, hy4⟩
        subst h1
        subst h2
        refine ⟨y, hy1, hy2, List.Sublist.cons₂ x hy3, ?_⟩
        have step1 : List.Perm (x :: xs) (x :: y :: p.2) := List.Perm.cons x hy4
        have step2 : List.Perm (x :: y :: p.2) (y :: x :: p.2) := List.Perm.swap y x p.2
        exact step1.trans step2

/-- Vec::insert splits the list at the insertion point. -/
theorem insertIdx_eq_take_drop {α : Type} :
    ∀ (l : List α) (n : Nat) (x : α), n ≤ l.length →
      l.insertIdx n x = l.take n ++ x :: l.drop n := by
  intro l
  induction l with
  | nil =>
    intro n x h
    have hn : n = 0 := by simpa using h
    subst hn
    simp
  | cons y ys ih =>
    intro n x h
    cases n with
    | zero => simp
    | succ n =>
      rw [List.insertIdx_succ_cons, ih n x (by simpa using h)]
      simp

/-- Enacting compatible updates preserves strict core sorting and produces
a permutation of the previous list plus the new assignments. -/
theorem compat_apply :
    ∀ (u : List (Nat × CoreAssignment)) (orig cur : List CoreAssignment)
      (k ci d : Nat),
      Compat orig ci d u →
      cur.Pairwise (fun a b => a.core < b.core) →
      d ≤ orig.length →
      cur.length = orig.length + k →
      cur.drop (k + d) = orig.drop d →
      (∀ b ∈ cur.take (k + d), b.core < ci) →
      (applyUpdatesAux cur u k).Pairwise (fun a b => a.core < b.core) ∧
      List.Perm (applyUpdatesAux cur u k) (cur ++ u.map Prod.snd) := by
  intro u
  induction u with
  | nil =>
    intro orig cur k ci d _ hsort _ _ _ _
    rw [applyUpdatesAux]
    exact ⟨hsort, by simp⟩
  | cons pa rest ih =>
    intro orig cur k ci d hcompat hsort hdo hlen hdrop htake
    obtain ⟨p, a⟩ := pa
    cases hcompat with
    | cons _ _ _ _ _ hdp hpl hca htk hdr hrest =>
      have hkp : k + p ≤ cur.length := by omega
      have hsplit1 : cur.take (k + p) =
          cur.take (k + d) ++ (orig.drop d).take (p - d) := by
        have he : k + p = (k + d) + (p - d) := by omega
        rw [he, List.take_add, hdrop]
      have helem_take : ∀ b ∈ cur.take (k + p), b.core < a.core := by
        intro b hb
        rw [hsplit1] at hb
        rcases List.mem_append.1 hb with hb | hb
        · exact lt_of_lt_of_le (htake b hb) hca
        · have hb2 : b ∈ (orig.take p).drop d := by
            rw [List.drop_take]
            exact hb
          exact htk b (List.mem_of_mem_drop hb2)
      have hdrop' : cur.drop (k + p) = orig.drop p := by
        have he : k + p = (k + d) + (p - d) := by omega
        rw [he, ← List.drop_drop, hdrop, List.drop_drop]
        congr 1
        omega
      have helem_drop : ∀ b ∈ cur.drop (k + p), a.core < b.core := by
        intro b hb
        rw [hdrop'] at hb
        exact hdr b hb
      have hins : cur.insertIdx (k + p) a =
          cur.take (k + p) ++ a :: cur.drop (k + p) :=
        insertIdx_eq_take_drop cur (k + p) a hkp
      have hcur_split : cur = cur.take (k + p) ++ cur.drop (k + p) :=
        (List.take_append_drop _ _).symm
      have hcross : ∀ x ∈ cur.take (k + p), ∀ y ∈ cur.drop (k + p),
          x.core < y.core := by
        intro x hx y hy
        have hp2 : (cur.take (k + p) ++ cur.drop (k + p)).Pairwise
            (fun a b => a.core < b.core) := by rw [← hcur_split]; exact hsort
        exact ((List.pairwise_append.1 hp2).2.2) x hx y hy
      have hsort' : (cur.insertIdx (k + p) a).Pairwise
          (fun a b => a.core < b.core) := by
        rw [hins]
        rw [List.pairwise_append]
        refine ⟨hsort.sublist (List.take_sublist _ _), ?_, ?_⟩
        · rw [List.pairwise_cons]
          exact ⟨helem_drop, hsort.sublist (List.drop_sublist _ _)⟩
        · intro x hx y hy
          rcases List.mem_cons.1 hy with hy | hy
          · subst hy; exact helem_take x hx
          · exact hcross x hx y hy
      have hlen' : (cur.insertIdx (k + p) a).length = orig.length + (k + 1) := by
        rw [List.length_insertIdx _ _ hkp]
        omega
      have htklen : (cur.take (k + p)).length = k + p := by
        rw [List.length_take]
        omega
      have hdrop'' : (cur.insertIdx (k + p) a).drop ((k + 1) + p) = orig.drop p := by
        rw [hins]
        have he : (k + 1) + p = (cur.take (k + p)).length + 1 := by omega
        rw [he, List.drop_append]
        simpa using hdrop'
      have htake'' : ∀ b ∈ (cur.insertIdx (k + p) a).take ((k + 1) + p),
          b.core < a.core + 1 := by
        intro b hb
        rw [hins] at hb
        have he : (k + 1) + p = (cur.take (k + p)).length + 1 := by omega
        rw [he, List.take_append] at hb
        rcases List.mem_append.1 hb with hb | hb
        · have := helem_take b hb; omega
        · have hb' : b = a := by simpa using hb
          subst hb'
          omega
      have := ih orig (cur.insertIdx (k + p) a) (k + 1) (a.core + 1) p hrest
        hsort' hpl hlen' hdrop'' htake''
      rw [applyUpdatesAux]
      refine ⟨this.1, ?_⟩
      have hperm1 : List.Perm (cur.insertIdx (k + p) a) (a :: cur) :=
        List.perm_insertIdx a cur hkp
      have hperm2 := this.2
      have hperm3 : List.Perm (cur.insertIdx (k + p) a ++ rest.map Prod.snd)
          ((a :: cur) ++ rest.map Prod.snd) :=
        hperm1.append_right _
      have hperm4 : List.Perm (a :: (cur ++ rest.map Prod.snd))
          (cur ++ a :: rest.map Prod.snd) := List.perm_middle.symm
      exact ((hperm2.trans hperm3).trans hperm4)

/-- Monotonicity of update compatibility in the sweep position and cursor
index. -/
theorem Compat_mono {sched : List CoreAssignment} {ci' d' : Nat}
    {u : List (Nat × CoreAssignment)} (h : Compat sched ci' d' u)
    {ci d : Nat} (hci : ci ≤ ci') (hd : d ≤ d') : Compat sched ci d u := by
  cases h with
  | nil => exact Compat.nil _ _
  | cons _ _ p a rest hdp hpl hca htk hdr hrest =>
    exact Compat.cons _ _ p a rest (by omega) hpl (by omega) htk hdr hrest

/-- In a strictly sorted Scheduled list, if the entry at position d has core
index above ci then so does everything from position d on. -/
theorem sorted_drop_gt {sched : List CoreAssignment}
    (hsort : sched.Pairwise (fun a b => a.core < b.core))
    {d ci : Nat} (hd : d < sched.length)
    (hgt : ci < (sched.get ⟨d, hd⟩).core) :
    ∀ b ∈ sched.drop d, ci < b.core := by
  intro b hb
  rw [List.drop_eq_getElem_cons hd] at hb
  rcases List.mem_cons.1 hb with hb | hb
  · subst hb; exact hgt
  · have hpair : (sched.drop d).Pairwise (fun a b => a.core < b.core) :=
      hsort.sublist (List.drop_sublist _ _)
    rw [List.drop_eq_getElem_cons hd, List.pairwise_cons] at hpair
    have := hpair.1 b hb
    simp only [List.get_eq_getElem] at hgt
    omega

/-- Specification of the cursor advance: starting at drop position d with
everything before d below the current core index, the advance lands at a
drop position d' whose prefix is still below the core index and whose head
(if any) is at or above it. -/
theorem advanceCursor_spec (sched : List CoreAssignment) :
    ∀ (n d ci : Nat), sched.length - d ≤ n → d ≤ sched.length →
      (∀ b ∈ sched.take d, b.core < ci) →
      ∃ d', d ≤ d' ∧ d' ≤ sched.length ∧
        advanceCursor ci ((enumIdx 0 sched).drop d) = (enumIdx 0 sched).drop d' ∧
        (∀ b ∈ sched.take d', b.core < ci) ∧
        ∀ h : d' < sched.length, ci ≤ (sched.get ⟨d', h⟩).core := by
  intro n
  induction n with
  | zero =>
    intro d ci hn hd htake
    have hde : d = sched.length := by omega
    refine ⟨d, le_refl _, hd, ?_, htake, ?_⟩
    · rw [enumIdx_drop_nil _ _ (by omega), advanceCursor]
    · intro h; omega
  | succ n ih =>
    intro d ci hn hd htake
    rcases Nat.lt_or_ge d sched.length with hlt | hge
    · rw [enumIdx_drop_cons sched d hlt, advanceCursor]
      by_cases hc : (sched.get ⟨d, hlt⟩).core < ci
      · rw [if_pos hc]
        have htake' : ∀ b ∈ sched.take (d + 1), b.core < ci := by
          intro b hb
          rw [List.take_succ] at hb
          rcases List.mem_append.1 hb with hb | hb
          · exact htake b hb
          · have hbe : b = sched.get ⟨d, hlt⟩ := by
              rw [List.getElem?_eq_getElem hlt] at hb
              simpa using hb
            subst hbe; exact hc
        have := ih (d + 1) ci (by omega) (by omega) htake'
        rcases this with ⟨d', h1, h2, h3, h4, h5⟩
        exact ⟨d', by omega, h2, h3, h4, h5⟩
      · rw [if_neg hc]
        refine ⟨d, le_refl _, hd, ?_, htake, ?_⟩
        · rw [enumIdx_drop_cons sched d hlt]
        · intro h
          simp only [List.get_eq_getElem] at hc ⊢
          omega
    · have hde : d = sched.length := by omega
      refine ⟨d, le_refl _, hd, ?_, htake, ?_⟩
      · rw [enumIdx_drop_nil _ _ (by omega), advanceCursor]
      · intro h; omega

/-- Unfolding: the sweep skips an occupied core. -/
theorem sweep_cons_some (gac : Nat → Option Nat) (indracores : List IndraId)
    (schedLen : Nat) (occ : CoreOccupied) (cs : List (Option CoreOccupied))
    (ci : Nat) (cursor : List (Nat × CoreAssignment)) (q : IndrabaseClaimQueue) :
    sweep gac indracores schedLen (some occ :: cs) ci cursor q =
      sweep gac indracores schedLen cs (ci + 1) cursor q := rfl

/-- Unfolding: the sweep on no cores yields no updates. -/
theorem sweep_nil (gac : Nat → Option Nat) (indracores : List IndraId)
    (schedLen : Nat) (ci : Nat) (cursor : List (Nat × CoreAssignment))
    (q : IndrabaseClaimQueue) :
    sweep gac indracores schedLen [] ci cursor q = some ([], q) := rfl

/-- take_next_on_core fails exactly when no queued entry has the offset. -/
theorem take_next_none_iff (q : IndrabaseClaimQueue) (o : Nat) :
    take_next_on_core q o = none ↔ takeFirstOnCore o q.queue = none := by
  unfold take_next_on_core
  cases takeFirstOnCore o q.queue with
  | none => simp
  | some p => simp

/-- take_next_on_core succeeds by removing one matching entry. -/
theorem take_next_some (q : IndrabaseClaimQueue) (o : Nat)
    (e : IndrabaseEntry) (q1 : IndrabaseClaimQueue)
    (h : take_next_on_core q o = some (e, q1)) :
    q1.next_core_offset = q.next_core_offset ∧
    List.Sublist q1.queue q.queue ∧
    List.Perm (queueIds q) (e.claim.indra :: queueIds q1) := by
  unfold take_next_on_core at h
  cases htf : takeFirstOnCore o q.queue with
  | none => rw [htf] at h; exact absurd h (by simp)
  | some p =>
    rw [htf] at h
    injection h with h
    injection h with h1 h2
    rcases takeFirstOnCore_some o q.queue p.1 p.2 htf with ⟨x, hx1, hx2, hx3, hx4⟩
    subst h1
    constructor
    · rw [← h2]
    constructor
    · rw [← h2]; exact hx3
    · have hq1 : queueIds q1 = p.2.map fun y => y.claim.claim.indra := by
        rw [← h2]; rfl
      have := hx4.map fun y => y.claim.claim.indra
      rw [hq1]
      simpa [hx1] using this

/-- scheduleCore on an indracore core with a successful group lookup. -/
theorem scheduleCore_lt (gac : Nat → Option Nat) (indracores : List IndraId)
    (ci : Nat) (q : IndrabaseClaimQueue) (h : ci < indracores.length) :
    scheduleCore gac indracores ci q =
      match gac ci with
      | none => none
      | some g =>
        some (some { kind := .Indracore, indra_id := indracores.get ⟨ci, h⟩
                     core := ci, group_idx := g }, q) := by
  unfold scheduleCore
  rw [dif_pos h]

/-- scheduleCore on an indrabase core with an empty offset queue. -/
theorem scheduleCore_ge_none (gac : Nat → Option Nat) (indracores : List IndraId)
    (ci : Nat) (q : IndrabaseClaimQueue) (h : indracores.length ≤ ci)
    (ht : take_next_on_core q (ci - indracores.length) = none) :
    scheduleCore gac indracores ci q = some (none, q) := by
  unfold scheduleCore
  rw [dif_neg (by omega)]
  simp only [ht]

/-- scheduleCore on an indrabase core with a queued claim at the offset. -/
theorem scheduleCore_ge_some (gac : Nat → Option Nat) (indracores : List IndraId)
    (ci : Nat) (q : IndrabaseClaimQueue) (e : IndrabaseEntry)
    (q1 : IndrabaseClaimQueue) (h : indracores.length ≤ ci)
    (ht : take_next_on_core q (ci - indracores.length) = some (e, q1)) :
    scheduleCore gac indracores ci q =
      match gac ci with
      | none => none
      | some g =>
        some (some { kind := .Indrabase e.claim.collator e.retries
                     indra_id := e.claim.indra, core := ci, group_idx := g }, q1) := by
  unfold scheduleCore
  rw [dif_neg (by omega)]
  simp only [ht]

/-- The inner step of the sweep specification, shared between the two cursor
shapes (cursor head at a higher core, or cursor exhausted): the current core
is unassigned and gets scheduled (or found unfillable) at insert position
d'. -/
theorem sweep_spec_core (gac : Nat → Option Nat) (indracores : List IndraId)
    (sched : List CoreAssignment) (cs : List (Option CoreOccupied))
    (ih : ∀ (ci d : Nat) (q : IndrabaseClaimQueue)
        (updates : List (Nat × CoreAssignment)) (q' : IndrabaseClaimQueue),
        d ≤ sched.length →
        (∀ b ∈ sched.take d, b.core < ci) →
        sweep gac indracores sched.length cs ci ((enumIdx 0 sched).drop d) q =
          some (updates, q') →
        sweepPost indracores sched cs ci d q updates q')
    (ci d d' : Nat) (q : IndrabaseClaimQueue)
    (updates : List (Nat × CoreAssignment)) (q' : IndrabaseClaimQueue)
    (hdd' : d ≤ d') (hd'len : d' ≤ sched.length)
    (htk' : ∀ b ∈ sched.take d', b.core < ci)
    (hdropgt : ∀ b ∈ sched.drop d', ci < b.core)
    (hs3 : (match scheduleCore gac indracores ci q with
            | none => none
            | some (none, q1) =>
              sweep gac indracores sched.length cs (ci + 1)
                ((enumIdx 0 sched).drop d') q1
            | some (some assignment, q1) =>
              match sweep gac indracores sched.length cs (ci + 1)
                  ((enumIdx 0 sched).drop d') q1 with
              | none => none
              | some (u, q2) => some ((d', assignment) :: u, q2)) =
          some (updates, q')) :
    sweepPost indracores sched (none :: cs) ci d q updates q' := by
  have htake1 : ∀ b ∈ sched.take d', b.core < ci + 1 := by
    intro b hb; have := htk' b hb; omega
  by_cases hci : ci < indracores.length
  · -- indracore core: always scheduled (or abort).
    rw [scheduleCore_lt gac indracores ci q hci] at hs3
    cases hg : gac ci with
    | none =>
      rw [hg] at hs3
      have hs4 : (none : Option (List (Nat × CoreAssignment) × IndrabaseClaimQueue)) =
          some (updates, q') := hs3
      exact absurd hs4 (by simp)
    | some g =>
      rw [hg] at hs3
      have hs4 : (match sweep gac indracores sched.length cs (ci + 1)
            ((enumIdx 0 sched).drop d') q with
          | none => none
          | some (u, q2) =>
            some ((d', { kind := .Indracore, indra_id := indracores.get ⟨ci, hci⟩
                         core := ci, group_idx := g }) :: u, q2)) =
          some (updates, q') := hs3
      cases hrec : sweep gac indracores sched.length cs (ci + 1)
          ((enumIdx 0 sched).drop d') q with
      | none => rw [hrec] at hs4; exact absurd hs4 (by simp)
      | some out =>
        obtain ⟨u1, q2⟩ := out
        rw [hrec] at hs4
        cases hs4
        rcases ih (ci + 1) d' q u1 q' hd'len htake1 hrec with ⟨hC, hP, hS, hU, hK⟩
        refine ⟨?_, ?_, hS, ?_, ?_⟩
        · exact Compat.cons ci d d' _ u1 hdd' hd'len (le_refl _) htk' hdropgt hC
        · exact hP
        · intro pa hpa
          rcases List.mem_cons.1 hpa with hpa | hpa
          · subst hpa; exact ⟨0, by simp, rfl⟩
          · rcases hU pa hpa with ⟨k, hk1, hk2⟩
            exact ⟨k + 1, by omega, by rw [List.get?_cons_succ]; exact hk2⟩
        · intro k hk
          cases k with
          | zero =>
            right; left
            exact ⟨d', _, List.mem_cons_self _ _, by simp⟩
          | succ k =>
            rw [List.get?_cons_succ] at hk
            rcases hK k hk with h | h | h
            · left; rcases h with ⟨a, ha1, ha2⟩; exact ⟨a, ha1, by omega⟩
            · right; left
              rcases h with ⟨p, a, ha1, ha2⟩
              exact ⟨p, a, List.mem_cons_of_mem _ ha1, by omega⟩
            · right; right
              refine ⟨by omega, ?_⟩
              have he : ci + (k + 1) - indracores.length =
                  ci + 1 + k - indracores.length := by omega
              rw [he]
              exact h.2
  · -- indrabase multiplexer core.
    have hge : indracores.length ≤ ci := by omega
    cases htn : take_next_on_core q (ci - indracores.length) with
    | none =>
      rw [scheduleCore_ge_none gac indracores ci q hge htn] at hs3
      have hs4 : sweep gac indracores sched.length cs (ci + 1)
          ((enumIdx 0 sched).drop d') q = some (updates, q') := hs3
      rcases ih (ci + 1) d' q updates q' hd'len htake1 hs4 with ⟨hC, hP, hS, hU, hK⟩
      have hnone_pers : takeFirstOnCore (ci - indracores.length) q'.queue = none := by
        rw [takeFirstOnCore_none_iff]
        intro x hx
        have hx2 : x ∈ q.queue := hS.mem hx
        exact ((takeFirstOnCore_none_iff _ _).1
          ((take_next_none_iff _ _).1 htn)) x hx2
      refine ⟨Compat_mono hC (by omega) hdd', hP, hS, ?_, ?_⟩
      · intro pa hpa
        rcases hU pa hpa with ⟨k, hk1, hk2⟩
        exact ⟨k + 1, by omega, by rw [List.get?_cons_succ]; exact hk2⟩
      · intro k hk
        cases k with
        | zero =>
          right; right
          refine ⟨by omega, ?_⟩
          have he : ci + 0 - indracores.length = ci - indracores.length := by omega
          rw [he]
          exact hnone_pers
        | succ k =>
          rw [List.get?_cons_succ] at hk
          rcases hK k hk with h | h | h
          · left; rcases h with ⟨a, ha1, ha2⟩; exact ⟨a, ha1, by omega⟩
          · right; left
            rcases h with ⟨p, a, ha1, ha2⟩
            exact ⟨p, a, ha1, by omega⟩
          · right; right
            refine ⟨by omega, ?_⟩
            have he : ci + (k + 1) - indracores.length =
                ci + 1 + k - indracores.length := by omega
            rw [he]
            exact h.2
    | some pair =>
      obtain ⟨e, q1⟩ := pair
      rw [scheduleCore_ge_some gac indracores ci q e q1 hge htn] at hs3
      cases hg : gac ci with
      | none =>
        rw [hg] at hs3
        have hs4 : (none : Option (List (Nat × CoreAssignment) × IndrabaseClaimQueue)) =
            some (updates, q') := hs3
        exact absurd hs4 (by simp)
      | some g =>
        rw [hg] at hs3
        have hs4 : (match sweep gac indracores sched.length cs (ci + 1)
              ((enumIdx 0 sched).drop d') q1 with
            | none => none
            | some (u, q2) =>
              some ((d', { kind := .Indrabase e.claim.collator e.retries
                           indra_id := e.claim.indra, core := ci
                           group_idx := g }) :: u, q2)) =
            some (updates, q') := hs3
        cases hrec : sweep gac indracores sched.length cs (ci + 1)
            ((enumIdx 0 sched).drop d') q1 with
        | none => rw [hrec] at hs4; exact absurd hs4 (by simp)
        | some out =>
          obtain ⟨u1, q2⟩ := out
          rw [hrec] at hs4
          cases hs4
          rcases ih (ci + 1) d' q1 u1 q' hd'len htake1 hrec with ⟨hC, hP, hS, hU, hK⟩
          rcases take_next_some q (ci - indracores.length) e q1 htn with
            ⟨hnext, hsub1, hperm1⟩
          refine ⟨?_, ?_, hS.trans hsub1, ?_, ?_⟩
          · exact Compat.cons ci d d' _ u1 hdd' hd'len (le_refl _) htk' hdropgt hC
          · have step1 : List.Perm
                (queueIds q' ++ e.claim.indra :: updIds u1)
                (e.claim.indra :: (queueIds q' ++ updIds u1)) := List.perm_middle
            have step2 : List.Perm
                (e.claim.indra :: (queueIds q' ++ updIds u1))
                (e.claim.indra :: queueIds q1) := hP.cons _
            exact (step1.trans step2).trans hperm1.symm
          · intro pa hpa
            rcases List.mem_cons.1 hpa with hpa | hpa
            · subst hpa; exact ⟨0, by simp, rfl⟩
            · rcases hU pa hpa with ⟨k, hk1, hk2⟩
              exact ⟨k + 1, by omega, by rw [List.get?_cons_succ]; exact hk2⟩
          · intro k hk
            cases k with
            | zero =>
              right; left
              exact ⟨d', _, List.mem_cons_self _ _, by simp⟩
            | succ k =>
              rw [List.get?_cons_succ] at hk
              rcases hK k hk with h | h | h
              · left; rcases h with ⟨a, ha1, ha2⟩; exact ⟨a, ha1, by omega⟩
              · right; left
                rcases h with ⟨p, a, ha1, ha2⟩
                exact ⟨p, a, List.mem_cons_of_mem _ ha1, by omega⟩
              · right; right
                refine ⟨by omega, ?_⟩
                have he : ci + (k + 1) - indracores.length =
                    ci + 1 + k - indracores.length := by omega
                rw [he]
                exact h.2

/-- The full specification of the schedule sweep, relative to the original
Scheduled list. -/
theorem sweep_spec (gac : Nat → Option Nat) (indracores : List IndraId)
    (sched : List CoreAssignment)
    (hsort : sched.Pairwise (fun a b => a.core < b.core)) :
    ∀ (cs : List (Option CoreOccupied)) (ci d : Nat) (q : IndrabaseClaimQueue)
      (updates : List (Nat × CoreAssignment)) (q' : IndrabaseClaimQueue),
      d ≤ sched.length →
      (∀ b ∈ sched.take d, b.core < ci) →
      sweep gac indracores sched.length cs ci ((enumIdx 0 sched).drop d) q =
        some (updates, q') →
      sweepPost indracores sched cs ci d q updates q' := by
  intro cs
  induction cs with
  | nil =>
    intro ci d q updates q' hd htake hs
    rw [sweep_nil] at hs
    injection hs with hs
    injection hs with h1 h2
    subst h1; subst h2
    refine ⟨Compat.nil _ _, by simp [updIds, schedIds], List.Sublist.refl _, ?_, ?_⟩
    · intro pa hpa; exact absurd hpa (by simp)
    · intro k hk; exact absurd hk (by simp)
  | cons c cs ih =>
    intro ci d q updates q' hd htake hs
    cases c with
    | some occ =>
      rw [sweep_cons_some] at hs
      have htake1 : ∀ b ∈ sched.take d, b.core < ci + 1 := by
        intro b hb; have := htake b hb; omega
      rcases ih (ci + 1) d q updates q' hd htake1 hs with ⟨hC, hP, hS, hU, hK⟩
      refine ⟨Compat_mono hC (by omega) (le_refl _), hP, hS, ?_, ?_⟩
      · intro pa hpa
        rcases hU pa hpa with ⟨k, hk1, hk2⟩
        exact ⟨k + 1, by omega, by rw [List.get?_cons_succ]; exact hk2⟩
      · intro k hk
        cases k with
        | zero => exact absurd hk (by simp)
        | succ k =>
          rw [List.get?_cons_succ] at hk
          rcases hK k hk with h | h | h
          · left; rcases h with ⟨a, ha1, ha2⟩; exact ⟨a, ha1, by omega⟩
          · right; left
            rcases h with ⟨p, a, ha1, ha2⟩; exact ⟨p, a, ha1, by omega⟩
          · right; right
            refine ⟨by omega, ?_⟩
            have he : ci + (k + 1) - indracores.length =
                ci + 1 + k - indracores.length := by omega
            rw [he]
            exact h.2
    | none =>
      rcases advanceCursor_spec sched (sched.length - d) d ci (le_refl _) hd htake with
        ⟨d', hdd', hd'len, hadv, htk', hstop⟩
      have hstep : sweep gac indracores sched.length (none :: cs) ci
          ((enumIdx 0 sched).drop d) q =
          (match advanceCursor ci ((enumIdx 0 sched).drop d) with
          | (idx_in_scheduled, assign) :: rest' =>
            if assign.core = ci then
              sweep gac indracores sched.length cs (ci + 1)
                ((idx_in_scheduled, assign) :: rest') q
            else
              match scheduleCore gac indracores ci q with
              | none => none
              | some (none, q1) =>
                sweep gac indracores sched.length cs (ci + 1)
                  ((idx_in_scheduled, assign) :: rest') q1
              | some (some assignment, q1) =>
                match sweep gac indracores sched.length cs (ci + 1)
                    ((idx_in_scheduled, assign) :: rest') q1 with
                | none => none
                | some (u, q2) =>
                  some ((idx_in_scheduled, assignment) :: u, q2)
          | [] =>
            match scheduleCore gac indracores ci q with
            | none => none
            | some (none, q1) =>
              sweep gac indracores sched.length cs (ci + 1) [] q1
            | some (some assignment, q1) =>
              match sweep gac indracores sched.length cs (ci + 1) [] q1 with
              | none => none
              | some (u, q2) => some ((sched.length, assignment) :: u, q2)) := rfl
      rw [hstep, hadv] at hs
      rcases Nat.lt_or_ge d' sched.length with hlt | hge
      · rw [enumIdx_drop_cons sched d' hlt] at hs
        by_cases hskip : (sched.get ⟨d', hlt⟩).core = ci
        · -- case 2: this core is already scheduled.
          have hs2 : sweep gac indracores sched.length cs (ci + 1)
              ((d', sched.get ⟨d', hlt⟩) :: (enumIdx 0 sched).drop (d' + 1)) q =
              some (updates, q') := by
            have hred : (match ((d', sched.get ⟨d', hlt⟩) ::
                  (enumIdx 0 sched).drop (d' + 1) :
                    List (Nat × CoreAssignment)) with
                | (idx_in_scheduled, assign) :: rest' =>
                  if assign.core = ci then
                    sweep gac indracores sched.length cs (ci + 1)
                      ((idx_in_scheduled, assign) :: rest') q
                  else
                    match scheduleCore gac indracores ci q with
                    | none => none
                    | some (none, q1) =>
                      sweep gac indracores sched.length cs (ci + 1)
                        ((idx_in_scheduled, assign) :: rest') q1
                    | some (some assignment, q1) =>
                      match sweep gac indracores sched.length cs (ci + 1)
                          ((idx_in_scheduled, assign) :: rest') q1 with
                      | none => none
                      | some (u, q2) =>
                        some ((idx_in_scheduled, assignment) :: u, q2)
                | [] =>
                  match scheduleCore gac indracores ci q with
                  | none => none
                  | some (none, q1) =>
                    sweep gac indracores sched.length cs (ci + 1) [] q1
                  | some (some assignment, q1) =>
                    match sweep gac indracores sched.length cs (ci + 1) [] q1 with
                    | none => none
                    | some (u, q2) => some ((sched.length, assignment) :: u, q2)) =
                (if (sched.get ⟨d', hlt⟩).core = ci then
                  sweep gac indracores sched.length cs (ci + 1)
                    ((d', sched.get ⟨d', hlt⟩) :: (enumIdx 0 sched).drop (d' + 1)) q
                else
                  match scheduleCore gac indracores ci q with
                  | none => none
                  | some (none, q1) =>
                    sweep gac indracores sched.length cs (ci + 1)
                      ((d', sched.get ⟨d', hlt⟩) :: (enumIdx 0 sched).drop (d' + 1)) q1
                  | some (some assignment, q1) =>
                    match sweep gac indracores sched.length cs (ci + 1)
                        ((d', sched.get ⟨d', hlt⟩) ::
                          (enumIdx 0 sched).drop (d' + 1)) q1 with
                    | none => none
                    | some (u, q2) => some ((d', assignment) :: u, q2)) := rfl
            rw [hred, if_pos hskip] at hs
            exact hs
          rw [← enumIdx_drop_cons sched d' hlt] at hs2
          have htake1 : ∀ b ∈ sched.take d', b.core < ci + 1 := by
            intro b hb; have := htk' b hb; omega
          rcases ih (ci + 1) d' q updates q' hd'len htake1 hs2 with ⟨hC, hP, hS, hU, hK⟩
          refine ⟨Compat_mono hC (by omega) hdd', hP, hS, ?_, ?_⟩
          · intro pa hpa
            rcases hU pa hpa with ⟨k, hk1, hk2⟩
            exact ⟨k + 1, by omega, by rw [List.get?_cons_succ]; exact hk2⟩
          · intro k hk
            cases k with
            | zero =>
              left
              exact ⟨sched.get ⟨d', hlt⟩, List.get_mem sched d' hlt, by omega⟩
            | succ k =>
              rw [List.get?_cons_succ] at hk
              rcases hK k hk with h | h | h
              · left; rcases h with ⟨a, ha1, ha2⟩; exact ⟨a, ha1, by omega⟩
              · right; left
                rcases h with ⟨p, a, ha1, ha2⟩
                exact ⟨p, a, ha1, by omega⟩
              · right; right
                refine ⟨by omega, ?_⟩
                have he : ci + (k + 1) - indracores.length =
                    ci + 1 + k - indracores.length := by omega
                rw [he]
                exact h.2
        · -- case 3: schedule this core at position d'.
          have hs3 : (match scheduleCore gac indracores ci q with
              | none => none
              | some (none, q1) =>
                sweep gac indracores sched.length cs (ci + 1)
                  ((enumIdx 0 sched).drop d') q1
              | some (some assignment, q1) =>
                match sweep gac indracores sched.length cs (ci + 1)
                    ((enumIdx 0 sched).drop d') q1 with
                | none => none
                | some (u, q2) => some ((d', assignment) :: u, q2)) =
              some (updates, q') := by
            rw [enumIdx_drop_cons sched d' hlt]
            have hs' : (if (sched.get ⟨d', hlt⟩).core = ci then
                sweep gac indracores sched.length cs (ci + 1)
                  ((d', sched.get ⟨d', hlt⟩) :: (enumIdx 0 sched).drop (d' + 1)) q
              else
                match scheduleCore gac indracores ci q with
                | none => none
                | some (none, q1) =>
                  sweep gac indracores sched.length cs (ci + 1)
                    ((d', sched.get ⟨d', hlt⟩) :: (enumIdx 0 sched).drop (d' + 1)) q1
                | some (some assignment, q1) =>
                  match sweep gac indracores sched.length cs (ci + 1)
                      ((d', sched.get ⟨d', hlt⟩) ::
                        (enumIdx 0 sched).drop (d' + 1)) q1 with
                  | none => none
                  | some (u, q2) => some ((d', assignment) :: u, q2)) =
                some (updates, q') := hs
            rw [if_neg hskip] at hs'
            exact hs'
          have hdropgt : ∀ b ∈ sched.drop d', ci < b.core := by
            apply sorted_drop_gt hsort hlt
            have := hstop hlt
            omega
          exact sweep_spec_core gac indracores sched cs ih ci d d' q updates q'
            hdd' hd'len htk' hdropgt hs3
      · -- cursor exhausted: d' is the length of the Scheduled list.
        have hde : d' = sched.length := by omega
        rw [enumIdx_drop_nil sched d' (by omega)] at hs
        have hs3 : (match scheduleCore gac indracores ci q with
            | none => none
            | some (none, q1) =>
              sweep gac indracores sched.length cs (ci + 1)
                ((enumIdx 0 sched).drop d') q1
            | some (some assignment, q1) =>
              match sweep gac indracores sched.length cs (ci + 1)
                  ((enumIdx 0 sched).drop d') q1 with
              | none => none
              | some (u, q2) => some ((d', assignment) :: u, q2)) =
            some (updates, q') := by
          rw [enumIdx_drop_nil sched d' (by omega), hde]
          exact hs
        have hdropgt : ∀ b ∈ sched.drop d', ci < b.core := by
          intro b hb
          rw [List.drop_eq_nil_of_le (by omega)] at hb
          exact absurd hb (by simp)
        exact sweep_spec_core gac indracores sched cs ih ci d d' q updates q'
          hdd' hd'len htk' hdropgt hs3


/-- After a complete sweep, a second sweep over the same cores schedules
nothing and leaves the queue untouched: every free core is either already
in the (sorted) Scheduled list or is an indrabase core whose offset has no
queued claim. -/
theorem sweep_noop (gac : Nat → Option Nat) (indracores : List IndraId)
    (sched : List CoreAssignment)
    (hsort : sched.Pairwise (fun a b => a.core < b.core)) :
    ∀ (cs : List (Option CoreOccupied)) (ci d : Nat) (q : IndrabaseClaimQueue),
      d ≤ sched.length →
      (∀ b ∈ sched.take d, b.core < ci) →
      (∀ k, cs.get? k = some none →
        (∃ a ∈ sched, a.core = ci + k) ∨
        (indracores.length ≤ ci + k ∧
          takeFirstOnCore (ci + k - indracores.length) q.queue = none)) →
      sweep gac indracores sched.length cs ci ((enumIdx 0 sched).drop d) q =
        some ([], q) := by
  intro cs
  induction cs with
  | nil => intro ci d q _ _ _; exact sweep_nil _ _ _ _ _ _
  | cons c cs ih =>
    intro ci d q hd htake hfree
    cases c with
    | some occ =>
      rw [sweep_cons_some]
      refine ih (ci + 1) d q hd ?_ ?_
      · intro b hb; have := htake b hb; omega
      · intro k hk
        rcases hfree (k + 1) (by rw [List.get?_cons_succ]; exact hk) with h | h
        · left; rcases h with ⟨a, ha1, ha2⟩; exact ⟨a, ha1, by omega⟩
        · right
          refine ⟨by omega, ?_⟩
          have he : ci + 1 + k - indracores.length =
              ci + (k + 1) - indracores.length := by omega
          rw [he]
          exact h.2
    | none =>
      rcases advanceCursor_spec sched (sched.length - d) d ci (le_refl _) hd htake with
        ⟨d', hdd', hd'len, hadv, htk', hstop⟩
      have hstep : sweep gac indracores sched.length (none :: cs) ci
          ((enumIdx 0 sched).drop d) q =
          (match advanceCursor ci ((enumIdx 0 sched).drop d) with
          | (idx_in_scheduled, assign) :: rest' =>
            if assign.core = ci then
              sweep gac indracores sched.length cs (ci + 1)
                ((idx_in_scheduled, assign) :: rest') q
            else
              match scheduleCore gac indracores ci q with
              | none => none
              | some (none, q1) =>
                sweep gac indracores sched.length cs (ci + 1)
                  ((idx_in_scheduled, assign) :: rest') q1
              | some (some assignment, q1) =>
                match sweep gac indracores sched.length cs (ci + 1)
                    ((idx_in_scheduled, assign) :: rest') q1 with
                | none => none
                | some (u, q2) =>
                  some ((idx_in_scheduled, assignment) :: u, q2)
          | [] =>
            match scheduleCore gac indracores ci q with
            | none => none
            | some (none, q1) =>
              sweep gac indracores sched.length cs (ci + 1) [] q1
            | some (some assignment, q1) =>
              match sweep gac indracores sched.length cs (ci + 1) [] q1 with
              | none => none
              | some (u, q2) => some ((sched.length, assignment) :: u, q2)) := rfl
      rw [hstep, hadv]
      have htake1 : ∀ b ∈ sched.take d', b.core < ci + 1 := by
        intro b hb; have := htk' b hb; omega
      have hrec : ∀ qx : IndrabaseClaimQueue,
          (∀ k, cs.get? k = some none →
            (∃ a ∈ sched, a.core = ci + 1 + k) ∨
            (indracores.length ≤ ci + 1 + k ∧
              takeFirstOnCore (ci + 1 + k - indracores.length) qx.queue = none)) →
          sweep gac indracores sched.length cs (ci + 1)
            ((enumIdx 0 sched).drop d') qx = some ([], qx) :=
        fun qx hk => ih (ci + 1) d' qx hd'len htake1 hk
      have hshift : ∀ k, cs.get? k = some none →
          (∃ a ∈ sched, a.core = ci + 1 + k) ∨
          (indracores.length ≤ ci + 1 + k ∧
            takeFirstOnCore (ci + 1 + k - indracores.length) q.queue = none) := by
        intro k hk
        rcases hfree (k + 1) (by rw [List.get?_cons_succ]; exact hk) with h | h
        · left; rcases h with ⟨a, ha1, ha2⟩; exact ⟨a, ha1, by omega⟩
        · right
          refine ⟨by omega, ?_⟩
          have he : ci + 1 + k - indracores.length =
              ci + (k + 1) - indracores.length := by omega
          rw [he]
          exact h.2
      rcases hfree 0 rfl with hsched | hbase
      · -- this core is already in the Scheduled list: the cursor must stop
        -- exactly on it, so the sweep skips it.
        rcases hsched with ⟨a, hamem, hacore⟩
        have hanotin : a ∉ sched.take d' := fun hin => by
          have := htk' a hin; omega
        have hain : a ∈ sched.drop d' := by
          rcases List.mem_append.1
            (by rw [List.take_append_drop d' sched]; exact hamem :
              a ∈ sched.take d' ++ sched.drop d') with h | h
          · exact absurd h hanotin
          · exact h
        have hd'lt : d' < sched.length := by
          rcases Nat.lt_or_ge d' sched.length with h | h
          · exact h
          · rw [List.drop_eq_nil_of_le h] at hain
            exact absurd hain (by simp)
        have hheadcore : (sched.get ⟨d', hd'lt⟩).core = ci := by
          have hle : (sched.get ⟨d', hd'lt⟩).core ≤ a.core := by
            rw [List.drop_eq_getElem_cons hd'lt] at hain
            rcases List.mem_cons.1 hain with h | h
            · subst h; simp
            · have hpair : (sched.drop d').Pairwise
                  (fun a b => a.core < b.core) :=
                hsort.sublist (List.drop_sublist _ _)
              rw [List.drop_eq_getElem_cons hd'lt, List.pairwise_cons] at hpair
              have := hpair.1 a h
              simp only [List.get_eq_getElem]
              omega
          have hge := hstop hd'lt
          omega
        rw [enumIdx_drop_cons sched d' hd'lt]
        have hgoal : (if (sched.get ⟨d', hd'lt⟩).core = ci then
            sweep gac indracores sched.length cs (ci + 1)
              ((d', sched.get ⟨d', hd'lt⟩) :: (enumIdx 0 sched).drop (d' + 1)) q
          else
            match scheduleCore gac indracores ci q with
            | none => none
            | some (none, q1) =>
              sweep gac indracores sched.length cs (ci + 1)
                ((d', sched.get ⟨d', hd'lt⟩) :: (enumIdx 0 sched).drop (d' + 1)) q1
            | some (some assignment, q1) =>
              match sweep gac indracores sched.length cs (ci + 1)
                  ((d', sched.get ⟨d', hd'lt⟩) ::
                    (enumIdx 0 sched).drop (d' + 1)) q1 with
              | none => none
              | some (u, q2) => some ((d', assignment) :: u, q2)) =
            some ([], q) := by
          rw [if_pos hheadcore, ← enumIdx_drop_cons sched d' hd'lt]
          exact hrec q hshift
        exact hgoal
      · -- indrabase core with no matching queued claim: nothing scheduled.
        have hsc : scheduleCore gac indracores ci q = some (none, q) :=
          scheduleCore_ge_none gac indracores ci q (by omega)
            ((take_next_none_iff _ _).2 (by
              have he : ci + 0 - indracores.length = ci - indracores.length := by
                omega
              rw [← he]
              exact hbase.2))
        rcases Nat.lt_or_ge d' sched.length with hd'lt | hd'ge
        · rw [enumIdx_drop_cons sched d' hd'lt]
          by_cases hskip : (sched.get ⟨d', hd'lt⟩).core = ci
          · have hgoal : (if (sched.get ⟨d', hd'lt⟩).core = ci then
                sweep gac indracores sched.length cs (ci + 1)
                  ((d', sched.get ⟨d', hd'lt⟩) :: (enumIdx 0 sched).drop (d' + 1)) q
              else
                match scheduleCore gac indracores ci q with
                | none => none
                | some (none, q1) =>
                  sweep gac indracores sched.length cs (ci + 1)
                    ((d', sched.get ⟨d', hd'lt⟩) ::
                      (enumIdx 0 sched).drop (d' + 1)) q1
                | some (some assignment, q1) =>
                  match sweep gac indracores sched.length cs (ci + 1)
                      ((d', sched.get ⟨d', hd'lt⟩) ::
                        (enumIdx 0 sched).drop (d' + 1)) q1 with
                  | none => none
                  | some (u, q2) => some ((d', assignment) :: u, q2)) =
                some ([], q) := by
              rw [if_pos hskip, ← enumIdx_drop_cons sched d' hd'lt]
              exact hrec q hshift
            exact hgoal
          · have hgoal : (if (sched.get ⟨d', hd'lt⟩).core = ci then
                sweep gac indracores sched.length cs (ci + 1)
                  ((d', sched.get ⟨d', hd'lt⟩) :: (enumIdx 0 sched).drop (d' + 1)) q
              else
                match scheduleCore gac indracores ci q with
                | none => none
                | some (none, q1) =>
                  sweep gac indracores sched.length cs (ci + 1)
                    ((d', sched.get ⟨d', hd'lt⟩) ::
                      (enumIdx 0 sched).drop (d' + 1)) q1
                | some (some assignment, q1) =>
                  match sweep gac indracores sched.length cs (ci + 1)
                      ((d', sched.get ⟨d', hd'lt⟩) ::
                        (enumIdx 0 sched).drop (d' + 1)) q1 with
                  | none => none
                  | some (u, q2) => some ((d', assignment) :: u, q2)) =
                some ([], q) := by
              rw [if_neg hskip, hsc, ← enumIdx_drop_cons sched d' hd'lt]
              exact hrec q hshift
            exact hgoal
        · rw [enumIdx_drop_nil sched d' (by omega)]
          have hgoal : (match scheduleCore gac indracores ci q with
              | none => none
              | some (none, q1) =>
                sweep gac indracores sched.length cs (ci + 1) [] q1
              | some (some assignment, q1) =>
                match sweep gac indracores sched.length cs (ci + 1) [] q1 with
                | none => none
                | some (u, q2) => some ((sched.length, assignment) :: u, q2)) =
              some ([], q) := by
            rw [hsc]
            have hres := hrec q hshift
            rw [enumIdx_drop_nil sched d' (by omega)] at hres
            exact hres
          exact hgoal

/-- free_one changes neither the Scheduled list, the validator groups, nor
the session start. -/
theorem free_one_frames (config : HostConfig) (s : SchedulerState)
    (i : Nat) (r : FreedReason) (s' : SchedulerState)
    (h : free_one config s i r = some s') :
    s'.scheduled = s.scheduled ∧ s'.validator_groups = s.validator_groups ∧
    s'.session_start_block = s.session_start_block := by
  unfold free_one at h
  split at h
  · split at h
    · cases h; exact ⟨rfl, rfl, rfl⟩
    · cases h; exact ⟨rfl, rfl, rfl⟩
    · split at h
      · cases h; exact ⟨rfl, rfl, rfl⟩
      · split at h
        · exact absurd h (by simp)
        · cases h; exact ⟨rfl, rfl, rfl⟩
  · cases h; exact ⟨rfl, rfl, rfl⟩

/-- free_cores changes neither the Scheduled list, the validator groups,
nor the session start. -/
theorem free_cores_frames (config : HostConfig) :
    ∀ (just_freed : List (Nat × FreedReason)) (s s1 : SchedulerState),
      free_cores config just_freed s = some s1 →
      s1.scheduled = s.scheduled ∧ s1.validator_groups = s.validator_groups ∧
      s1.session_start_block = s.session_start_block := by
  intro just_freed
  induction just_freed with
  | nil =>
    intro s s1 h
    cases h
    exact ⟨rfl, rfl, rfl⟩
  | cons x xs ih =>
    intro s s1 h
    unfold free_cores at h
    rw [List.foldlM_cons] at h
    cases hx : free_one config s x.1 x.2 with
    | none => rw [hx] at h; exact absurd h (by simp)
    | some s0 =>
      rw [hx] at h
      have h2 : free_cores config xs s0 = some s1 := h
      rcases free_one_frames config s x.1 x.2 s0 hx with ⟨f1, f2, f3⟩
      rcases ih s0 s1 h2 with ⟨g1, g2, g3⟩
      exact ⟨g1.trans f1, g2.trans f2, g3.trans f3⟩

/-- Elimination form of a successful schedule call: the freeing succeeded,
and then either the validator groups were empty (degenerate session, state
returned as-is) or the sweep produced updates that were enacted. -/
theorem schedule_some_elim (indracores : List IndraId) (config : HostConfig)
    (just_freed : List (Nat × FreedReason)) (now : Nat) (s s1 : SchedulerState)
    (h : schedule indracores config just_freed now s = some s1) :
    ∃ s2, free_cores config just_freed s = some s2 ∧
      ((s2.validator_groups.isEmpty = true ∧ s1 = s2) ∨
       (s2.validator_groups.isEmpty = false ∧ ∃ updates q',
         sweep (fun core => group_assigned_to_core config s2 core now)
           indracores s2.scheduled.length s2.availability_cores 0
           (enumIdx 0 s2.scheduled) s2.indrabase_queue = some (updates, q') ∧
         s1 = { s2 with
           scheduled := applyUpdates s2.scheduled updates
           indrabase_queue := q' })) := by
  unfold schedule at h
  cases hf : free_cores config just_freed s with
  | none => rw [hf] at h; exact absurd h (by simp)
  | some s2 =>
    rw [hf] at h
    have h2 : (if s2.validator_groups.isEmpty = true then some s2
        else
          match sweep (fun core => group_assigned_to_core config s2 core now)
              indracores s2.scheduled.length s2.availability_cores 0
              (enumIdx 0 s2.scheduled) s2.indrabase_queue with
          | none => none
          | some (scheduled_updates, q') =>
            some { s2 with
              scheduled := applyUpdates s2.scheduled scheduled_updates
              indrabase_queue := q' }) = some s1 := h
    by_cases hg : s2.validator_groups.isEmpty = true
    · rw [if_pos hg] at h2
      injection h2 with h2
      exact ⟨s2, rfl, Or.inl ⟨hg, h2.symm⟩⟩
    · rw [if_neg hg] at h2
      cases hsw : sweep (fun core => group_assigned_to_core config s2 core now)
          indracores s2.scheduled.length s2.availability_cores 0
          (enumIdx 0 s2.scheduled) s2.indrabase_queue with
      | none => rw [hsw] at h2; exact absurd h2 (by simp)
      | some out =>
        obtain ⟨updates, q'⟩ := out
        rw [hsw] at h2
        have h3 : some ({ s2 with
            scheduled := applyUpdates s2.scheduled updates
            indrabase_queue := q' } : SchedulerState) = some s1 := h2
        injection h3 with h3
        exact ⟨s2, rfl, Or.inr ⟨by simp [hg], updates, q', hsw, h3.symm⟩⟩

/-- Introduction form of a successful schedule call through the sweep. -/
theorem schedule_some_intro (indracores : List IndraId) (config : HostConfig)
    (just_freed : List (Nat × FreedReason)) (now : Nat) (s s2 : SchedulerState)
    (updates : List (Nat × CoreAssignment)) (q' : IndrabaseClaimQueue)
    (hf : free_cores config just_freed s = some s2)
    (hg : s2.validator_groups.isEmpty = false)
    (hsw : sweep (fun core => group_assigned_to_core config s2 core now)
        indracores s2.scheduled.length s2.availability_cores 0
        (enumIdx 0 s2.scheduled) s2.indrabase_queue = some (updates, q')) :
    schedule indracores config just_freed now s =
      some { s2 with
        scheduled := applyUpdates s2.scheduled updates
        indrabase_queue := q' } := by
  unfold schedule
  rw [hf]
  have h2 : (if s2.validator_groups.isEmpty = true then some s2
      else
        match sweep (fun core => group_assigned_to_core config s2 core now)
            indracores s2.scheduled.length s2.availability_cores 0
            (enumIdx 0 s2.scheduled) s2.indrabase_queue with
        | none => none
        | some (scheduled_updates, q') =>
          some { s2 with
            scheduled := applyUpdates s2.scheduled scheduled_updates
            indrabase_queue := q' }) =
      some { s2 with
        scheduled := applyUpdates s2.scheduled updates
        indrabase_queue := q' } := by
    rw [if_neg (by simp [hg]), hsw]
  exact h2

/-- C5: schedule is idempotent — a second call at the same block with no
newly freed cores and no new claims reproduces the state of the first call
exactly (in particular the Scheduled list is unchanged).  The starting
Scheduled list is assumed strictly sorted by core, which is the documented
invariant of that storage item. -/
theorem claim_C5 (indracores : List IndraId) (config : HostConfig)
    (just_freed : List (Nat × FreedReason)) (now : Nat) (s s1 : SchedulerState)
    (hsort : s.scheduled.Pairwise (fun a b => a.core < b.core))
    (h1 : schedule indracores config just_freed now s = some s1) :
    schedule indracores config [] now s1 = some s1 := by
  rcases schedule_some_elim indracores config just_freed now s s1 h1 with
    ⟨s2, hf, hcase⟩
  rcases free_cores_frames config just_freed s s2 hf with ⟨hfr1, hfr2, hfr3⟩
  have hsort2 : s2.scheduled.Pairwise (fun a b => a.core < b.core) := by
    rw [hfr1]; exact hsort
  rcases hcase with ⟨hg, hs1⟩ | ⟨hg, updates, q', hsw, hs1⟩
  · -- degenerate session: both calls return the input unchanged.
    subst hs1
    unfold schedule
    have hfree_nil : free_cores config [] s1 = some s1 := rfl
    rw [hfree_nil]
    have h2 : (if s1.validator_groups.isEmpty = true then some s1
        else
          match sweep (fun core => group_assigned_to_core config s1 core now)
              indracores s1.scheduled.length s1.availability_cores 0
              (enumIdx 0 s1.scheduled) s1.indrabase_queue with
          | none => none
          | some (scheduled_updates, q') =>
            some { s1 with
              scheduled := applyUpdates s1.scheduled scheduled_updates
              indrabase_queue := q' }) = some s1 := by
      rw [if_pos hg]
    exact h2
  · subst hs1
    -- facts about the first sweep.
    have hsw' : sweep (fun core => group_assigned_to_core config s2 core now)
        indracores s2.scheduled.length s2.availability_cores 0
        ((enumIdx 0 s2.scheduled).drop 0) s2.indrabase_queue =
        some (updates, q') := by
      rw [List.drop_zero]; exact hsw
    rcases sweep_spec (fun core => group_assigned_to_core config s2 core now)
        indracores s2.scheduled hsort2 s2.availability_cores 0 0
        s2.indrabase_queue updates q' (by omega)
        (by intro b hb; rw [List.take_zero] at hb; exact absurd hb (by simp))
        hsw' with ⟨hC, hP, hS, hU, hK⟩
    have happly := compat_apply updates s2.scheduled s2.scheduled 0 0 0 hC
      hsort2 (by omega) (by omega) rfl
      (by intro b hb; rw [List.take_zero] at hb; exact absurd hb (by simp))
    have hAsort : (applyUpdates s2.scheduled updates).Pairwise
        (fun a b => a.core < b.core) := happly.1
    have hAperm : List.Perm (applyUpdates s2.scheduled updates)
        (s2.scheduled ++ updates.map Prod.snd) := happly.2
    have hfree2 : ∀ k, s2.availability_cores.get? k = some none →
        (∃ a ∈ applyUpdates s2.scheduled updates, a.core = 0 + k) ∨
        (indracores.length ≤ 0 + k ∧
          takeFirstOnCore (0 + k - indracores.length) q'.queue = none) := by
      intro k hk
      rcases hK k hk with h | h | h
      · left
        rcases h with ⟨a, ha1, ha2⟩
        exact ⟨a, hAperm.symm.subset (List.mem_append.2 (Or.inl ha1)), ha2⟩
      · left
        rcases h with ⟨p, a, ha1, ha2⟩
        refine ⟨a, hAperm.symm.subset (List.mem_append.2 (Or.inr ?_)), ha2⟩
        exact List.mem_map.2 ⟨(p, a), ha1, rfl⟩
      · right; exact h
    have hnoop := sweep_noop
      (fun core => group_assigned_to_core config s2 core now) indracores
      (applyUpdates s2.scheduled updates) hAsort s2.availability_cores 0 0 q'
      (by omega)
      (by intro b hb; rw [List.take_zero] at hb; exact absurd hb (by simp))
      hfree2
    rw [List.drop_zero] at hnoop
    -- the second call: free nothing, sweep schedules nothing.
    have hresult := schedule_some_intro indracores config [] now
      ({ s2 with
        scheduled := applyUpdates s2.scheduled updates
        indrabase_queue := q' })
      ({ s2 with
        scheduled := applyUpdates s2.scheduled updates
        indrabase_queue := q' })
      [] q' rfl hg hnoop
    exact hresult

/-- C5 witness: a first schedule call on the one-core example state with the
claim for workload 7 queued assigns core 0; the second call reproduces the
same state. -/
theorem claim_C5_witness :
    exStateClaimQueued.scheduled.Pairwise (fun a b => a.core < b.core) ∧
    schedule [] exCfg [] 1 exStateClaimQueued = some exStateClaimScheduled ∧
    schedule [] exCfg [] 1 exStateClaimScheduled = some exStateClaimScheduled :=
  ⟨by decide, by decide,
   claim_C5 [] exCfg [] 1 exStateClaimQueued exStateClaimScheduled
     (by decide) (by decide)⟩

/-! ### Claim-id accounting lemmas -/

/-- schedIds over a cons with an indrabase assignment. -/
theorem schedIds_cons_ib (a : CoreAssignment) (l : List CoreAssignment)
    (c : CollatorId) (r : Nat) (hk : a.kind = .Indrabase c r) :
    schedIds (a :: l) = a.indra_id :: schedIds l := by
  unfold schedIds
  rw [List.filterMap_cons, hk]

/-- schedIds over a cons with an indracore assignment. -/
theorem schedIds_cons_ic (a : CoreAssignment) (l : List CoreAssignment)
    (hk : a.kind = .Indracore) :
    schedIds (a :: l) = schedIds l := by
  unfold schedIds
  rw [List.filterMap_cons, hk]

/-- The id of an indrabase occupant is among the core ids. -/
theorem coreIds_mem (cores : List (Option CoreOccupied)) (i : Nat)
    (h : i < cores.length) (e : IndrabaseEntry)
    (hocc : cores.get ⟨i, h⟩ = some (.Indrabase e)) :
    e.claim.indra ∈ coreIds cores := by
  induction cores generalizing i with
  | nil => exact absurd h (by simp)
  | cons c cs ih =>
    cases i with
    | zero =>
      have : c = some (.Indrabase e) := hocc
      subst this
      unfold coreIds
      rw [List.filterMap_cons]
      exact List.mem_cons_self _ _
    | succ i =>
      have hi : i < cs.length := by simpa using h
      have hocc2 : cs.get ⟨i, hi⟩ = some (.Indrabase e) := hocc
      have := ih i hi hocc2
      unfold coreIds at this ⊢
      rw [List.filterMap_cons]
      cases c with
      | none => exact this
      | some occ =>
        cases occ with
        | Indracore => exact this
        | Indrabase e2 => exact List.mem_cons_of_mem _ this

/-- Clearing an indrabase occupant splits the core ids around its id. -/
theorem coreIds_clear_ib (cores : List (Option CoreOccupied)) (i : Nat)
    (h : i < cores.length) (e : IndrabaseEntry)
    (hocc : cores.get ⟨i, h⟩ = some (.Indrabase e)) :
    ∃ pre post, coreIds cores = pre ++ e.claim.indra :: post ∧
      coreIds (cores.set i none) = pre ++ post := by
  induction cores generalizing i with
  | nil => exact absurd h (by simp)
  | cons c cs ih =>
    cases i with
    | zero =>
      have hc : c = some (.Indrabase e) := hocc
      subst hc
      refine ⟨[], coreIds cs, ?_, ?_⟩
      · unfold coreIds; rw [List.filterMap_cons]; rfl
      · rw [List.set_cons_zero]
        unfold coreIds; rw [List.filterMap_cons]; rfl
    | succ i =>
      have hi : i < cs.length := by simpa using h
      have hocc2 : cs.get ⟨i, hi⟩ = some (.Indrabase e) := hocc
      rcases ih i hi hocc2 with ⟨pre, post, h1, h2⟩
      rw [List.set_cons_succ]
      cases c with
      | none =>
        refine ⟨pre, post, ?_, ?_⟩
        · unfold coreIds at h1 ⊢; rw [List.filterMap_cons]; exact h1
        · unfold coreIds at h2 ⊢; rw [List.filterMap_cons]; exact h2
      | some occ =>
        cases occ with
        | Indracore =>
          refine ⟨pre, post, ?_, ?_⟩
          · unfold coreIds at h1 ⊢; rw [List.filterMap_cons]; exact h1
          · unfold coreIds at h2 ⊢; rw [List.filterMap_cons]; exact h2
        | Indrabase e2 =>
          refine ⟨e2.claim.indra :: pre, post, ?_, ?_⟩
          · unfold coreIds at h1 ⊢; rw [List.filterMap_cons, h1]; rfl
          · unfold coreIds at h2 ⊢; rw [List.filterMap_cons, h2]; rfl

/-- Clearing a core that holds no indrabase claim leaves the core ids
unchanged. -/
theorem coreIds_clear_other (cores : List (Option CoreOccupied)) (i : Nat)
    (h : i < cores.length)
    (hocc : ∀ e, cores.get ⟨i, h⟩ ≠ some (.Indrabase e)) :
    coreIds (cores.set i none) = coreIds cores := by
  induction cores generalizing i with
  | nil => exact absurd h (by simp)
  | cons c cs ih =>
    cases i with
    | zero =>
      rw [List.set_cons_zero]
      cases c with
      | none => rfl
      | some occ =>
        cases occ with
        | Indracore => rfl
        | Indrabase e => exact absurd rfl (hocc e)
    | succ i =>
      have hi : i < cs.length := by simpa using h
      rw [List.set_cons_succ]
      have := ih i hi (fun e he => hocc e he)
      unfold coreIds at this ⊢
      rw [List.filterMap_cons, List.filterMap_cons]
      cases c with
      | none => exact this
      | some occ =>
        cases occ with
        | Indracore => exact this
        | Indrabase e2 => rw [this]

/-- Installing an occupant on a free in-range core at most adds that
occupant's claim id to the core ids (as a subpermutation bound), and adds
exactly it when everything is in range. -/
theorem coreIds_install (cores : List (Option CoreOccupied)) (i : Nat)
    (v : CoreOccupied) (hfree : cores.getD i none = none) :
    List.Subperm (coreIds (cores.set i (some v)))
      ((match v with
        | .Indrabase e => [e.claim.indra]
        | .Indracore => []) ++ coreIds cores) := by
  induction cores generalizing i with
  | nil =>
    rw [List.set_nil]
    cases v with
    | Indracore => exact List.Subperm.refl _
    | Indrabase e =>
      exact (List.sublist_cons_self _ _).subperm
  | cons c cs ih =>
    cases i with
    | zero =>
      have hc : c = none := by
        have : ((c :: cs).getD 0 none) = c := rfl
        rw [this] at hfree
        exact hfree
      subst hc
      rw [List.set_cons_zero]
      cases v with
      | Indracore =>
        exact List.Subperm.refl _
      | Indrabase e =>
        unfold coreIds
        rw [List.filterMap_cons]
        exact List.Subperm.refl _
    | succ i =>
      have hfree2 : cs.getD i none = none := hfree
      have hrec := ih i hfree2
      rw [List.set_cons_succ]
      unfold coreIds at hrec ⊢
      rw [List.filterMap_cons, List.filterMap_cons]
      cases c with
      | none => exact hrec
      | some occ =>
        cases occ with
        | Indracore => exact hrec
        | Indrabase e2 =>
          cases v with
          | Indracore =>
            have h0 : List.Subperm (cs.set i (some CoreOccupied.Indracore)
                |>.filterMap fun c => match c with
                  | some (.Indrabase e) => some e.claim.indra
                  | _ => none) (cs.filterMap fun c => match c with
                  | some (.Indrabase e) => some e.claim.indra
                  | _ => none) := hrec
            rcases h0 with ⟨l, hp, hs⟩
            exact ⟨e2.claim.indra :: l, hp.cons _, hs.cons₂ _⟩
          | Indrabase e =>
            rcases hrec with ⟨l, hp, hs⟩
            refine List.Subperm.trans ?_
              ((List.Perm.swap e.claim.indra e2.claim.indra _).subperm)
            exact ⟨e2.claim.indra :: l, hp.cons _, hs.cons₂ _⟩

/-- A successful enqueue appends exactly one queued entry. -/
theorem enqueue_entry_some (q : IndrabaseClaimQueue) (e : IndrabaseEntry)
    (n : Nat) (q' : IndrabaseClaimQueue)
    (h : enqueue_entry q e n = some q') :
    q'.queue = q.queue ++ [⟨e, q.next_core_offset⟩] ∧
    queueIds q' = queueIds q ++ [e.claim.indra] := by
  unfold enqueue_entry at h
  split at h
  · exact absurd h (by simp)
  · cases h
    constructor
    · rfl
    · unfold queueIds
      rw [List.map_append]
      rfl

/-- Membership in a sorted insert. -/
theorem sortedInsert_mem (x y : Nat) (l : List Nat) :
    x ∈ sortedInsert y l ↔ x = y ∨ x ∈ l := by
  induction l with
  | nil => simp [sortedInsert]
  | cons z zs ih =>
    rw [sortedInsert]
    split
    · simp [or_comm, or_assoc, or_left_comm]
    · rw [List.mem_cons, ih, List.mem_cons]
      tauto

/-- Sorted insert of a fresh id keeps the index strictly sorted. -/
theorem sortedInsert_sorted (y : Nat) (l : List Nat)
    (hs : l.Pairwise (· < ·)) (hy : y ∉ l) :
    (sortedInsert y l).Pairwise (· < ·) := by
  induction l with
  | nil => simp [sortedInsert]
  | cons z zs ih =>
    rw [List.pairwise_cons] at hs
    by_cases hle : y ≤ z
    · rw [sortedInsert, if_pos hle]
      have hyz : y < z := by
        rcases Nat.lt_or_ge y z with h | h
        · exact h
        · have : y = z := by omega
          subst this
          exact absurd (List.mem_cons_self _ _) hy
      rw [List.pairwise_cons]
      constructor
      · intro b hb
        show y < b
        rcases List.mem_cons.1 hb with hb | hb
        · cases hb; exact hyz
        · have := hs.1 b hb; omega
      · rw [List.pairwise_cons]
        exact hs
    · rw [sortedInsert, if_neg hle]
      have hzy : z < y := by omega
      rw [List.pairwise_cons]
      constructor
      · intro b hb
        show z < b
        rcases (sortedInsert_mem b y zs).1 hb with hb | hb
        · cases hb; exact hzy
        · exact hs.1 b hb
      · exact ih hs.2 (fun hin => hy (List.mem_cons_of_mem _ hin))

/-- Moving a snoc-appended element to the front is a permutation. -/
theorem perm_snoc_out (A B : List Nat) (x : Nat) :
    List.Perm ((A ++ [x]) ++ B) (x :: (A ++ B)) := by
  rw [List.append_assoc]
  exact List.perm_middle

/-- Extracting an element buried in a triple append is a permutation. -/
theorem perm_mid_out (A S P Q : List Nat) (x : Nat) :
    List.Perm (A ++ (S ++ (P ++ x :: Q))) (x :: (A ++ (S ++ (P ++ Q)))) := by
  have h1 : List.Perm (P ++ x :: Q) (x :: (P ++ Q)) := List.perm_middle
  have h2 := (h1.append_left S).append_left A
  refine h2.trans ?_
  have h3 : List.Perm (S ++ (x :: (P ++ Q))) (x :: (S ++ (P ++ Q))) :=
    List.perm_middle
  have h4 := h3.append_left A
  refine h4.trans ?_
  exact List.perm_middle

/-- Case analysis of one clear() fold step: either the queue is returned
unchanged, or the assignment is a live indrabase within the incremented
retry limit and its entry is re-enqueued with retries incremented. -/
theorem clearFold_cases (is_indrabase : IndraId → Bool) (config : HostConfig)
    (q : IndrabaseClaimQueue) (a : CoreAssignment) (q1 : IndrabaseClaimQueue)
    (h : clearFold is_indrabase config q a = some q1) :
    q1 = q ∨ ∃ col r, a.kind = .Indrabase col r ∧
      enqueue_entry q ⟨⟨a.indra_id, col⟩, r + 1⟩ config.indrabase_cores =
        some q1 := by
  obtain ⟨core, iid, kind, gidx⟩ := a
  cases kind with
  | Indracore =>
    left
    have h2 : some q = some q1 := h
    exact (Option.some.inj h2).symm
  | Indrabase col r =>
    have h2 : (if ¬ is_indrabase iid then some q
        else if r + 1 ≤ config.indrabase_retries then
          enqueue_entry q ⟨⟨iid, col⟩, r + 1⟩ config.indrabase_cores
        else some q) = some q1 := h
    split at h2
    · left; exact (Option.some.inj h2).symm
    · split at h2
      · right; exact ⟨col, r, rfl, h2⟩
      · left; exact (Option.some.inj h2).symm

/-- The clear() fold only appends to the queue, and the appended entries
carry ids drawn (in order) from the processed Scheduled list. -/
theorem clearFold_fold (is_indrabase : IndraId → Bool) (config : HostConfig) :
    ∀ (L : List CoreAssignment) (q q' : IndrabaseClaimQueue),
      L.foldlM (clearFold is_indrabase config) q = some q' →
      ∃ added, q'.queue = q.queue ++ added ∧
        List.Sublist (entryIds added) (schedIds L) := by
  intro L
  induction L with
  | nil =>
    intro q q' h
    cases h
    exact ⟨[], by simp, List.nil_sublist _⟩
  | cons a L ih =>
    intro q q' h
    rw [List.foldlM_cons] at h
    cases hstep : clearFold is_indrabase config q a with
    | none => rw [hstep] at h; exact absurd h (by simp)
    | some q1 =>
      rw [hstep] at h
      have h' : L.foldlM (clearFold is_indrabase config) q1 = some q' := h
      rcases ih q1 q' h' with ⟨added, hq, hsub⟩
      rcases clearFold_cases is_indrabase config q a q1 hstep with heq | hstep2
      · subst heq
        refine ⟨added, hq, ?_⟩
        cases hk : a.kind with
        | Indracore =>
          rw [schedIds_cons_ic a L hk]
          exact hsub
        | Indrabase col r =>
          rw [schedIds_cons_ib a L col r hk]
          exact hsub.cons _
      · rcases hstep2 with ⟨col, r, hk, henq⟩
        rcases enqueue_entry_some q _ _ q1 henq with ⟨hq1, _⟩
        refine ⟨⟨⟨⟨a.indra_id, col⟩, r + 1⟩, q.next_core_offset⟩ :: added, ?_, ?_⟩
        · rw [hq, hq1, List.append_assoc]
          rfl
        · rw [schedIds_cons_ib a L col r hk]
          have : entryIds
              (⟨⟨⟨a.indra_id, col⟩, r + 1⟩, q.next_core_offset⟩ :: added) =
              a.indra_id :: entryIds added := rfl
          rw [this]
          exact hsub.cons₂ _

/-- With no indrabase cores, a successful clear() fold leaves the queue
untouched (any attempted re-enqueue would have aborted). -/
theorem clearFold_zero (is_indrabase : IndraId → Bool) (config : HostConfig)
    (h0 : config.indrabase_cores = 0) :
    ∀ (L : List CoreAssignment) (q q' : IndrabaseClaimQueue),
      L.foldlM (clearFold is_indrabase config) q = some q' → q' = q := by
  intro L
  induction L with
  | nil =>
    intro q q' h
    cases h
    rfl
  | cons a L ih =>
    intro q q' h
    rw [List.foldlM_cons] at h
    cases hstep : clearFold is_indrabase config q a with
    | none => rw [hstep] at h; exact absurd h (by simp)
    | some q1 =>
      rw [hstep] at h
      have h' : L.foldlM (clearFold is_indrabase config) q1 = some q' := h
      rcases clearFold_cases is_indrabase config q a q1 hstep with heq | hstep2
      · subst heq; exact ih _ _ h'
      · rcases hstep2 with ⟨col, r, _, henq⟩
        unfold enqueue_entry at henq
        rw [if_pos h0] at henq
        exact absurd henq (by simp)

/-- Elimination form of a successful clear() call. -/
theorem clear_elim (is_indrabase : IndraId → Bool) (config : HostConfig)
    (s s' : SchedulerState) (h : clear is_indrabase config s = some s') :
    ∃ q', s.scheduled.foldlM (clearFold is_indrabase config)
        s.indrabase_queue = some q' ∧
      s' = { s with indrabase_queue := q', scheduled := [] } := by
  unfold clear at h
  cases hq : s.scheduled.foldlM (clearFold is_indrabase config)
      s.indrabase_queue with
  | none => rw [hq] at h; exact absurd h (by simp)
  | some q' =>
    rw [hq] at h
    exact ⟨q', rfl, (Option.some.inj h).symm⟩

/-- Case analysis of one free_cores iteration: no-op, an indracore core
freed, a Concluded indrabase free (occupant dropped, id unindexed), or a
TimedOut indrabase free (occupant re-enqueued unchanged). -/
theorem free_one_cases (config : HostConfig) (s : SchedulerState)
    (i : Nat) (r : FreedReason) (s' : SchedulerState)
    (h : free_one config s i r = some s') :
    s' = s ∨
    ∃ hlt : i < s.availability_cores.length,
      (s.availability_cores.get ⟨i, hlt⟩ = some .Indracore ∧
        s' = { s with availability_cores := s.availability_cores.set i none }) ∨
      ∃ entry, s.availability_cores.get ⟨i, hlt⟩ = some (.Indrabase entry) ∧
        ((r = .Concluded ∧
          s' = { s with
            availability_cores := s.availability_cores.set i none
            claim_index := indexRemove s.claim_index entry.claim.indra }) ∨
         (r = .TimedOut ∧ ∃ q',
           enqueue_entry s.indrabase_queue entry config.indrabase_cores =
             some q' ∧
           s' = { s with
             availability_cores := s.availability_cores.set i none
             indrabase_queue := q' })) := by
  unfold free_one at h
  by_cases hlt : i < s.availability_cores.length
  · rw [dif_pos hlt] at h
    cases hocc : s.availability_cores.get ⟨i, hlt⟩ with
    | none =>
      rw [hocc] at h
      have h2 : some s = some s' := h
      left
      exact (Option.some.inj h2).symm
    | some occ =>
      rw [hocc] at h
      cases occ with
      | Indracore =>
        have h2 : some ({ s with
            availability_cores := s.availability_cores.set i none } :
            SchedulerState) = some s' := h
        right
        exact ⟨hlt, Or.inl ⟨hocc, (Option.some.inj h2).symm⟩⟩
      | Indrabase entry =>
        right
        refine ⟨hlt, Or.inr ⟨entry, hocc, ?_⟩⟩
        cases r with
        | Concluded =>
          left
          have h2 : some ({ s with
              availability_cores := s.availability_cores.set i none
              claim_index := indexRemove s.claim_index entry.claim.indra } :
              SchedulerState) = some s' := h
          exact ⟨rfl, (Option.some.inj h2).symm⟩
        | TimedOut =>
          right
          refine ⟨rfl, ?_⟩
          have h2 : (match enqueue_entry s.indrabase_queue entry
              config.indrabase_cores with
            | none => (none : Option SchedulerState)
            | some q' => some { s with
                availability_cores := s.availability_cores.set i none
                indrabase_queue := q' }) = some s' := h
          cases henq : enqueue_entry s.indrabase_queue entry
              config.indrabase_cores with
          | none => rw [henq] at h2; exact absurd h2 (by simp)
          | some q' =>
            rw [henq] at h2
            exact ⟨q', rfl, (Option.some.inj h2).symm⟩
  · rw [dif_neg hlt] at h
    left
    exact (Option.some.inj h).symm

/-- free_one preserves the distinctness, indexing and sortedness invariants,
keeps every Scheduled entry on a free core, and preserves the zero-core
emptiness of the queue and cores. -/
theorem free_one_inv (config : HostConfig) (s : SchedulerState)
    (i : Nat) (r : FreedReason) (s' : SchedulerState)
    (h : free_one config s i r = some s')
    (hL : LiveNodup s) (hQ : QCInIndex s) (hI : IdxSorted s) :
    LiveNodup s' ∧ QCInIndex s' ∧ IdxSorted s' ∧
    (SchedFree s → SchedFree s') ∧
    (SInIndex s → SInIndex s') ∧
    (ZeroEmpty s → ZeroEmpty s') := by
  rcases free_one_cases config s i r s' h with heq | ⟨hlt, hcase⟩
  · subst heq
    exact ⟨hL, hQ, hI, id, id, id⟩
  rcases hcase with ⟨hocc, heq⟩ | ⟨entry, hocc, hcase⟩
  · -- an indracore occupant: the core ids are unchanged.
    subst heq
    have hc : coreIds (s.availability_cores.set i none) =
        coreIds s.availability_cores := by
      refine coreIds_clear_other s.availability_cores i hlt ?_
      intro e he
      rw [hocc] at he
      simp at he
    refine ⟨?_, ?_, hI, ?_, fun hS => hS, fun hZ => ?_⟩
    · show (queueIds s.indrabase_queue ++ schedIds s.scheduled ++
        coreIds (s.availability_cores.set i none)).Nodup
      rw [hc]; exact hL
    · intro x hx
      refine hQ x ?_
      rw [List.mem_append] at hx ⊢
      rcases hx with hx | hx
      · exact Or.inl hx
      · rw [hc] at hx
        exact Or.inr hx
    · intro hF a ha
      exact getD_set_none (hF a ha)
    · refine ⟨hZ.1, ?_⟩
      show coreIds (s.availability_cores.set i none) = []
      rw [hc]
      exact hZ.2
  rcases coreIds_clear_ib s.availability_cores i hlt entry hocc with
    ⟨pre, post, hc1, hc2⟩
  have hLr : (queueIds s.indrabase_queue ++
      (schedIds s.scheduled ++ (pre ++ entry.claim.indra :: post))).Nodup := by
    have := hL
    rw [LiveNodup, List.append_assoc, hc1] at this
    exact this
  -- the freed claim id is distinct from every queued or scheduled id, and
  -- from the other occupants.
  have hid_q : entry.claim.indra ∉ queueIds s.indrabase_queue := by
    intro hmem
    have hdisj := (List.nodup_append.1 hLr).2.2
    exact hdisj hmem (by
      rw [List.mem_append]
      exact Or.inr (by rw [List.mem_append]; exact Or.inr (by simp)))
  have hrest : (schedIds s.scheduled ++
      (pre ++ entry.claim.indra :: post)).Nodup :=
    (List.nodup_append.1 hLr).2.1
  have hid_s : entry.claim.indra ∉ schedIds s.scheduled := by
    intro hmem
    have hdisj := (List.nodup_append.1 hrest).2.2
    exact hdisj hmem (by rw [List.mem_append]; exact Or.inr (by simp))
  have hcore_nd : (pre ++ entry.claim.indra :: post).Nodup :=
    (List.nodup_append.1 hrest).2.1
  have hid_pp : entry.claim.indra ∉ pre ++ post := by
    intro hmem
    rcases List.mem_append.1 hmem with hm | hm
    · exact (List.nodup_append.1 hcore_nd).2.2 hm (by simp)
    · have : (entry.claim.indra :: post).Nodup :=
        (List.nodup_append.1 hcore_nd).2.1
      rw [List.nodup_cons] at this
      exact this.1 hm
  have hid_core : entry.claim.indra ∈ coreIds s.availability_cores := by
    rw [hc1, List.mem_append]
    exact Or.inr (by simp)
  rcases hcase with ⟨hr, heq⟩ | ⟨hr, q', henq, heq⟩
  · -- Concluded: drop the occupant and unindex its claim.
    subst heq
    refine ⟨?_, ?_, ?_, ?_, ?_, fun hZ => ?_⟩
    · show (queueIds s.indrabase_queue ++ schedIds s.scheduled ++
        coreIds (s.availability_cores.set i none)).Nodup
      rw [List.append_assoc, hc2]
      refine hLr.sublist ?_
      refine List.Sublist.append_left ?_ _
      refine List.Sublist.append_left ?_ _
      exact (List.sublist_cons_self _ _).append_left pre
    · intro x hx
      have hx_old : x ∈ queueIds s.indrabase_queue ++
          coreIds s.availability_cores := by
        rw [List.mem_append] at hx ⊢
        rcases hx with hx | hx
        · exact Or.inl hx
        · rw [hc2] at hx
          rw [hc1, List.mem_append]
          rcases List.mem_append.1 hx with hm | hm
          · exact Or.inr (Or.inl hm)
          · exact Or.inr (Or.inr (List.mem_cons_of_mem _ hm))
      have hxi := hQ x hx_old
      have hxne : x ≠ entry.claim.indra := by
        intro hxe
        subst hxe
        rw [List.mem_append] at hx
        rcases hx with hx | hx
        · exact hid_q hx
        · rw [hc2] at hx
          exact hid_pp hx
      show x ∈ indexRemove s.claim_index entry.claim.indra
      unfold indexRemove
      exact (List.mem_erase_of_ne hxne).2 hxi
    · show (indexRemove s.claim_index entry.claim.indra).Pairwise (· < ·)
      exact hI.sublist (List.erase_sublist _ _)
    · intro hF a ha
      exact getD_set_none (hF a ha)
    · intro hS x hx
      have hxne : x ≠ entry.claim.indra := fun hxe => hid_s (hxe ▸ hx)
      show x ∈ indexRemove s.claim_index entry.claim.indra
      unfold indexRemove
      exact (List.mem_erase_of_ne hxne).2 (hS x hx)
    · exfalso
      rw [hZ.2] at hid_core
      exact absurd hid_core (by simp)
  · -- TimedOut: re-enqueue the occupant unchanged.
    subst heq
    rcases enqueue_entry_some s.indrabase_queue entry config.indrabase_cores
      q' henq with ⟨hq1, hq2⟩
    refine ⟨?_, ?_, hI, ?_, fun hS => hS, fun hZ => ?_⟩
    · show (queueIds q' ++ schedIds s.scheduled ++
        coreIds (s.availability_cores.set i none)).Nodup
      rw [hq2, hc2, List.append_assoc]
      have hperm1 := perm_snoc_out (queueIds s.indrabase_queue)
        (schedIds s.scheduled ++ (pre ++ post)) entry.claim.indra
      have hperm2 := perm_mid_out (queueIds s.indrabase_queue)
        (schedIds s.scheduled) pre post entry.claim.indra
      exact (hperm1.trans hperm2.symm).symm.nodup hLr
    · intro x hx
      rw [List.mem_append] at hx
      rcases hx with hx | hx
      · have hx2 : x ∈ queueIds q' := hx
        rw [hq2] at hx2
        rcases List.mem_append.1 hx2 with hm | hm
        · exact hQ x (List.mem_append.2 (Or.inl hm))
        · have hxe : x = entry.claim.indra := by simpa using hm
          subst hxe
          exact hQ entry.claim.indra (List.mem_append.2 (Or.inr hid_core))
      · have hx2 : x ∈ coreIds (s.availability_cores.set i none) := hx
        rw [hc2] at hx2
        refine hQ x (List.mem_append.2 (Or.inr ?_))
        rw [hc1, List.mem_append]
        rcases List.mem_append.1 hx2 with hm | hm
        · exact Or.inl hm
        · exact Or.inr (by simp [hm])
    · intro hF a ha
      exact getD_set_none (hF a ha)
    · exfalso
      rw [hZ.2] at hid_core
      exact absurd hid_core (by simp)

/-- free_cores preserves the same invariants as each iteration. -/
theorem free_cores_inv (config : HostConfig) :
    ∀ (just_freed : List (Nat × FreedReason)) (s s1 : SchedulerState),
      free_cores config just_freed s = some s1 →
      LiveNodup s → QCInIndex s → IdxSorted s →
      LiveNodup s1 ∧ QCInIndex s1 ∧ IdxSorted s1 ∧
      (SchedFree s → SchedFree s1) ∧
      (SInIndex s → SInIndex s1) ∧
      (ZeroEmpty s → ZeroEmpty s1) := by
  intro just_freed
  induction just_freed with
  | nil =>
    intro s s1 h hL hQ hI
    cases h
    exact ⟨hL, hQ, hI, id, id, id⟩
  | cons x xs ih =>
    intro s s1 h hL hQ hI
    unfold free_cores at h
    rw [List.foldlM_cons] at h
    cases hx : free_one config s x.1 x.2 with
    | none => rw [hx] at h; exact absurd h (by simp)
    | some s0 =>
      rw [hx] at h
      have h2 : free_cores config xs s0 = some s1 := h
      rcases free_one_inv config s x.1 x.2 s0 hx hL hQ hI with
        ⟨g1, g2, g3, g4, g5, g6⟩
      rcases ih s0 s1 h2 g1 g2 g3 with ⟨k1, k2, k3, k4, k5, k6⟩
      exact ⟨k1, k2, k3, fun hF => k4 (g4 hF), fun hS => k5 (g5 hS),
        fun hZ => k6 (g6 hZ)⟩

/-- The entries harvested from the occupied cores carry exactly the core
ids. -/
theorem entryIds_harvest (cores : List (Option CoreOccupied)) :
    entryIds (cores.filterMap fun c =>
      match c with
      | some (.Indrabase claim) => some ⟨claim, 0⟩
      | _ => none) = coreIds cores := by
  induction cores with
  | nil => rfl
  | cons c cs ih =>
    unfold coreIds
    rw [List.filterMap_cons]
    cases c with
    | none =>
      rw [List.filterMap_cons]
      exact ih
    | some occ =>
      cases occ with
      | Indracore =>
        rw [List.filterMap_cons]
        exact ih
      | Indrabase e =>
        rw [List.filterMap_cons]
        show e.claim.indra :: entryIds (cs.filterMap _) = _
        rw [ih]
        rfl

/-- entryIds distributes over appends. -/
theorem entryIds_append (l1 l2 : List QueuedIndrabase) :
    entryIds (l1 ++ l2) = entryIds l1 ++ entryIds l2 := by
  unfold entryIds
  exact List.map_append _ _ _

/-- An all-empty core vector holds no claims. -/
theorem coreIds_replicate (n : Nat) :
    coreIds (List.replicate n (none : Option CoreOccupied)) = [] := by
  induction n with
  | zero => rfl
  | succ n ih =>
    rw [List.replicate_succ]
    unfold coreIds at ih ⊢
    rw [List.filterMap_cons]
    exact ih

/-- Unfolding equation of the pruning loop at a cons cell. -/
theorem pruneQueue_cons (is_indrabase : IndraId → Bool) (config : HostConfig)
    (x : QueuedIndrabase) (xs : List QueuedIndrabase) (idx : List IndraId) :
    pruneQueue is_indrabase config (x :: xs) idx =
      if x.claim.retries ≤ config.indrabase_retries ∧
          is_indrabase x.claim.claim.indra then
        (x :: (pruneQueue is_indrabase config xs idx).1,
          (pruneQueue is_indrabase config xs idx).2)
      else pruneQueue is_indrabase config xs
        (indexRemove idx x.claim.claim.indra) := by
  rw [pruneQueue]

/-- The session-change pruning keeps a subsequence of the queue and of the
claim index. -/
theorem pruneQueue_sublist (is_indrabase : IndraId → Bool)
    (config : HostConfig) :
    ∀ (L : List QueuedIndrabase) (idx : List IndraId),
      List.Sublist (pruneQueue is_indrabase config L idx).1 L ∧
      List.Sublist (pruneQueue is_indrabase config L idx).2 idx := by
  intro L
  induction L with
  | nil =>
    intro idx
    exact ⟨List.Sublist.refl _, List.Sublist.refl _⟩
  | cons x xs ih =>
    intro idx
    rw [pruneQueue_cons]
    split
    · exact ⟨(ih idx).1.cons₂ _, (ih idx).2⟩
    · exact ⟨(ih _).1.cons _, ((ih _).2).trans (List.erase_sublist _ _)⟩

/-- An indexed id whose workload never appears in the pruned segment
survives the pruning of the claim index. -/
theorem pruneQueue_mem_preserved (is_indrabase : IndraId → Bool)
    (config : HostConfig) :
    ∀ (L : List QueuedIndrabase) (idx : List IndraId) (y : IndraId),
      y ∈ idx → y ∉ entryIds L →
      y ∈ (pruneQueue is_indrabase config L idx).2 := by
  intro L
  induction L with
  | nil =>
    intro idx y hy _
    exact hy
  | cons x xs ih =>
    intro idx y hy hnot
    have hy_ne : y ≠ x.claim.claim.indra := by
      intro he
      exact hnot (by rw [he]; exact List.mem_cons_self _ _)
    have hnot' : y ∉ entryIds xs := by
      intro hm
      exact hnot (List.mem_cons_of_mem _ hm)
    rw [pruneQueue_cons]
    split
    · exact ih idx y hy hnot'
    · refine ih _ y ?_ hnot'
      unfold indexRemove
      exact (List.mem_erase_of_ne hy_ne).2 hy

/-- Every id kept by the pruning stays recorded in the pruned claim index,
provided the incoming queue has distinct ids all present in the index. -/
theorem pruneQueue_kept_indexed (is_indrabase : IndraId → Bool)
    (config : HostConfig) :
    ∀ (L : List QueuedIndrabase) (idx : List IndraId),
      (entryIds L).Nodup → (∀ x ∈ entryIds L, x ∈ idx) →
      ∀ y ∈ entryIds (pruneQueue is_indrabase config L idx).1,
        y ∈ (pruneQueue is_indrabase config L idx).2 := by
  intro L
  induction L with
  | nil =>
    intro idx _ _ y hy
    exact absurd hy (List.not_mem_nil y)
  | cons x xs ih =>
    intro idx hnd hall
    have hcons : entryIds (x :: xs) = x.claim.claim.indra :: entryIds xs := rfl
    have hnd' : (entryIds xs).Nodup := by
      rw [hcons, List.nodup_cons] at hnd
      exact hnd.2
    have hx_not : x.claim.claim.indra ∉ entryIds xs := by
      rw [hcons, List.nodup_cons] at hnd
      exact hnd.1
    have hall' : ∀ z ∈ entryIds xs, z ∈ idx := fun z hz =>
      hall z (List.mem_cons_of_mem _ hz)
    intro y
    rw [pruneQueue_cons]
    split
    · intro hy
      have hy2 : y ∈ x.claim.claim.indra ::
          entryIds (pruneQueue is_indrabase config xs idx).1 := hy
      rcases List.mem_cons.1 hy2 with hy3 | hy3
      · subst hy3
        exact pruneQueue_mem_preserved is_indrabase config xs idx _
          (hall _ (List.mem_cons_self _ _)) hx_not
      · exact ih idx hnd' hall' y hy3
    · intro hy
      refine ih _ hnd' ?_ y hy
      intro z hz
      have hz_ne : z ≠ x.claim.claim.indra := by
        intro he
        exact hx_not (he ▸ hz)
      unfold indexRemove
      exact (List.mem_erase_of_ne hz_ne).2 (hall' z hz)

/-- Re-affinitizing the pruned queue does not change its claim ids. -/
theorem entryIds_rebalance (g : Nat → Nat) :
    ∀ (K : List QueuedIndrabase) (n : Nat),
      entryIds ((enumIdx n K).map fun p =>
        { p.2 with core_offset := g p.1 }) = entryIds K := by
  intro K
  induction K with
  | nil => intro n; rfl
  | cons x xs ih =>
    intro n
    show x.claim.claim.indra :: entryIds ((enumIdx (n + 1) xs).map fun p =>
      { p.2 with core_offset := g p.1 }) = x.claim.claim.indra :: entryIds xs
    rw [ih (n + 1)]

/-- The session-change hook's queue, as a pruning of the harvested queue. -/
theorem on_new_session_queue (indracores : List IndraId)
    (is_indrabase : IndraId → Bool) (config : HostConfig)
    (n_validators current_block : Nat) (s : SchedulerState) :
    (on_new_session indracores is_indrabase config n_validators
      current_block s).indrabase_queue =
    (pruneAndRebalance is_indrabase config (harvestQueue s) s.claim_index).1 :=
  rfl

/-- The session-change hook's claim index, as a pruning of the old index. -/
theorem on_new_session_index (indracores : List IndraId)
    (is_indrabase : IndraId → Bool) (config : HostConfig)
    (n_validators current_block : Nat) (s : SchedulerState) :
    (on_new_session indracores is_indrabase config n_validators
      current_block s).claim_index =
    (pruneAndRebalance is_indrabase config (harvestQueue s) s.claim_index).2 :=
  rfl

/-- The session-change hook resizes the cores to an all-empty vector. -/
theorem on_new_session_cores (indracores : List IndraId)
    (is_indrabase : IndraId → Bool) (config : HostConfig)
    (n_validators current_block : Nat) (s : SchedulerState) :
    ∃ N, (on_new_session indracores is_indrabase config n_validators
      current_block s).availability_cores = List.replicate N none :=
  ⟨_, rfl⟩

/-- The session-change hook leaves the Scheduled list alone. -/
theorem on_new_session_sched (indracores : List IndraId)
    (is_indrabase : IndraId → Bool) (config : HostConfig)
    (n_validators current_block : Nat) (s : SchedulerState) :
    (on_new_session indracores is_indrabase config n_validators
      current_block s).scheduled = s.scheduled :=
  rfl

/-- The harvested queue's ids are the queued ids followed by the occupying
ids. -/
theorem harvestQueue_ids (s : SchedulerState) :
    entryIds (harvestQueue s) =
      queueIds s.indrabase_queue ++ coreIds s.availability_cores := by
  unfold harvestQueue
  rw [entryIds_append, entryIds_harvest]
  rfl

/-- Shape of the pruning-and-rebalancing result, by core count. -/
theorem pruneAndRebalance_spec (is_indrabase : IndraId → Bool)
    (config : HostConfig) (tq : List QueuedIndrabase) (idx : List IndraId) :
    (config.indrabase_cores = 0 ∧
      pruneAndRebalance is_indrabase config tq idx =
        ({ queue := [], next_core_offset := 0 }, [])) ∨
    (config.indrabase_cores ≠ 0 ∧
      queueIds (pruneAndRebalance is_indrabase config tq idx).1 =
        entryIds (pruneQueue is_indrabase config tq idx).1 ∧
      (pruneAndRebalance is_indrabase config tq idx).2 =
        (pruneQueue is_indrabase config tq idx).2) := by
  by_cases h0 : config.indrabase_cores = 0
  · left
    refine ⟨h0, ?_⟩
    rw [pruneAndRebalance, if_pos h0]
  · right
    refine ⟨h0, ?_, ?_⟩
    · rw [pruneAndRebalance, if_neg h0]
      exact entryIds_rebalance (fun i => i % config.indrabase_cores) _ 0
    · rw [pruneAndRebalance, if_neg h0]

/-- The session-change hook re-establishes the scheduler invariant: ids
stay distinct and indexed, the index stays sorted, the untouched Scheduled
list stays sorted and (on the fresh empty cores) free, and a zero core
count wipes the queue. -/
theorem on_new_session_inv (indracores : List IndraId)
    (is_indrabase : IndraId → Bool) (config : HostConfig)
    (n_validators current_block : Nat) (s s2 : SchedulerState)
    (heq : s2 = on_new_session indracores is_indrabase config n_validators
      current_block s)
    (hL : LiveNodup s) (hQ : QCInIndex s) (hI : IdxSorted s)
    (hSS : SchedSorted s)
    (hSI : SInIndex s ∨ schedIds s.scheduled = []) :
    LiveNodup s2 ∧ QCInIndex s2 ∧ IdxSorted s2 ∧ SchedSorted s2 ∧
    SchedFree s2 ∧
    (config.indrabase_cores ≠ 0 → SInIndex s2) ∧
    (config.indrabase_cores = 0 → ZeroEmpty s2) := by
  obtain ⟨N, hN⟩ := on_new_session_cores indracores is_indrabase config
    n_validators current_block s
  -- shared distinctness bookkeeping on the old state
  have h1 : ((queueIds s.indrabase_queue ++ schedIds s.scheduled) ++
      coreIds s.availability_cores).Nodup := hL
  have h2 : (queueIds s.indrabase_queue ++
      (coreIds s.availability_cores ++ schedIds s.scheduled)).Nodup := by
    have hpm : List.Perm
        (queueIds s.indrabase_queue ++
          (schedIds s.scheduled ++ coreIds s.availability_cores))
        (queueIds s.indrabase_queue ++
          (coreIds s.availability_cores ++ schedIds s.scheduled)) :=
      (List.perm_append_comm).append_left _
    refine hpm.nodup ?_
    rw [← List.append_assoc]
    exact h1
  have h3 : ((queueIds s.indrabase_queue ++ coreIds s.availability_cores) ++
      schedIds s.scheduled).Nodup := by
    rw [List.append_assoc]
    exact h2
  have htq_nd : (entryIds (harvestQueue s)).Nodup := by
    rw [harvestQueue_ids]
    exact (List.nodup_append.1 h3).1
  have htq_idx : ∀ x ∈ entryIds (harvestQueue s), x ∈ s.claim_index := by
    intro x hx
    rw [harvestQueue_ids] at hx
    exact hQ x hx
  have hdisj : ∀ x ∈ schedIds s.scheduled, x ∉ entryIds (harvestQueue s) := by
    intro x hx hmem
    rw [harvestQueue_ids] at hmem
    exact (List.nodup_append.1 h3).2.2 hmem hx
  rcases pruneAndRebalance_spec is_indrabase config (harvestQueue s)
      s.claim_index with ⟨h0, hp⟩ | ⟨h0, hq, hx⟩
  · -- no indrabase cores: everything indrabase is wiped.
    have hqids : queueIds s2.indrabase_queue = [] := by
      rw [heq, on_new_session_queue, hp]
      rfl
    have hidx : s2.claim_index = [] := by
      rw [heq, on_new_session_index, hp]
    have hcids : coreIds s2.availability_cores = [] := by
      rw [heq, hN, coreIds_replicate]
    have hsched : s2.scheduled = s.scheduled := by rw [heq]; rfl
    refine ⟨?_, ?_, ?_, ?_, ?_, ?_, ?_⟩
    · show (queueIds s2.indrabase_queue ++ schedIds s2.scheduled ++
        coreIds s2.availability_cores).Nodup
      rw [hqids, hcids, hsched]
      rw [List.nil_append, List.append_nil]
      refine h1.sublist ?_
      exact (List.sublist_append_right _ _).trans (List.sublist_append_left _ _)
    · intro x hx2
      rw [List.mem_append, hqids, hcids] at hx2
      rcases hx2 with hx2 | hx2 <;> exact absurd hx2 (List.not_mem_nil x)
    · show s2.claim_index.Pairwise (· < ·)
      rw [hidx]
      exact List.Pairwise.nil
    · show s2.scheduled.Pairwise fun a b => a.core < b.core
      rw [hsched]
      exact hSS
    · intro a _
      rw [heq] at *
      rw [hN]
      exact getD_replicate_none _ _
    · intro hne
      exact absurd h0 hne
    · intro _
      exact ⟨hqids, hcids⟩
  · -- live indrabase cores: prune and re-affinitize.
    have hqids : queueIds s2.indrabase_queue =
        entryIds (pruneQueue is_indrabase config (harvestQueue s)
          s.claim_index).1 := by
      rw [heq, on_new_session_queue]
      exact hq
    have hidx : s2.claim_index =
        (pruneQueue is_indrabase config (harvestQueue s) s.claim_index).2 := by
      rw [heq, on_new_session_index]
      exact hx
    have hcids : coreIds s2.availability_cores = [] := by
      rw [heq, hN, coreIds_replicate]
    have hsched : s2.scheduled = s.scheduled := by rw [heq]; rfl
    have hkept_sub : List.Sublist
        (entryIds (pruneQueue is_indrabase config (harvestQueue s)
          s.claim_index).1)
        (entryIds (harvestQueue s)) := by
      unfold entryIds
      exact List.Sublist.map _
        (pruneQueue_sublist is_indrabase config (harvestQueue s)
          s.claim_index).1
    refine ⟨?_, ?_, ?_, ?_, ?_, ?_, ?_⟩
    · show (queueIds s2.indrabase_queue ++ schedIds s2.scheduled ++
        coreIds s2.availability_cores).Nodup
      rw [hqids, hcids, hsched, List.append_nil]
      refine h3.sublist ?_
      refine List.Sublist.append_right ?_ _
      rw [← harvestQueue_ids]
      exact hkept_sub
    · intro x hx2
      rw [List.mem_append, hqids, hcids] at hx2
      rcases hx2 with hx2 | hx2
      · rw [hidx]
        exact pruneQueue_kept_indexed is_indrabase config (harvestQueue s)
          s.claim_index htq_nd htq_idx x hx2
      · exact absurd hx2 (List.not_mem_nil x)
    · show s2.claim_index.Pairwise (· < ·)
      rw [hidx]
      exact hI.sublist (pruneQueue_sublist is_indrabase config
        (harvestQueue s) s.claim_index).2
    · show s2.scheduled.Pairwise fun a b => a.core < b.core
      rw [hsched]
      exact hSS
    · intro a _
      rw [heq] at *
      rw [hN]
      exact getD_replicate_none _ _
    · intro _
      intro x hx2
      rw [show schedIds s2.scheduled = schedIds s.scheduled by rw [hsched]]
        at hx2
      rcases hSI with hSI | hSI
      · rw [hidx]
        exact pruneQueue_mem_preserved is_indrabase config (harvestQueue s)
          s.claim_index x (hSI x hx2) (hdisj x hx2)
      · rw [hSI] at hx2
        exact absurd hx2 (List.not_mem_nil x)
    · intro hz
      exact absurd hz h0

/-- Unfolding: the occupied sweep with nothing scheduled. -/
theorem occupiedSweep_nil (no : List Nat) (cores : List (Option CoreOccupied)) :
    occupiedSweep no [] cores = ([], cores) := rfl

/-- Unfolding: the occupied sweep keeps everything when nothing is
occupied. -/
theorem occupiedSweep_cons_nil (a : CoreAssignment) (rest : List CoreAssignment)
    (cores : List (Option CoreOccupied)) :
    occupiedSweep [] (a :: rest) cores =
      (a :: (occupiedSweep [] rest cores).1,
        (occupiedSweep [] rest cores).2) := rfl

/-- Unfolding: the occupied sweep at a cons of both lists. -/
theorem occupiedSweep_cons_cons (oi : Nat) (os : List Nat)
    (a : CoreAssignment) (rest : List CoreAssignment)
    (cores : List (Option CoreOccupied)) :
    occupiedSweep (oi :: os) (a :: rest) cores =
      if oi = a.core then
        occupiedSweep os rest (cores.set a.core (some a.to_core_occupied))
      else
        (a :: (occupiedSweep (oi :: os) rest cores).1,
          (occupiedSweep (oi :: os) rest cores).2) := by
  rw [occupiedSweep]

/-- The occupied sweep keeps a subsequence of Scheduled, moves claim ids
from the Scheduled side to the cores side without inventing any, leaves
every kept entry's core free, and leaves cores off the Scheduled core set
untouched. -/
theorem occupiedSweep_spec :
    ∀ (sched : List CoreAssignment) (no : List Nat)
      (cores : List (Option CoreOccupied)),
      sched.Pairwise (fun a b => a.core < b.core) →
      (∀ a ∈ sched, cores.getD a.core none = none) →
      List.Sublist (occupiedSweep no sched cores).1 sched ∧
      List.Subperm
        (schedIds (occupiedSweep no sched cores).1 ++
          coreIds (occupiedSweep no sched cores).2)
        (schedIds sched ++ coreIds cores) ∧
      (∀ a ∈ (occupiedSweep no sched cores).1,
        (occupiedSweep no sched cores).2.getD a.core none = none) ∧
      (∀ j, (∀ a ∈ sched, a.core ≠ j) →
        (occupiedSweep no sched cores).2.getD j none =
          cores.getD j none) := by
  intro sched
  induction sched with
  | nil =>
    intro no cores _ _
    rw [occupiedSweep_nil]
    refine ⟨List.nil_sublist _, ?_, ?_, ?_⟩
    · exact List.Subperm.refl _
    · intro a ha; exact absurd ha (List.not_mem_nil a)
    · intro j _; rfl
  | cons a rest ih =>
    intro no cores hsort hfree
    rw [List.pairwise_cons] at hsort
    have hfree_rest : ∀ b ∈ rest, cores.getD b.core none = none :=
      fun b hb => hfree b (List.mem_cons_of_mem _ hb)
    have hfree_a : cores.getD a.core none = none :=
      hfree a (List.mem_cons_self _ _)
    cases no with
    | nil =>
      rcases ih [] cores hsort.2 hfree_rest with ⟨s1, s2, s3, s4⟩
      rw [occupiedSweep_cons_nil]
      refine ⟨s1.cons₂ _, ?_, ?_, ?_⟩
      · cases hk : a.kind with
        | Indracore =>
          rw [show schedIds (a :: (occupiedSweep [] rest cores).1) =
              schedIds (occupiedSweep [] rest cores).1 from
              schedIds_cons_ic _ _ hk,
            schedIds_cons_ic _ _ hk]
          exact s2
        | Indrabase col r =>
          rw [schedIds_cons_ib _ _ col r hk, schedIds_cons_ib _ _ col r hk]
          rcases s2 with ⟨l, hp, hs⟩
          exact ⟨a.indra_id :: l, hp.cons _, hs.cons₂ _⟩
      · intro b hb
        rcases List.mem_cons.1 hb with hb | hb
        · subst hb
          rw [s4 b.core (fun x hx hxe => by
            have := hsort.1 x hx
            omega)]
          exact hfree_a
        · exact s3 b hb
      · intro j hj
        exact s4 j (fun x hx => hj x (List.mem_cons_of_mem _ hx))
    | cons oi os =>
      rw [occupiedSweep_cons_cons]
      by_cases hoi : oi = a.core
      · rw [if_pos hoi]
        have hfree_rest' : ∀ b ∈ rest,
            (cores.set a.core (some a.to_core_occupied)).getD b.core none =
              none := by
          intro b hb
          rw [getD_set_ne _ (by have := hsort.1 b hb; omega)]
          exact hfree_rest b hb
        rcases ih os (cores.set a.core (some a.to_core_occupied)) hsort.2
          hfree_rest' with ⟨s1, s2, s3, s4⟩
        refine ⟨s1.cons _, ?_, s3, ?_⟩
        · refine s2.trans ?_
          have hinst := coreIds_install cores a.core a.to_core_occupied hfree_a
          cases hk : a.kind with
          | Indracore =>
            have hocc : a.to_core_occupied = .Indracore := by
              unfold CoreAssignment.to_core_occupied
              rw [hk]
            rw [hocc] at hinst ⊢
            rw [schedIds_cons_ic _ _ hk]
            refine subperm_append_left' ?_
            simpa using hinst
          | Indrabase col r =>
            have hocc : a.to_core_occupied =
                .Indrabase ⟨⟨a.indra_id, col⟩, r⟩ := by
              unfold CoreAssignment.to_core_occupied
              rw [hk]
            rw [hocc] at hinst ⊢
            rw [schedIds_cons_ib _ _ col r hk]
            have hinst2 : List.Subperm
                (coreIds (cores.set a.core
                  (some (CoreOccupied.Indrabase ⟨⟨a.indra_id, col⟩, r⟩))))
                (a.indra_id :: coreIds cores) := by
              simpa using hinst
            refine (subperm_append_left' hinst2).trans ?_
            exact (List.perm_middle).subperm
        · intro j hj
          rw [s4 j (fun x hx => hj x (List.mem_cons_of_mem _ hx))]
          rw [getD_set_ne _ (hj a (List.mem_cons_self _ _))]
      · rw [if_neg hoi]
        rcases ih (oi :: os) cores hsort.2 hfree_rest with ⟨s1, s2, s3, s4⟩
        refine ⟨s1.cons₂ _, ?_, ?_, ?_⟩
        · cases hk : a.kind with
          | Indracore =>
            rw [show schedIds (a :: (occupiedSweep (oi :: os) rest cores).1) =
                schedIds (occupiedSweep (oi :: os) rest cores).1 from
                schedIds_cons_ic _ _ hk,
              schedIds_cons_ic _ _ hk]
            exact s2
          | Indrabase col r =>
            rw [schedIds_cons_ib _ _ col r hk, schedIds_cons_ib _ _ col r hk]
            rcases s2 with ⟨l, hp, hs⟩
            exact ⟨a.indra_id :: l, hp.cons _, hs.cons₂ _⟩
        · intro b hb
          rcases List.mem_cons.1 hb with hb | hb
          · subst hb
            rw [s4 b.core (fun x hx hxe => by
              have := hsort.1 x hx
              omega)]
            exact hfree_a
          · exact s3 b hb
        · intro j hj
          exact s4 j (fun x hx => hj x (List.mem_cons_of_mem _ hx))

/-- clear() preserves the scheduler invariant: the queue grows only by
scheduled claim ids (so distinctness and indexing survive), the index is
untouched, and the Scheduled list is emptied. -/
theorem clear_inv (is_indrabase : IndraId → Bool) (config : HostConfig)
    (s s' : SchedulerState) (h : clear is_indrabase config s = some s')
    (hL : LiveNodup s) (hQ : QCInIndex s) (hI : IdxSorted s)
    (hSI : config.indrabase_cores ≠ 0 → SInIndex s)
    (hZ : config.indrabase_cores = 0 → ZeroEmpty s) :
    LiveNodup s' ∧ QCInIndex s' ∧ IdxSorted s' ∧ SchedSorted s' ∧
    SchedFree s' ∧ s'.scheduled = [] ∧
    (config.indrabase_cores = 0 → ZeroEmpty s') := by
  rcases clear_elim is_indrabase config s s' h with ⟨q', hfold, heq⟩
  subst heq
  rcases clearFold_fold is_indrabase config s.scheduled s.indrabase_queue q'
    hfold with ⟨added, hq1, hsub⟩
  have hq'ids : queueIds q' = queueIds s.indrabase_queue ++ entryIds added := by
    show entryIds q'.queue = entryIds s.indrabase_queue.queue ++ entryIds added
    rw [hq1, entryIds_append]
  refine ⟨?_, ?_, hI, List.Pairwise.nil, ?_, rfl, ?_⟩
  · show (queueIds q' ++ schedIds ([] : List CoreAssignment) ++
      coreIds s.availability_cores).Nodup
    rw [show schedIds ([] : List CoreAssignment) = [] from rfl,
      List.append_nil, hq'ids]
    refine hL.sublist ?_
    refine List.Sublist.append_right ?_ _
    exact List.Sublist.append_left hsub _
  · intro x hx
    rw [List.mem_append, hq'ids] at hx
    show x ∈ s.claim_index
    rcases hx with hx | hx
    · rcases List.mem_append.1 hx with hx2 | hx2
      · exact hQ x (List.mem_append.2 (Or.inl hx2))
      · -- an id moved from Scheduled back into the queue
        by_cases h0 : config.indrabase_cores = 0
        · have : q' = s.indrabase_queue :=
            clearFold_zero is_indrabase config h0 s.scheduled _ _ hfold
          rw [this] at hq1
          have hadded : added = [] := by
            have hlen := congrArg List.length hq1
            rw [List.length_append] at hlen
            have hz0 : added.length = 0 := by omega
            exact List.eq_nil_of_length_eq_zero hz0
          rw [hadded] at hx2
          exact absurd hx2 (List.not_mem_nil x)
        · exact hSI h0 x (hsub.subset hx2)
    · exact hQ x (List.mem_append.2 (Or.inr hx))
  · intro a ha
    exact absurd ha (List.not_mem_nil a)
  · intro h0
    have hqq : q' = s.indrabase_queue :=
      clearFold_zero is_indrabase config h0 s.scheduled _ _ hfold
    refine ⟨?_, (hZ h0).2⟩
    show queueIds q' = []
    rw [hqq]
    exact (hZ h0).1

/-- schedule() called after clear (empty Scheduled list) re-establishes the
full invariant: the new Scheduled list is sorted on free cores, its claim
ids come from the queue, and everything stays indexed and distinct. -/
theorem schedule_inv (indracores : List IndraId) (config : HostConfig)
    (just_freed : List (Nat × FreedReason)) (now : Nat)
    (s s' : SchedulerState)
    (h : schedule indracores config just_freed now s = some s')
    (hnil : s.scheduled = [])
    (hL : LiveNodup s) (hQ : QCInIndex s) (hI : IdxSorted s)
    (hZ : config.indrabase_cores = 0 → ZeroEmpty s) :
    LiveNodup s' ∧ QCInIndex s' ∧ IdxSorted s' ∧ SchedSorted s' ∧
    SchedFree s' ∧ SInIndex s' ∧
    (config.indrabase_cores = 0 → ZeroEmpty s' ∧
      schedIds s'.scheduled = []) := by
  rcases schedule_some_elim indracores config just_freed now s s' h with
    ⟨s2, hf, hbr⟩
  rcases free_cores_inv config just_freed s s2 hf hL hQ hI with
    ⟨hL2, hQ2, hI2, _, _, hZ2⟩
  rcases free_cores_frames config just_freed s s2 hf with ⟨hfr1, _, _⟩
  have hs2nil : s2.scheduled = [] := by rw [hfr1, hnil]
  have hZ2' : config.indrabase_cores = 0 → ZeroEmpty s2 :=
    fun h0 => hZ2 (hZ h0)
  have hL2' : (queueIds s2.indrabase_queue ++
      coreIds s2.availability_cores).Nodup := by
    have hL2c := hL2
    unfold LiveNodup at hL2c
    rw [hs2nil] at hL2c
    simpa [schedIds] using hL2c
  rcases hbr with ⟨hg, heq⟩ | ⟨hg, updates, q', hsw, heq⟩
  · subst heq
    refine ⟨hL2, hQ2, hI2, ?_, ?_, ?_, ?_⟩
    · show s'.scheduled.Pairwise _
      rw [hs2nil]
      exact List.Pairwise.nil
    · intro a ha
      rw [hs2nil] at ha
      exact absurd ha (List.not_mem_nil a)
    · intro x hx
      rw [show schedIds s'.scheduled = [] by rw [hs2nil]; rfl] at hx
      exact absurd hx (List.not_mem_nil x)
    · intro h0
      refine ⟨hZ2' h0, ?_⟩
      rw [hs2nil]
      rfl
  · rw [hs2nil] at hsw
    have hpost := sweep_spec
      (fun core => group_assigned_to_core config s2 core now) indracores []
      List.Pairwise.nil s2.availability_cores 0 0 s2.indrabase_queue
      updates q' (by omega)
      (by intro b hb; exact absurd hb (by simp)) hsw
    obtain ⟨hC, hP, hS, hU, _⟩ := hpost
    have happ := compat_apply updates [] [] 0 0 0 hC List.Pairwise.nil
      (by omega) (by simp) (by simp) (by intro b hb; simp at hb)
    have hsched' : s'.scheduled = applyUpdatesAux [] updates 0 := by
      rw [heq]
      show applyUpdates s2.scheduled updates = _
      rw [hs2nil]
      rfl
    have hqueue' : s'.indrabase_queue = q' := by rw [heq]
    have hcores' : s'.availability_cores = s2.availability_cores := by
      rw [heq]
    have hidx' : s'.claim_index = s2.claim_index := by rw [heq]
    have hpermS : List.Perm s'.scheduled (updates.map Prod.snd) := by
      rw [hsched']
      simpa using happ.2
    have hidsperm : List.Perm (schedIds s'.scheduled) (updIds updates) := by
      unfold updIds
      unfold schedIds
      exact List.Perm.filterMap _ hpermS
    have hq'sub : List.Sublist (queueIds q')
        (queueIds s2.indrabase_queue) := by
      unfold queueIds
      exact List.Sublist.map _ hS
    refine ⟨?_, ?_, ?_, ?_, ?_, ?_, ?_⟩
    · show (queueIds s'.indrabase_queue ++ schedIds s'.scheduled ++
        coreIds s'.availability_cores).Nodup
      rw [hqueue', hcores']
      have hchain : List.Perm
          ((queueIds q' ++ schedIds s'.scheduled) ++
            coreIds s2.availability_cores)
          (queueIds s2.indrabase_queue ++ coreIds s2.availability_cores) := by
        refine List.Perm.append_right _ ?_
        exact (hidsperm.append_left (queueIds q')).trans hP
      exact hchain.symm.nodup hL2'
    · intro x hx
      rw [hqueue', hcores', List.mem_append] at hx
      rw [hidx']
      rcases hx with hx | hx
      · exact hQ2 x (List.mem_append.2 (Or.inl (hq'sub.subset hx)))
      · exact hQ2 x (List.mem_append.2 (Or.inr hx))
    · show s'.claim_index.Pairwise (· < ·)
      rw [hidx']
      exact hI2
    · show s'.scheduled.Pairwise _
      rw [hsched']
      exact happ.1
    · intro a ha
      rw [hcores']
      have hmem : a ∈ updates.map Prod.snd := hpermS.subset ha
      rcases List.mem_map.1 hmem with ⟨pa, hpa, hpa2⟩
      rcases hU pa hpa with ⟨k, hk1, hk2⟩
      have hak : a.core = k := by rw [← hpa2]; omega
      rw [hak, List.getD_eq_getElem?_getD, ← List.get?_eq_getElem?, hk2]
      rfl
    · intro x hx
      rw [hidx']
      have hx2 : x ∈ updIds updates := hidsperm.subset hx
      have hx3 : x ∈ queueIds s2.indrabase_queue :=
        hP.subset (List.mem_append.2 (Or.inr hx2))
      exact hQ2 x (List.mem_append.2 (Or.inl hx3))
    · intro h0
      rcases hZ2' h0 with ⟨hq20, hc0⟩
      have hq'nil : queueIds q' = [] := by
        have := hq'sub
        rw [hq20] at this
        exact List.sublist_nil.1 this
      have hupd : updIds updates = [] := by
        have hPn := hP
        rw [hq20] at hPn
        have := hPn.eq_nil
        exact (List.append_eq_nil.1 this).2
      refine ⟨⟨?_, ?_⟩, ?_⟩
      · rw [hqueue']
        exact hq'nil
      · rw [hcores']
        exact hc0
      · have := hidsperm
        rw [hupd] at this
        exact this.eq_nil

/-- occupied() with pending cores: the Scheduled list shrinks to the
unmatched entries. -/
theorem occupied_sched (now_occupied : List Nat) (s : SchedulerState)
    (hemp : ¬ now_occupied.isEmpty = true) :
    (occupied now_occupied s).scheduled =
      (occupiedSweep now_occupied s.scheduled s.availability_cores).1 := by
  unfold occupied
  rw [if_neg hemp]

/-- occupied() with pending cores: the cores receive the matched
occupants. -/
theorem occupied_cores (now_occupied : List Nat) (s : SchedulerState)
    (hemp : ¬ now_occupied.isEmpty = true) :
    (occupied now_occupied s).availability_cores =
      (occupiedSweep now_occupied s.scheduled s.availability_cores).2 := by
  unfold occupied
  rw [if_neg hemp]

/-- occupied() leaves the claim queue alone. -/
theorem occupied_queue (now_occupied : List Nat) (s : SchedulerState) :
    (occupied now_occupied s).indrabase_queue = s.indrabase_queue := by
  unfold occupied
  split
  · rfl
  · rfl

/-- occupied() leaves the claim index alone. -/
theorem occupied_index (now_occupied : List Nat) (s : SchedulerState) :
    (occupied now_occupied s).claim_index = s.claim_index := by
  unfold occupied
  split
  · rfl
  · rfl

/-- occupied() preserves the scheduler invariant: matched assignments move
from Scheduled onto their (previously free) cores, so distinctness,
indexing, sortedness and freeness of the remainder all survive. -/
theorem occupied_inv (now_occupied : List Nat) (s : SchedulerState)
    (hL : LiveNodup s) (hQ : QCInIndex s) (hI : IdxSorted s)
    (hSS : SchedSorted s) (hF : SchedFree s) (hSI : SInIndex s) :
    LiveNodup (occupied now_occupied s) ∧ QCInIndex (occupied now_occupied s) ∧
    IdxSorted (occupied now_occupied s) ∧ SchedSorted (occupied now_occupied s) ∧
    SchedFree (occupied now_occupied s) ∧ SInIndex (occupied now_occupied s) ∧
    (ZeroEmpty s → schedIds s.scheduled = [] →
      ZeroEmpty (occupied now_occupied s) ∧
      schedIds (occupied now_occupied s).scheduled = []) := by
  by_cases hemp : now_occupied.isEmpty
  · have hid : occupied now_occupied s = s := by
      unfold occupied
      rw [if_pos hemp]
    rw [hid]
    exact ⟨hL, hQ, hI, hSS, hF, hSI, fun h1 h2 => ⟨h1, h2⟩⟩
  · have e1 := occupied_sched now_occupied s hemp
    have e2 := occupied_cores now_occupied s hemp
    have e3 := occupied_queue now_occupied s
    have e4 := occupied_index now_occupied s
    rcases occupiedSweep_spec s.scheduled now_occupied s.availability_cores
      hSS hF with ⟨s1, s2, s3, s4⟩
    have hssub : List.Sublist
        (schedIds (occupiedSweep now_occupied s.scheduled
          s.availability_cores).1)
        (schedIds s.scheduled) := by
      unfold schedIds
      exact List.Sublist.filterMap _ s1
    refine ⟨?_, ?_, ?_, ?_, ?_, ?_, ?_⟩
    · unfold LiveNodup
      rw [e1, e2, e3, List.append_assoc]
      refine subperm_nodup (subperm_append_left'
        (t := queueIds s.indrabase_queue) s2) ?_
      rw [← List.append_assoc]
      exact hL
    · intro x hx
      rw [e4]
      rw [e3, e2, List.mem_append] at hx
      rcases hx with hx | hx
      · exact hQ x (List.mem_append.2 (Or.inl hx))
      · have hx3 := s2.subset (List.mem_append.2 (Or.inr hx))
        rcases List.mem_append.1 hx3 with hx4 | hx4
        · exact hSI x hx4
        · exact hQ x (List.mem_append.2 (Or.inr hx4))
    · unfold IdxSorted
      rw [e4]
      exact hI
    · unfold SchedSorted
      rw [e1]
      exact hSS.sublist s1
    · intro a ha
      rw [e1] at ha
      rw [e2]
      exact s3 a ha
    · intro x hx
      rw [e4]
      rw [e1] at hx
      exact hSI x (hssub.subset hx)
    · intro hZ hsnil
      have hcnil : coreIds (occupiedSweep now_occupied s.scheduled
          s.availability_cores).2 = [] := by
        rw [List.eq_nil_iff_forall_not_mem]
        intro x hx
        have hx2 := s2.subset (List.mem_append.2 (Or.inr hx))
        rw [hsnil, hZ.2] at hx2
        exact absurd hx2 (by simp)
      refine ⟨⟨?_, ?_⟩, ?_⟩
      · rw [show queueIds (occupied now_occupied s).indrabase_queue =
          queueIds s.indrabase_queue by rw [e3]]
        exact hZ.1
      · rw [e2]
        exact hcnil
      · rw [e1]
        have := hssub
        rw [hsnil] at this
        exact List.sublist_nil.1 this

/-- Case analysis of add_indrabase_claim: silent no-op, or a genuine insert
of a fresh claim (which forces a nonzero indrabase core count). -/
theorem add_claim_cases (is_indrabase : IndraId → Bool) (config : HostConfig)
    (claim : IndrabaseClaim) (s s' : SchedulerState)
    (h : add_indrabase_claim is_indrabase config claim s = some s') :
    s' = s ∨
    (claim.indra ∉ s.claim_index ∧ config.indrabase_cores ≠ 0 ∧
      ∃ q', enqueue_entry s.indrabase_queue ⟨claim, 0⟩
          config.indrabase_cores = some q' ∧
        s' = { s with claim_index := sortedInsert claim.indra s.claim_index
                      indrabase_queue := q' }) := by
  have h2 : (if ¬ is_indrabase claim.indra then some s
      else if s.indrabase_queue.queue.length ≥
          config.indrabase_cores * config.scheduling_lookahead then some s
      else if claim.indra ∈ s.claim_index then some s
      else match enqueue_entry s.indrabase_queue ⟨claim, 0⟩
          config.indrabase_cores with
        | none => none
        | some q' =>
          some { s with claim_index := sortedInsert claim.indra s.claim_index
                        indrabase_queue := q' }) = some s' := h
  split at h2
  · left; exact (Option.some.inj h2).symm
  · split at h2
    · left; exact (Option.some.inj h2).symm
    · split at h2
      · left; exact (Option.some.inj h2).symm
      · rename_i hcap hmem
        right
        cases henq : enqueue_entry s.indrabase_queue ⟨claim, 0⟩
            config.indrabase_cores with
        | none => rw [henq] at h2; exact absurd h2 (by simp)
        | some q' =>
          rw [henq] at h2
          refine ⟨hmem, ?_, q', rfl, (Option.some.inj h2).symm⟩
          intro h0
          unfold enqueue_entry at henq
          rw [if_pos h0] at henq
          exact absurd henq (by simp)

/-- add_indrabase_claim preserves the scheduler invariant: a claim is only
inserted when its id is absent from ClaimIndex, so the queued ids stay
distinct from everything live, and the id is indexed at its sorted
position. -/
theorem add_inv (is_indrabase : IndraId → Bool) (config : HostConfig)
    (claim : IndrabaseClaim) (s s' : SchedulerState)
    (h : add_indrabase_claim is_indrabase config claim s = some s')
    (hL : LiveNodup s) (hQ : QCInIndex s) (hI : IdxSorted s)
    (hSS : SchedSorted s) (hF : SchedFree s) (hSI : SInIndex s)
    (hZ : config.indrabase_cores = 0 → ZeroEmpty s ∧
      schedIds s.scheduled = []) :
    LiveNodup s' ∧ QCInIndex s' ∧ IdxSorted s' ∧ SchedSorted s' ∧
    SchedFree s' ∧ SInIndex s' ∧
    (config.indrabase_cores = 0 → ZeroEmpty s' ∧
      schedIds s'.scheduled = []) := by
  rcases add_claim_cases is_indrabase config claim s s' h with heq |
    ⟨hmem, h0, q', henq, heq⟩
  · subst heq
    exact ⟨hL, hQ, hI, hSS, hF, hSI, hZ⟩
  · subst heq
    rcases enqueue_entry_some s.indrabase_queue ⟨claim, 0⟩
      config.indrabase_cores q' henq with ⟨hq1, hq2⟩
    have hx_q : claim.indra ∉ queueIds s.indrabase_queue := fun hm =>
      hmem (hQ claim.indra (List.mem_append.2 (Or.inl hm)))
    have hx_c : claim.indra ∉ coreIds s.availability_cores := fun hm =>
      hmem (hQ claim.indra (List.mem_append.2 (Or.inr hm)))
    have hx_s : claim.indra ∉ schedIds s.scheduled := fun hm =>
      hmem (hSI claim.indra hm)
    refine ⟨?_, ?_, ?_, hSS, hF, ?_, ?_⟩
    · show (queueIds q' ++ schedIds s.scheduled ++
        coreIds s.availability_cores).Nodup
      rw [hq2, List.append_assoc]
      refine (perm_snoc_out (queueIds s.indrabase_queue)
        (schedIds s.scheduled ++ coreIds s.availability_cores)
        claim.indra).symm.nodup ?_
      rw [List.nodup_cons]
      constructor
      · intro hm
        rcases List.mem_append.1 hm with hm | hm
        · exact hx_q hm
        · rcases List.mem_append.1 hm with hm | hm
          · exact hx_s hm
          · exact hx_c hm
      · rw [← List.append_assoc]
        exact hL
    · intro x hx
      show x ∈ sortedInsert claim.indra s.claim_index
      rw [List.mem_append, hq2] at hx
      rw [sortedInsert_mem]
      rcases hx with hx | hx
      · rcases List.mem_append.1 hx with hm | hm
        · exact Or.inr (hQ x (List.mem_append.2 (Or.inl hm)))
        · exact Or.inl (by simpa using hm)
      · exact Or.inr (hQ x (List.mem_append.2 (Or.inr hx)))
    · show (sortedInsert claim.indra s.claim_index).Pairwise (· < ·)
      exact sortedInsert_sorted claim.indra s.claim_index hI hmem
    · intro x hx
      show x ∈ sortedInsert claim.indra s.claim_index
      rw [sortedInsert_mem]
      exact Or.inr (hSI x hx)
    · intro hz
      exact absurd hz h0

/-- The scheduler invariant holds, phase by phase, in every state reachable
through the entry points under the documented block discipline. -/
theorem reach_inv : ∀ (ph : Ph) (config : HostConfig) (s : SchedulerState),
    Reach ph config s → PhInv ph config s := by
  intro ph config s h
  induction h with
  | genesis =>
    refine ⟨⟨?_, ?_, ?_, ?_, ?_⟩, ?_, ?_⟩
    · exact List.nodup_nil
    · intro x hx
      exact absurd hx (List.not_mem_nil x)
    · exact List.Pairwise.nil
    · exact List.Pairwise.nil
    · intro a ha
      exact absurd ha (List.not_mem_nil a)
    · intro _ x hx
      exact absurd hx (List.not_mem_nil x)
    · intro _
      exact ⟨⟨rfl, rfl⟩, rfl⟩
  | newSession config s indracores is_indrabase newConfig n_validators
      current_block hreach ih =>
    obtain ⟨⟨hL, hQ, hI, hSS, hF⟩, hSIc, hZc⟩ := ih
    have hSI : SInIndex s ∨ schedIds s.scheduled = [] := by
      by_cases h0 : config.indrabase_cores = 0
      · exact Or.inr (hZc h0).2
      · exact Or.inl (hSIc h0)
    rcases on_new_session_inv indracores is_indrabase newConfig n_validators
      current_block s _ rfl hL hQ hI hSS hSI with
      ⟨g1, g2, g3, g4, g5, g6, g7⟩
    exact ⟨⟨g1, g2, g3, g4, g5⟩, g6, g7⟩
  | clearStep ph config s is_indrabase s' hph hreach hclear ih =>
    rcases hph with hph | hph
    · subst hph
      obtain ⟨⟨hL, hQ, hI, hSS, hF⟩, hSIc, hZc⟩ := ih
      rcases clear_inv is_indrabase config s s' hclear hL hQ hI hSIc
        (fun h0 => (hZc h0).1) with ⟨g1, g2, g3, g4, g5, g6, g7⟩
      exact ⟨⟨g1, g2, g3, g4, g5⟩, g6, g7⟩
    · subst hph
      obtain ⟨⟨hL, hQ, hI, hSS, hF⟩, hSIc, hZc⟩ := ih
      rcases clear_inv is_indrabase config s s' hclear hL hQ hI hSIc hZc
        with ⟨g1, g2, g3, g4, g5, g6, g7⟩
      exact ⟨⟨g1, g2, g3, g4, g5⟩, g6, g7⟩
  | scheduleStep config s indracores just_freed now s' hreach hsched ih =>
    obtain ⟨⟨hL, hQ, hI, hSS, hF⟩, hnil, hZ⟩ := ih
    rcases schedule_inv indracores config just_freed now s s' hsched hnil
      hL hQ hI hZ with ⟨g1, g2, g3, g4, g5, g6, g7⟩
    exact ⟨⟨g1, g2, g3, g4, g5⟩, g6, g7⟩
  | occupiedStep config s now_occupied hreach hcontract ih =>
    obtain ⟨⟨hL, hQ, hI, hSS, hF⟩, hSI, hZ⟩ := ih
    rcases occupied_inv now_occupied s hL hQ hI hSS hF hSI with
      ⟨g1, g2, g3, g4, g5, g6, g7⟩
    refine ⟨⟨g1, g2, g3, g4, g5⟩, g6, ?_⟩
    intro h0
    exact g7 (hZ h0).1 (hZ h0).2
  | addStep config s is_indrabase c s' hreach hadd ih =>
    obtain ⟨⟨hL, hQ, hI, hSS, hF⟩, hSI, hZ⟩ := ih
    rcases add_inv is_indrabase config c s s' hadd hL hQ hI hSS hF hSI hZ
      with ⟨g1, g2, g3, g4, g5, g6, g7⟩
    exact ⟨⟨g1, g2, g3, g4, g5⟩, g6, g7⟩
  | endBlock config s hreach ih =>
    obtain ⟨hcore, hSI, hZ⟩ := ih
    exact ⟨hcore, fun _ => hSI, hZ⟩

/-- A concrete reachable state with a pending claim: one block of session
change, clear, schedule, occupied and a claim submission. -/
theorem reach_exQueued : Reach .postOcc exCfg exQueuedState := by
  have h1 : Reach .postSC exCfg exSessState := by
    have h0 := Reach.newSession genesisConfig genesisState [] exLive exCfg
      1 0 Reach.genesis
    have he : on_new_session [] exLive exCfg 1 0 genesisState =
        exSessState := by decide
    rw [he] at h0
    exact h0
  have h2 : Reach .postClear exCfg exSessState :=
    Reach.clearStep .postSC exCfg exSessState exLive exSessState
      (Or.inr rfl) h1 (by decide)
  have h3 : Reach .postSched exCfg exSessState :=
    Reach.scheduleStep exCfg exSessState [] [] 1 exSessState h2 (by decide)
  have h4 : Reach .postOcc exCfg exSessState := by
    have h0 := Reach.occupiedStep exCfg exSessState [] h3
      ⟨List.Pairwise.nil, fun i hi => absurd hi (List.not_mem_nil i)⟩
    have he : occupied [] exSessState = exSessState := by decide
    rw [he] at h0
    exact h0
  exact Reach.addStep exCfg exSessState exLive ⟨7, 9⟩ exQueuedState h4
    (by decide)

/-- The same run, one block later: the claim is now scheduled on core 0. -/
theorem reach_exSched : Reach .postSched exCfg exSchedState := by
  have h5 : Reach .bdry exCfg exQueuedState :=
    Reach.endBlock exCfg exQueuedState reach_exQueued
  have h6 : Reach .postClear exCfg exQueuedState :=
    Reach.clearStep .bdry exCfg exQueuedState exLive exQueuedState
      (Or.inl rfl) h5 (by decide)
  exact Reach.scheduleStep exCfg exQueuedState [] [] 2 exSchedState h6
    (by decide)

/-- C6: in every state reachable through the scheduler's entry points under
the documented per-block call discipline, the Scheduled list is strictly
sorted ascending by core index, has no duplicate core indices, and has no
entry for a core that is currently occupied. -/
theorem claim_C6 (ph : Ph) (config : HostConfig) (s : SchedulerState)
    (h : Reach ph config s) :
    SchedSorted s ∧ (s.scheduled.map fun a => a.core).Nodup ∧ SchedFree s := by
  have hinv := reach_inv ph config s h
  have hcore : CoreInv s := by
    cases ph with
    | bdry => exact hinv.1
    | postSC => exact hinv.1
    | postClear => exact hinv.1
    | postSched => exact hinv.1
    | postOcc => exact hinv.1
  obtain ⟨_, _, _, hSS, hF⟩ := hcore
  refine ⟨hSS, ?_, hF⟩
  show (s.scheduled.map fun a => a.core).Pairwise (· ≠ ·)
  rw [List.pairwise_map]
  refine hSS.imp ?_
  intro a b hab
  omega

/-- C6 witness: the documented two-block run that schedules workload 7 on
core 0 satisfies the Scheduled-list invariant. -/
theorem claim_C6_witness :
    SchedSorted exSchedState ∧
    (exSchedState.scheduled.map fun a => a.core).Nodup ∧
    SchedFree exSchedState :=
  claim_C6 .postSched exCfg exSchedState reach_exSched

/-- C7: in every state reachable through the scheduler's entry points under
the documented per-block call discipline, each indrabase workload id has at
most one live entry across the claim queue and the occupied cores combined
(their concatenation has no duplicates). -/
theorem claim_C7 (ph : Ph) (config : HostConfig) (s : SchedulerState)
    (h : Reach ph config s) :
    (queueIds s.indrabase_queue ++ coreIds s.availability_cores).Nodup := by
  have hinv := reach_inv ph config s h
  have hL : LiveNodup s := by
    cases ph with
    | bdry => exact hinv.1.1
    | postSC => exact hinv.1.1
    | postClear => exact hinv.1.1
    | postSched => exact hinv.1.1
    | postOcc => exact hinv.1.1
  have hL2 : (queueIds s.indrabase_queue ++
      (schedIds s.scheduled ++ coreIds s.availability_cores)).Nodup := by
    rw [← List.append_assoc]
    exact hL
  exact hL2.sublist (List.Sublist.append_left
    (List.sublist_append_right _ _) _)

/-- C7 witness: after the documented one-block run that queues workload 7,
the queue and cores together carry no duplicate claim. -/
theorem claim_C7_witness :
    (queueIds exQueuedState.indrabase_queue ++
      coreIds exQueuedState.availability_cores).Nodup :=
  claim_C7 .postOcc exCfg exQueuedState reach_exQueued

end SelendraScheduler
